import Mathlib

/-!
A shallow embedding of the TimSort port found in this repository (the
TypeScript `timsort` function and its inner helpers), together with proofs
about it.

Modelling conventions:

* The mutable element array is modelled as a `List T`; every in-place update
  of the source is an explicit functional update.
* JavaScript array indexing `a[i]` is modelled by `getE` (out-of-bounds reads
  yield `default`; every access reachable from the verified entry points is
  proved, or checked, to be in bounds).
* The asynchronous comparator `(a, b) => Promise<number>` is modelled as a
  pure function `T → T → Int`.  Every `await compare(x, y)` that the code
  performs is recorded, in execution order, in a trace of `(x, y)` pairs.
  This is faithful for all *awaited* call sites, which execute strictly
  sequentially.
* `mergeCollapse` and `mergeForceCollapse` invoke the `async` function
  `mergeAt` *without awaiting it*; from such a call site onward the
  engine's mutations would interleave with the caller on the microtask
  queue and the program is no longer a sequential function of its inputs.
  The model therefore returns `none` whenever one of those call sites is
  reached.  The theorems below prove that, from the public `timsort` entry,
  those sites are never reached (a consequence of `minRunLength n = n + 1`).
* Loops are modelled either by well-founded recursion on the source's own
  loop measure, or (for the few loops whose measure depends on 32-bit
  overflow behaviour) by an explicit fuel parameter, with `none` meaning
  "fuel exhausted"; fuel-sufficiency is then proved where a claim needs it.
-/

namespace Timsort

/-- A comparator: yields a negative, zero or positive integer verdict. -/
abbrev Cmp (T : Type) := T → T → Int

/-- A trace of comparator invocations, in call order, as (first argument,
second argument) pairs. -/
abbrev Log (T : Type) := List (T × T)

/-- The comparator is a consistent total order (a total preorder with
coherent strict part): `sign` says the verdict on swapped arguments flips
sign, `le_trans` says the induced `≤` relation is transitive. -/
structure TotalCmp {T : Type} (cmp : Cmp T) : Prop where
  sign : ∀ x y, cmp x y < 0 ↔ 0 < cmp y x
  le_trans : ∀ x y z, cmp x y ≤ 0 → cmp y z ≤ 0 → cmp x z ≤ 0

/-- `MIN_MERGE = 32` from the source. -/
def MIN_MERGE : Nat := 32

/-- `MIN_GALLOP = 7` from the source. -/
def MIN_GALLOP : Int := 7

variable {T : Type} [Inhabited T]

/-- JavaScript array read `a[i]`. -/
def getE (a : List T) (i : Nat) : T := (a[i]?).getD default

/-- The write loop of `arraycopy`: `while(len--){ d[dpos+len]=a[len] }`,
where `a` is the (already taken) slice `seg` of the source. -/
def acLoop (seg : List T) (d : List T) (dpos : Nat) : Nat → List T
  | 0 => d
  | n + 1 => acLoop seg (d.set (dpos + n) (getE seg n)) dpos n

/-- `arraycopy(s, spos, d, dpos, len)`: first takes the slice
`s.slice(spos, spos+len)` (so overlapping self-copies are safe), then writes
it into `d` starting at `dpos`. -/
def arraycopy (s : List T) (spos : Nat) (d : List T) (dpos len : Nat) : List T :=
  acLoop ((s.drop spos).take len) d dpos len

/-- The two-pointer swap loop of `reverseRange` (after the initial `hi--`):
`while (lo < hi) { t = a[lo]; a[lo++] = a[hi]; a[hi--] = t }`. -/
def revLoop (a : List T) (lo hi : Nat) : List T :=
  if h : lo < hi then
    let t := getE a lo
    revLoop ((a.set lo (getE a hi)).set hi t) (lo + 1) (hi - 1)
  else a
termination_by hi - lo
decreasing_by omega

/-- `reverseRange(a, lo, hi)`: reverses the subrange `[lo, hi)` in place. -/
def reverseRange (a : List T) (lo hi : Nat) : List T := revLoop a lo (hi - 1)

/-- `minRunLength(n)` from the source: the classical heuristic is commented
out and the function returns `n + 1`. -/
def minRunLength (n : Nat) : Nat := n + 1

/-- The descending scan of `countRunAndMakeAscending`:
`while (runHi < hi && compare(a[runHi], a[runHi-1]) < 0) runHi++`.
Returns the final `runHi` and the comparator trace. -/
def extendDescLoop (cmp : Cmp T) (a : List T) (hi : Nat) (runHi : Nat) : Nat × Log T :=
  if h : runHi < hi then
    if cmp (getE a runHi) (getE a (runHi - 1)) < 0 then
      let r := extendDescLoop cmp a hi (runHi + 1)
      (r.1, (getE a runHi, getE a (runHi - 1)) :: r.2)
    else (runHi, [(getE a runHi, getE a (runHi - 1))])
  else (runHi, [])
termination_by hi - runHi

/-- The ascending scan of `countRunAndMakeAscending`:
`while (runHi < hi && compare(a[runHi], a[runHi-1]) >= 0) runHi++`. -/
def extendAscLoop (cmp : Cmp T) (a : List T) (hi : Nat) (runHi : Nat) : Nat × Log T :=
  if h : runHi < hi then
    if 0 ≤ cmp (getE a runHi) (getE a (runHi - 1)) then
      let r := extendAscLoop cmp a hi (runHi + 1)
      (r.1, (getE a runHi, getE a (runHi - 1)) :: r.2)
    else (runHi, [(getE a runHi, getE a (runHi - 1))])
  else (runHi, [])
termination_by hi - runHi

/-- Result of `countRunAndMakeAscending`: run length, possibly-reversed
array, comparator trace, and the number of `reverseRange` invocations
performed (0 or 1). -/
structure RunRes (T : Type) where
  len : Nat
  arr : List T
  log : Log T
  revs : Nat
deriving DecidableEq

/-- `countRunAndMakeAscending(a, lo, hi, compare)` (requires `lo < hi`):
determines the direction from `compare(a[lo+1], a[lo])` (note the post
increment in `a[runHi++]`), extends the run, and reverses a (strictly)
descending run in place. -/
def countRunAndMakeAscending (cmp : Cmp T) (a : List T) (lo hi : Nat) : RunRes T :=
  let runHi := lo + 1
  if runHi = hi then ⟨1, a, [], 0⟩
  else if cmp (getE a runHi) (getE a lo) < 0 then
    let r := extendDescLoop cmp a hi (runHi + 1)
    ⟨r.1 - lo, reverseRange a lo r.1, (getE a runHi, getE a lo) :: r.2, 1⟩
  else
    let r := extendAscLoop cmp a hi (runHi + 1)
    ⟨r.1 - lo, a, (getE a runHi, getE a lo) :: r.2, 0⟩

/-- The binary-search loop of `binarySort`: shrinks `[left, right)` with
`mid = (left + right) >>> 1`, moving `right` down when `compare(pivot,
a[mid]) < 0` and `left` past `mid` otherwise.  Returns the final `left`
and the comparator trace. -/
def bsearchLoop (cmp : Cmp T) (pivot : T) (a : List T) (left right : Nat) : Nat × Log T :=
  if h : left < right then
    let mid := (left + right) / 2
    if cmp pivot (getE a mid) < 0 then
      let r := bsearchLoop cmp pivot a left mid
      (r.1, (pivot, getE a mid) :: r.2)
    else
      let r := bsearchLoop cmp pivot a (mid + 1) right
      (r.1, (pivot, getE a mid) :: r.2)
  else (left, [])
termination_by right - left
decreasing_by all_goals omega

/-- The data movement of one `binarySort` iteration: the `switch (n)` on
`n = start - left` (case 2 falls through to case 1; the default case is
`arraycopy(a, left, a, left+1, n)`), followed by `a[left] = pivot`. -/
def shiftInsert (a : List T) (left start : Nat) (pivot : T) : List T :=
  let n := start - left
  let moved :=
    if n = 2 then (a.set (left + 2) (getE a (left + 1))).set (left + 1) (getE a left)
    else if n = 1 then a.set (left + 1) (getE a left)
    else arraycopy a left a (left + 1) n
  moved.set left pivot

/-- The `for (; start < hi; start++)` loop of `binarySort`. -/
def binarySortLoop (cmp : Cmp T) (a : List T) (lo hi : Nat) (start : Nat) : List T × Log T :=
  if h : start < hi then
    let pivot := getE a start
    let s := bsearchLoop cmp pivot a lo start
    let a2 := shiftInsert a s.1 start pivot
    let r := binarySortLoop cmp a2 lo hi (start + 1)
    (r.1, s.2 ++ r.2)
  else (a, [])
termination_by hi - start

/-- `binarySort(a, lo, hi, start, compare)`: `if (start == lo) start++`,
then the insertion loop. -/
def binarySort (cmp : Cmp T) (a : List T) (lo hi start : Nat) : List T × Log T :=
  binarySortLoop cmp a lo hi (if start = lo then start + 1 else start)

/-- `mergeCollapse`: examines the top of the run stack; when an invariant
violation calls for a merge it invokes the `async` function `mergeAt(n)`
*without awaiting it*, after which execution is no longer sequential; the
model returns `none` at exactly those call sites.  When the invariant
already holds (or the stack has at most one run) the loop exits normally. -/
def mergeCollapse (runLen : List Nat) (stackSize : Nat) : Option Unit :=
  if 1 < stackSize then
    let n := stackSize - 2
    if 0 < n ∧ runLen.getD (n - 1) 0 ≤ runLen.getD n 0 + runLen.getD (n + 1) 0 then none
    else if runLen.getD n 0 ≤ runLen.getD (n + 1) 0 then none
    else some ()
  else some ()

/-- `mergeForceCollapse`: merges (via un-awaited `mergeAt`, hence `none` in
the model) until one run remains. -/
def mergeForceCollapse (stackSize : Nat) : Option Unit :=
  if 1 < stackSize then none else some ()

/-- Observable result of a `sort` call: final array, comparator trace,
number of `reverseRange` invocations, number of `pushRun` invocations, and
the final run stack (`runBase`, `runLen`, `stackSize`). -/
structure SortResult (T : Type) where
  arr : List T
  log : Log T
  revs : Nat
  pushes : Nat
  runBase : List Nat
  runLen : List Nat
  stackSize : Nat
deriving DecidableEq

/-- The main `do { ... } while (nRemaining != 0)` loop of `sort`: find the
next run, extend it with `binarySort` if shorter than `minRun`, push it
(`runBase[stackSize] = ...` appends, since only pushes ever happen here),
then `mergeCollapse`.  The fuel bounds the iteration count; each iteration
consumes at least one element, and the caller supplies `nRemaining` fuel. -/
def sortLoop (cmp : Cmp T) (minRun : Nat) (hi : Nat) :
    Nat → List T → Nat → Nat → List Nat → List Nat → Nat → Log T → Nat → Nat →
    Option (SortResult T)
  | 0, _, _, _, _, _, _, _, _, _ => none
  | fuel + 1, a, lo, nRemaining, runBase, runLen, stackSize, log, revs, pushes =>
    let cr := countRunAndMakeAscending cmp a lo hi
    let step :=
      if cr.len < minRun then
        let force := if nRemaining ≤ minRun then nRemaining else minRun
        let b := binarySort cmp cr.arr lo (lo + force) (lo + cr.len)
        (force, b.1, cr.log ++ b.2)
      else (cr.len, cr.arr, cr.log)
    let runBase1 := runBase ++ [lo]
    let runLen1 := runLen ++ [step.1]
    let stackSize1 := stackSize + 1
    match mergeCollapse runLen1 stackSize1 with
    | none => none
    | some () =>
      let lo1 := lo + step.1
      let nRem1 := nRemaining - step.1
      if nRem1 = 0 then
        some ⟨step.2.1, log ++ step.2.2, revs + cr.revs, pushes + 1, runBase1, runLen1, stackSize1⟩
      else
        sortLoop cmp minRun hi fuel step.2.1 lo1 nRem1 runBase1 runLen1 stackSize1
          (log ++ step.2.2) (revs + cr.revs) (pushes + 1)

/-- `sort(a, lo, hi, compare)`: the `rangeCheck` failure cases throw (hence
`none`); arrays of fewer than two elements return unchanged; below
`MIN_MERGE` elements a mini-TimSort (run detection plus binary insertion)
runs with no merge planning; otherwise the full run loop followed by
`mergeForceCollapse`. -/
def sort (cmp : Cmp T) (a : List T) (lo hi : Nat) : Option (SortResult T) :=
  if hi < lo ∨ a.length < hi then none
  else
    let nRemaining := hi - lo
    if nRemaining < 2 then some ⟨a, [], 0, 0, [], [], 0⟩
    else if nRemaining < MIN_MERGE then
      let cr := countRunAndMakeAscending cmp a lo hi
      let b := binarySort cmp cr.arr lo hi (lo + cr.len)
      some ⟨b.1, cr.log ++ b.2, cr.revs, 0, [], [], 0⟩
    else
      match sortLoop cmp (minRunLength nRemaining) hi nRemaining a lo nRemaining
          [] [] 0 [] 0 0 with
      | none => none
      | some st =>
        match mergeForceCollapse st.stackSize with
        | none => none
        | some () => some st

/-- The public entry `timsort(arr, compareFn)`: sorts the whole range
`[0, arr.length)`. -/
def timsort (cmp : Cmp T) (a : List T) : Option (SortResult T) :=
  sort cmp a 0 a.length

/-- Numeric ascending comparator used for concrete test inputs. -/
def intCmp : Cmp Int := fun x y => x - y

/-! ### The galloping search primitives -/

/-- Array read at a possibly-negative (JavaScript) index. -/
def getI (a : List T) (i : Int) : T := if 0 ≤ i then getE a i.toNat else default

/-- Array write at a possibly-negative index (negative writes are
unreachable in valid runs and leave the array unchanged). -/
def setI (a : List T) (i : Int) (v : T) : List T :=
  if 0 ≤ i then a.set i.toNat v else a

/-- JavaScript `ToInt32`, the wraparound applied by `<<`. -/
def toInt32 (x : Int) : Int :=
  let m := x % 4294967296
  if 2147483648 ≤ m then m - 4294967296 else m

/-- The exponential probe loop shared by the four gallop branches:
`while (ofs < maxOfs && test(compare(key, elem(ofs)))) { lastOfs = ofs;
ofs = (ofs << 1) + 1; if (ofs <= 0) ofs = maxOfs; }`.
`elem o` is the element probed at (branch-relative) offset `o`; `test`
is the branch's comparison predicate.  Fueled (the source loop terminates
because `ofs` strictly increases towards `maxOfs`; sufficiency of the
callers' fuel is proved separately); `none` = fuel exhausted. -/
def gallopProbe (cmp : Cmp T) (key : T) (elem : Int → T) (test : Int → Bool)
    (maxOfs : Int) : Nat → Int → Int → Option (Int × Int × Log T)
  | 0, _, _ => none
  | fuel + 1, lastOfs, ofs =>
    if ofs < maxOfs then
      if test (cmp key (elem ofs)) then
        let ofs1 := toInt32 (2 * ofs) + 1
        let ofs2 := if ofs1 ≤ 0 then maxOfs else ofs1
        match gallopProbe cmp key elem test maxOfs fuel ofs ofs2 with
        | none => none
        | some (l, o, log) => some (l, o, (key, elem ofs) :: log)
      else some (lastOfs, ofs, [(key, elem ofs)])
    else some (lastOfs, ofs, [])

/-- The binary-search phase shared by `gallopLeft` and `gallopRight`:
`while (lastOfs < ofs) { m = lastOfs + ((ofs - lastOfs) >>> 1);
if goRight(compare(key, elem(m))) lastOfs = m + 1 else ofs = m }`;
returns `ofs`.  Fueled: each iteration strictly shrinks `ofs - lastOfs`,
and the callers pass fuel dominating the initial width. -/
def gallopBin (cmp : Cmp T) (key : T) (elem : Int → T) (goRight : Int → Bool) :
    Nat → Int → Int → Option (Int × Log T)
  | 0, _, _ => none
  | fuel + 1, lastOfs, ofs =>
    if lastOfs < ofs then
      let m := lastOfs + (ofs - lastOfs) / 2
      if goRight (cmp key (elem m)) then
        match gallopBin cmp key elem goRight fuel (m + 1) ofs with
        | none => none
        | some (r, log) => some (r, (key, elem m) :: log)
      else
        match gallopBin cmp key elem goRight fuel lastOfs m with
        | none => none
        | some (r, log) => some (r, (key, elem m) :: log)
    else some (ofs, [])

/-- `gallopLeft(key, a, base, len, hint, compare)`: leftmost insertion point
of `key` in the sorted range `[base, base+len)`.  The probe fuel `len + 2`
(resp. `hint + 2`) dominates the loop's iteration count. -/
def gallopLeft (cmp : Cmp T) (key : T) (a : List T) (base len hint : Nat) :
    Option (Int × Log T) :=
  let e0 := getI a ((base : Int) + hint)
  if 0 < cmp key e0 then
    let maxOfs : Int := (len : Int) - (hint : Int)
    match gallopProbe cmp key (fun o => getI a ((base : Int) + hint + o))
        (fun c => decide (0 < c)) maxOfs (len + 2) 0 1 with
    | none => none
    | some (lastOfs0, ofs0, log1) =>
      let ofs1 := if maxOfs < ofs0 then maxOfs else ofs0
      let lastOfs1 := lastOfs0 + (hint : Int)
      let ofs2 := ofs1 + (hint : Int)
      match gallopBin cmp key (fun m => getI a ((base : Int) + m))
          (fun c => decide (0 < c)) (len + 2) (lastOfs1 + 1) ofs2 with
      | none => none
      | some (k, blog) => some (k, (key, e0) :: (log1 ++ blog))
  else
    let maxOfs : Int := (hint : Int) + 1
    match gallopProbe cmp key (fun o => getI a ((base : Int) + hint - o))
        (fun c => decide (c ≤ 0)) maxOfs (hint + 2) 0 1 with
    | none => none
    | some (lastOfs0, ofs0, log1) =>
      let ofs1 := if maxOfs < ofs0 then maxOfs else ofs0
      let lastOfs1 := (hint : Int) - ofs1
      let ofs2 := (hint : Int) - lastOfs0
      match gallopBin cmp key (fun m => getI a ((base : Int) + m))
          (fun c => decide (0 < c)) (len + 2) (lastOfs1 + 1) ofs2 with
      | none => none
      | some (k, blog) => some (k, (key, e0) :: (log1 ++ blog))

/-- `gallopRight(key, a, base, len, hint, compare)`: rightmost insertion
point of `key` (after all equal elements). -/
def gallopRight (cmp : Cmp T) (key : T) (a : List T) (base len hint : Nat) :
    Option (Int × Log T) :=
  let e0 := getI a ((base : Int) + hint)
  if cmp key e0 < 0 then
    let maxOfs : Int := (hint : Int) + 1
    match gallopProbe cmp key (fun o => getI a ((base : Int) + hint - o))
        (fun c => decide (c < 0)) maxOfs (hint + 2) 0 1 with
    | none => none
    | some (lastOfs0, ofs0, log1) =>
      let ofs1 := if maxOfs < ofs0 then maxOfs else ofs0
      let lastOfs1 := (hint : Int) - ofs1
      let ofs2 := (hint : Int) - lastOfs0
      match gallopBin cmp key (fun m => getI a ((base : Int) + m))
          (fun c => decide (0 ≤ c)) (len + 2) (lastOfs1 + 1) ofs2 with
      | none => none
      | some (k, blog) => some (k, (key, e0) :: (log1 ++ blog))
  else
    let maxOfs : Int := (len : Int) - (hint : Int)
    match gallopProbe cmp key (fun o => getI a ((base : Int) + hint + o))
        (fun c => decide (0 ≤ c)) maxOfs (len + 2) 0 1 with
    | none => none
    | some (lastOfs0, ofs0, log1) =>
      let ofs1 := if maxOfs < ofs0 then maxOfs else ofs0
      let lastOfs1 := lastOfs0 + (hint : Int)
      let ofs2 := ofs1 + (hint : Int)
      match gallopBin cmp key (fun m => getI a ((base : Int) + m))
          (fun c => decide (0 ≤ c)) (len + 2) (lastOfs1 + 1) ofs2 with
      | none => none
      | some (k, blog) => some (k, (key, e0) :: (log1 ++ blog))

/-! ### The merge routines -/

/-- Events affecting the local `minGallop` variable of one merge call,
recorded together with the variable's value right after the event:
`dec` is the `minGallop--` at the end of a completed gallop iteration,
`exitPenalty` is `if (minGallop < 0) minGallop = 0; minGallop += 2` on a
normal exit from galloping mode, `finalClamp` is the
`minGallop = minGallop < 1 ? 1 : minGallop` after the merge loop ends. -/
inductive MGEvent
  | dec
  | exitPenalty
  | finalClamp
deriving DecidableEq

/-- The source's update of `minGallop` for each event. -/
def mgStep (mg : Int) : MGEvent → Int
  | .dec => mg - 1
  | .exitPenalty => (if mg < 0 then 0 else mg) + 2
  | .finalClamp => if mg < 1 then 1 else mg

/-- The update described by the specification text: decrement per gallop
iteration, and "penalized (+2, floor 1)" on each exit from gallop mode. -/
def mgStepClaim (mg : Int) : MGEvent → Int
  | .dec => mg - 1
  | .exitPenalty => max (mg + 2) 1
  | .finalClamp => max mg 1

/-- Checks an event trace (event, value-after) against a step function. -/
def mgOk (step : Int → MGEvent → Int) : Int → List (MGEvent × Int) → Bool
  | _, [] => true
  | mg, (e, v) :: rest => (v == step mg e) && mgOk step v rest

/-- Running state of the `mergeLo` loops. -/
structure LoSt (T : Type) where
  arr : List T
  c1 : Nat
  c2 : Nat
  dest : Nat
  len1 : Nat
  len2 : Nat
  mg : Int
  log : Log T
  events : List (MGEvent × Int)
deriving DecidableEq

/-- Result of a merge: final array, whether the comparator-contract
violation was thrown (`err`), the values of `len1` / `len2` at the point
after the merge loop, the comparator trace and the `minGallop` events. -/
structure MergeRes (T : Type) where
  arr : List T
  err : Bool
  exitLen1 : Nat
  exitLen2 : Nat
  log : Log T
  events : List (MGEvent × Int)
deriving DecidableEq

/-- The straight-mode `do { ... } while ((count1 | count2) < minGallop)`
loop of `mergeLo`.  Returns the state and whether `break outer` fired. -/
def mergeLoStraight (cmp : Cmp T) (tmp : List T) :
    Nat → LoSt T → Nat → Nat → Option (LoSt T × Bool)
  | 0, _, _, _ => none
  | fuel + 1, st, count1, count2 =>
    let pair := (getE st.arr st.c2, getE tmp st.c1)
    if cmp (getE st.arr st.c2) (getE tmp st.c1) < 0 then
      let st1 : LoSt T :=
        { st with
          arr := st.arr.set st.dest (getE st.arr st.c2),
          dest := st.dest + 1, c2 := st.c2 + 1, len2 := st.len2 - 1,
          log := st.log ++ [pair] }
      if st1.len2 = 0 then some (st1, true)
      else if (Nat.lor 0 (count2 + 1) : Int) < st.mg then
        mergeLoStraight cmp tmp fuel st1 0 (count2 + 1)
      else some (st1, false)
    else
      let st1 : LoSt T :=
        { st with
          arr := st.arr.set st.dest (getE tmp st.c1),
          dest := st.dest + 1, c1 := st.c1 + 1, len1 := st.len1 - 1,
          log := st.log ++ [pair] }
      if st1.len1 = 1 then some (st1, true)
      else if (Nat.lor (count1 + 1) 0 : Int) < st.mg then
        mergeLoStraight cmp tmp fuel st1 (count1 + 1) 0
      else some (st1, false)

/-- The galloping-mode `do { ... } while (count1 >= MIN_GALLOP || count2 >=
MIN_GALLOP)` loop of `mergeLo`. -/
def mergeLoGallop (cmp : Cmp T) (tmp : List T) :
    Nat → LoSt T → Option (LoSt T × Bool)
  | 0, _ => none
  | fuel + 1, st =>
    match gallopRight cmp (getE st.arr st.c2) tmp st.c1 st.len1 0 with
    | none => none
    | some (k1, glog1) =>
      let count1 := k1.toNat
      let stA : LoSt T :=
        if count1 ≠ 0 then
          { st with
            arr := arraycopy tmp st.c1 st.arr st.dest count1,
            dest := st.dest + count1, c1 := st.c1 + count1,
            len1 := st.len1 - count1, log := st.log ++ glog1 }
        else { st with log := st.log ++ glog1 }
      if count1 ≠ 0 ∧ stA.len1 ≤ 1 then some (stA, true)
      else
        let stB : LoSt T :=
          { stA with
            arr := stA.arr.set stA.dest (getE stA.arr stA.c2),
            dest := stA.dest + 1, c2 := stA.c2 + 1, len2 := stA.len2 - 1 }
        if stB.len2 = 0 then some (stB, true)
        else
          match gallopLeft cmp (getE tmp stB.c1) stB.arr stB.c2 stB.len2 0 with
          | none => none
          | some (k2, glog2) =>
            let count2 := k2.toNat
            let stC : LoSt T :=
              if count2 ≠ 0 then
                { stB with
                  arr := arraycopy stB.arr stB.c2 stB.arr stB.dest count2,
                  dest := stB.dest + count2, c2 := stB.c2 + count2,
                  len2 := stB.len2 - count2, log := stB.log ++ glog2 }
              else { stB with log := stB.log ++ glog2 }
            if count2 ≠ 0 ∧ stC.len2 = 0 then some (stC, true)
            else
              let stD : LoSt T :=
                { stC with
                  arr := stC.arr.set stC.dest (getE tmp stC.c1),
                  dest := stC.dest + 1, c1 := stC.c1 + 1, len1 := stC.len1 - 1 }
              if stD.len1 = 1 then some (stD, true)
              else
                let stE : LoSt T :=
                  { stD with
                    mg := stD.mg - 1,
                    events := stD.events ++ [(MGEvent.dec, stD.mg - 1)] }
                if MIN_GALLOP ≤ k1 ∨ MIN_GALLOP ≤ k2 then
                  mergeLoGallop cmp tmp fuel stE
                else some (stE, false)

/-- After the outer loop of `mergeLo`: the final `minGallop` clamp and the
`switch` on `len1` (the `len1 == 0` case is the contract-violation throw). -/
def mergeLoFinish (tmp : List T) (st : LoSt T) : MergeRes T :=
  let mg2 := if st.mg < 1 then 1 else st.mg
  let ev2 := st.events ++ [(MGEvent.finalClamp, mg2)]
  if st.len1 = 1 then
    let a1 := arraycopy st.arr st.c2 st.arr st.dest st.len2
    ⟨a1.set (st.dest + st.len2) (getE tmp st.c1), false, st.len1, st.len2, st.log, ev2⟩
  else if st.len1 = 0 then
    ⟨st.arr, true, 0, st.len2, st.log, ev2⟩
  else
    ⟨arraycopy tmp st.c1 st.arr st.dest st.len1, false, st.len1, st.len2, st.log, ev2⟩

/-- The `outer:` loop of `mergeLo`: straight mode, then gallop mode, then
the gallop-exit penalty, repeated. -/
def mergeLoOuter (cmp : Cmp T) (tmp : List T) :
    Nat → LoSt T → Option (MergeRes T)
  | 0, _ => none
  | fuel + 1, st =>
    match mergeLoStraight cmp tmp (st.len1 + st.len2 + 1) st 0 0 with
    | none => none
    | some (st1, true) => some (mergeLoFinish tmp st1)
    | some (st1, false) =>
      match mergeLoGallop cmp tmp (st1.len1 + st1.len2 + 1) st1 with
      | none => none
      | some (st2, true) => some (mergeLoFinish tmp st2)
      | some (st2, false) =>
        let mg3 := (if st2.mg < 0 then 0 else st2.mg) + 2
        let st3 : LoSt T :=
          { st2 with
            mg := mg3,
            events := st2.events ++ [(MGEvent.exitPenalty, mg3)] }
        mergeLoOuter cmp tmp fuel st3

/-- `mergeLo(base1, len1, base2, len2)`: copies run 1 into `tmp`, moves the
first element of run 2, handles the degenerate cases, then runs the merge
loop. -/
def mergeLo (cmp : Cmp T) (a : List T) (base1 len1 base2 len2 : Nat) :
    Option (MergeRes T) :=
  let tmp := (a.drop base1).take len1
  let a1 := a.set base1 (getE a base2)
  let dest := base1 + 1
  let cursor2 := base2 + 1
  let len2A := len2 - 1
  if len2A = 0 then
    some ⟨arraycopy tmp 0 a1 dest len1, false, len1, 0, [], []⟩
  else if len1 = 1 then
    let a2 := arraycopy a1 cursor2 a1 dest len2A
    some ⟨a2.set (dest + len2A) (getE tmp 0), false, 1, len2A, [], []⟩
  else
    mergeLoOuter cmp tmp (len1 + len2 + 1)
      ⟨a1, 0, cursor2, dest, len1, len2A, MIN_GALLOP, [], []⟩

/-- Running state of the `mergeHi` loops; the cursors and `dest` move
downwards and can reach `-1` in JavaScript, hence `Int`. -/
structure HiSt (T : Type) where
  arr : List T
  c1 : Int
  c2 : Int
  dest : Int
  len1 : Nat
  len2 : Nat
  mg : Int
  log : Log T
  events : List (MGEvent × Int)
deriving DecidableEq

/-- The straight-mode loop of `mergeHi`. -/
def mergeHiStraight (cmp : Cmp T) (tmp : List T) :
    Nat → HiSt T → Nat → Nat → Option (HiSt T × Bool)
  | 0, _, _, _ => none
  | fuel + 1, st, count1, count2 =>
    let pair := (getI tmp st.c2, getI st.arr st.c1)
    if cmp (getI tmp st.c2) (getI st.arr st.c1) < 0 then
      let st1 : HiSt T :=
        { st with
          arr := setI st.arr st.dest (getI st.arr st.c1),
          dest := st.dest - 1, c1 := st.c1 - 1, len1 := st.len1 - 1,
          log := st.log ++ [pair] }
      if st1.len1 = 0 then some (st1, true)
      else if (Nat.lor (count1 + 1) 0 : Int) < st.mg then
        mergeHiStraight cmp tmp fuel st1 (count1 + 1) 0
      else some (st1, false)
    else
      let st1 : HiSt T :=
        { st with
          arr := setI st.arr st.dest (getI tmp st.c2),
          dest := st.dest - 1, c2 := st.c2 - 1, len2 := st.len2 - 1,
          log := st.log ++ [pair] }
      if st1.len2 = 1 then some (st1, true)
      else if (Nat.lor 0 (count2 + 1) : Int) < st.mg then
        mergeHiStraight cmp tmp fuel st1 0 (count2 + 1)
      else some (st1, false)

/-- The galloping-mode loop of `mergeHi` (`base1` is the fixed base of run 1
in the array, used as the gallop hint range). -/
def mergeHiGallop (cmp : Cmp T) (tmp : List T) (base1 : Nat) :
    Nat → HiSt T → Option (HiSt T × Bool)
  | 0, _ => none
  | fuel + 1, st =>
    match gallopRight cmp (getI tmp st.c2) st.arr base1 st.len1 (st.len1 - 1) with
    | none => none
    | some (k1, glog1) =>
      let count1 := st.len1 - k1.toNat
      let stA : HiSt T :=
        if count1 ≠ 0 then
          { st with
            dest := st.dest - count1, c1 := st.c1 - count1,
            len1 := st.len1 - count1,
            arr := arraycopy st.arr (st.c1 - count1 + 1).toNat st.arr
              (st.dest - count1 + 1).toNat count1,
            log := st.log ++ glog1 }
        else { st with log := st.log ++ glog1 }
      if count1 ≠ 0 ∧ stA.len1 = 0 then some (stA, true)
      else
        let stB : HiSt T :=
          { stA with
            arr := setI stA.arr stA.dest (getI tmp stA.c2),
            dest := stA.dest - 1, c2 := stA.c2 - 1, len2 := stA.len2 - 1 }
        if stB.len2 = 1 then some (stB, true)
        else
          match gallopLeft cmp (getI stB.arr stB.c1) tmp 0 stB.len2 (stB.len2 - 1) with
          | none => none
          | some (k2, glog2) =>
            let count2 := stB.len2 - k2.toNat
            let stC : HiSt T :=
              if count2 ≠ 0 then
                { stB with
                  dest := stB.dest - count2, c2 := stB.c2 - count2,
                  len2 := stB.len2 - count2,
                  arr := arraycopy tmp (stB.c2 - count2 + 1).toNat stB.arr
                    (stB.dest - count2 + 1).toNat count2,
                  log := stB.log ++ glog2 }
              else { stB with log := stB.log ++ glog2 }
            if count2 ≠ 0 ∧ stC.len2 ≤ 1 then some (stC, true)
            else
              let stD : HiSt T :=
                { stC with
                  arr := setI stC.arr stC.dest (getI stC.arr stC.c1),
                  dest := stC.dest - 1, c1 := stC.c1 - 1, len1 := stC.len1 - 1 }
              if stD.len1 = 0 then some (stD, true)
              else
                let stE : HiSt T :=
                  { stD with
                    mg := stD.mg - 1,
                    events := stD.events ++ [(MGEvent.dec, stD.mg - 1)] }
                if MIN_GALLOP ≤ (count1 : Int) ∨ MIN_GALLOP ≤ (count2 : Int) then
                  mergeHiGallop cmp tmp base1 fuel stE
                else some (stE, false)

/-- After the outer loop of `mergeHi`: final clamp and the `switch` on
`len2` (the `len2 == 0` case is the contract-violation throw). -/
def mergeHiFinish (tmp : List T) (st : HiSt T) : MergeRes T :=
  let mg2 := if st.mg < 1 then 1 else st.mg
  let ev2 := st.events ++ [(MGEvent.finalClamp, mg2)]
  if st.len2 = 1 then
    let dest2 := st.dest - st.len1
    let c12 := st.c1 - st.len1
    let a1 := arraycopy st.arr (c12 + 1).toNat st.arr (dest2 + 1).toNat st.len1
    ⟨setI a1 dest2 (getI tmp st.c2), false, st.len1, st.len2, st.log, ev2⟩
  else if st.len2 = 0 then
    ⟨st.arr, true, st.len1, 0, st.log, ev2⟩
  else
    ⟨arraycopy tmp 0 st.arr (st.dest - (st.len2 - 1)).toNat st.len2,
      false, st.len1, st.len2, st.log, ev2⟩

/-- The `outer:` loop of `mergeHi`. -/
def mergeHiOuter (cmp : Cmp T) (tmp : List T) (base1 : Nat) :
    Nat → HiSt T → Option (MergeRes T)
  | 0, _ => none
  | fuel + 1, st =>
    match mergeHiStraight cmp tmp (st.len1 + st.len2 + 1) st 0 0 with
    | none => none
    | some (st1, true) => some (mergeHiFinish tmp st1)
    | some (st1, false) =>
      match mergeHiGallop cmp tmp base1 (st1.len1 + st1.len2 + 1) st1 with
      | none => none
      | some (st2, true) => some (mergeHiFinish tmp st2)
      | some (st2, false) =>
        let mg3 := (if st2.mg < 0 then 0 else st2.mg) + 2
        let st3 : HiSt T :=
          { st2 with
            mg := mg3,
            events := st2.events ++ [(MGEvent.exitPenalty, mg3)] }
        mergeHiOuter cmp tmp base1 fuel st3

/-- `mergeHi(base1, len1, base2, len2)`: copies run 2 into `tmp`, merges
from the high end downwards. -/
def mergeHi (cmp : Cmp T) (a : List T) (base1 len1 base2 len2 : Nat) :
    Option (MergeRes T) :=
  let tmp := (a.drop base2).take len2
  let c1 : Int := (base1 : Int) + len1 - 1
  let dest : Int := (base2 : Int) + len2 - 1
  let a1 := setI a dest (getI a c1)
  let dest1 := dest - 1
  let c11 := c1 - 1
  let len1A := len1 - 1
  if len1A = 0 then
    some ⟨arraycopy tmp 0 a1 (dest1 - ((len2 : Int) - 1)).toNat len2,
      false, 0, len2, [], []⟩
  else if len2 = 1 then
    let dest2 := dest1 - len1A
    let c12 := c11 - len1A
    let a2 := arraycopy a1 (c12 + 1).toNat a1 (dest2 + 1).toNat len1A
    some ⟨setI a2 dest2 (getE tmp (len2 - 1)), false, len1A, 1, [], []⟩
  else
    mergeHiOuter cmp tmp base1 (len1 + len2 + 1)
      ⟨a1, c11, (len2 : Int) - 1, dest1, len1A, len2, MIN_GALLOP, [], []⟩

def mgEnd : Int → List (MGEvent × Int) → Int
  | mg, [] => mg
  | _, (_, v) :: rest => mgEnd v rest

def sizesC : List Nat := [18, 9, 9, 9, 9, 9, 9, 9, 3, 3, 3, 3, 6]

def mkBlock (start size : Nat) : List Int :=
  (List.range size).map (fun i => ((start + i : Nat) : Int))

def runA : List Int :=
  ((sizesC.enum).map (fun p => mkBlock (200 * (p.1 + 1) + 100) p.2)).flatten

def runB : List Int :=
  ((sizesC.enum).map (fun p => mkBlock (200 * (p.1 + 1)) p.2)).flatten

def arrLo : List Int := runA ++ runB


def regionOf (l : List T) (lo hi : Nat) : List T := (l.take hi).drop lo

/-- Loop invariant of `mergeLo`: cursor/length accounting, agreement with
the original array outside the written prefix, and the written prefix
holding a permutation of the consumed parts of both runs. -/
def LoInv (a tmp : List T) (base1 base2 end2 : Nat) (st : LoSt T) : Prop :=
  st.arr.length = a.length ∧
  st.c1 + st.len1 = tmp.length ∧
  st.c2 + st.len2 = end2 ∧
  st.dest + st.len1 = st.c2 ∧
  base1 ≤ st.dest ∧
  base2 ≤ st.c2 ∧
  (∀ i, st.c2 ≤ i → getE st.arr i = getE a i) ∧
  (∀ i, i < base1 → getE st.arr i = getE a i) ∧
  (regionOf st.arr base1 st.dest).Perm (tmp.take st.c1 ++ regionOf a base2 st.c2)

/-- The part of a `mergeLoGallop` iteration after the second gallop's
copy, abstracted over the state reached there. -/
def loGallopTail2 (cmp : Cmp T) (tmp : List T) (n : Nat) (k1 k2 : Int)
    (stC : LoSt T) : Option (LoSt T × Bool) :=
  let stD : LoSt T :=
    { stC with
      arr := stC.arr.set stC.dest (getE tmp stC.c1),
      dest := stC.dest + 1, c1 := stC.c1 + 1, len1 := stC.len1 - 1 }
  if stD.len1 = 1 then some (stD, true)
  else
    let stE : LoSt T :=
      { stD with
        mg := stD.mg - 1,
        events := stD.events ++ [(MGEvent.dec, stD.mg - 1)] }
    if MIN_GALLOP ≤ k1 ∨ MIN_GALLOP ≤ k2 then
      mergeLoGallop cmp tmp n stE
    else some (stE, false)

/-- The part of a `mergeLoGallop` iteration after the first gallop's copy,
abstracted over the state reached there. -/
def loGallopTail (cmp : Cmp T) (tmp : List T) (n : Nat) (k1 : Int)
    (stA : LoSt T) : Option (LoSt T × Bool) :=
  if k1.toNat ≠ 0 ∧ stA.len1 ≤ 1 then some (stA, true)
  else
    let stB : LoSt T :=
      { stA with
        arr := stA.arr.set stA.dest (getE stA.arr stA.c2),
        dest := stA.dest + 1, c2 := stA.c2 + 1, len2 := stA.len2 - 1 }
    if stB.len2 = 0 then some (stB, true)
    else
      match gallopLeft cmp (getE tmp stB.c1) stB.arr stB.c2 stB.len2 0 with
      | none => none
      | some (k2, glog2) =>
        let count2 := k2.toNat
        let stC : LoSt T :=
          if count2 ≠ 0 then
            { stB with
              arr := arraycopy stB.arr stB.c2 stB.arr stB.dest count2,
              dest := stB.dest + count2, c2 := stB.c2 + count2,
              len2 := stB.len2 - count2, log := stB.log ++ glog2 }
          else { stB with log := stB.log ++ glog2 }
        if count2 ≠ 0 ∧ stC.len2 = 0 then some (stC, true)
        else loGallopTail2 cmp tmp n k1 k2 stC

/-- Loop invariant of `mergeHi`: cursor/length accounting (cursors move
downwards and are `Int`), agreement with the original array at or below
`dest` and from `end2` up, and the written suffix holding a permutation of
the consumed parts of both runs. -/
def HiInv (a tmp : List T) (base1 base2 end2 : Nat) (st : HiSt T) : Prop :=
  st.arr.length = a.length ∧
  st.c1 = (base1 : Int) + st.len1 - 1 ∧
  st.c2 = (st.len2 : Int) - 1 ∧
  st.dest = st.c1 + st.len2 ∧
  st.len2 ≤ tmp.length ∧
  base1 + st.len1 ≤ base2 ∧
  base1 + st.len1 + st.len2 ≤ end2 ∧
  (∀ i : Nat, (i : Int) ≤ st.dest → getE st.arr i = getE a i) ∧
  (∀ i : Nat, end2 ≤ i → getE st.arr i = getE a i) ∧
  (regionOf st.arr (st.dest + 1).toNat end2).Perm
    (regionOf a (st.c1 + 1).toNat base2 ++ tmp.drop (st.c2 + 1).toNat)

/-- The part of a `mergeHiGallop` iteration after the second gallop's copy. -/
def hiGallopTail2 (cmp : Cmp T) (tmp : List T) (base1 n : Nat) (count1 count2 : Nat)
    (stC : HiSt T) : Option (HiSt T × Bool) :=
  let stD : HiSt T :=
    { stC with
      arr := setI stC.arr stC.dest (getI stC.arr stC.c1),
      dest := stC.dest - 1, c1 := stC.c1 - 1, len1 := stC.len1 - 1 }
  if stD.len1 = 0 then some (stD, true)
  else
    let stE : HiSt T :=
      { stD with
        mg := stD.mg - 1,
        events := stD.events ++ [(MGEvent.dec, stD.mg - 1)] }
    if MIN_GALLOP ≤ (count1 : Int) ∨ MIN_GALLOP ≤ (count2 : Int) then
      mergeHiGallop cmp tmp base1 n stE
    else some (stE, false)

/-- The part of a `mergeHiGallop` iteration after the first gallop's copy. -/
def hiGallopTail (cmp : Cmp T) (tmp : List T) (base1 n : Nat) (count1 : Nat)
    (stA : HiSt T) : Option (HiSt T × Bool) :=
  if count1 ≠ 0 ∧ stA.len1 = 0 then some (stA, true)
  else
    let stB : HiSt T :=
      { stA with
        arr := setI stA.arr stA.dest (getI tmp stA.c2),
        dest := stA.dest - 1, c2 := stA.c2 - 1, len2 := stA.len2 - 1 }
    if stB.len2 = 1 then some (stB, true)
    else
      match gallopLeft cmp (getI stB.arr stB.c1) tmp 0 stB.len2 (stB.len2 - 1) with
      | none => none
      | some (k2, glog2) =>
        let count2 := stB.len2 - k2.toNat
        let stC : HiSt T :=
          if count2 ≠ 0 then
            { stB with
              dest := stB.dest - count2, c2 := stB.c2 - count2,
              len2 := stB.len2 - count2,
              arr := arraycopy tmp (stB.c2 - count2 + 1).toNat stB.arr
                (stB.dest - count2 + 1).toNat count2,
              log := stB.log ++ glog2 }
          else { stB with log := stB.log ++ glog2 }
        if count2 ≠ 0 ∧ stC.len2 ≤ 1 then some (stC, true)
        else hiGallopTail2 cmp tmp base1 n count1 count2 stC


/-! ### Basic bounds for the run scan -/

theorem extendAscLoop_bounds (cmp : Cmp T) (a : List T) (hi : Nat) (runHi : Nat)
    (h : runHi ≤ hi) :
    runHi ≤ (extendAscLoop cmp a hi runHi).1 ∧ (extendAscLoop cmp a hi runHi).1 ≤ hi := by
  unfold extendAscLoop
  split
  · split
    · have ih := extendAscLoop_bounds cmp a hi (runHi + 1) (by omega)
      simpa using ⟨by omega, ih.2⟩
    · simp
      omega
  · simp
    omega
termination_by hi - runHi

theorem extendDescLoop_bounds (cmp : Cmp T) (a : List T) (hi : Nat) (runHi : Nat)
    (h : runHi ≤ hi) :
    runHi ≤ (extendDescLoop cmp a hi runHi).1 ∧ (extendDescLoop cmp a hi runHi).1 ≤ hi := by
  unfold extendDescLoop
  split
  · split
    · have ih := extendDescLoop_bounds cmp a hi (runHi + 1) (by omega)
      simpa using ⟨by omega, ih.2⟩
    · simp
      omega
  · simp
    omega
termination_by hi - runHi

theorem countRun_len_bounds (cmp : Cmp T) (a : List T) (lo hi : Nat) (h : lo < hi) :
    1 ≤ (countRunAndMakeAscending cmp a lo hi).len ∧
      (countRunAndMakeAscending cmp a lo hi).len ≤ hi - lo := by
  simp only [countRunAndMakeAscending]
  split_ifs with h1 h2
  · simp
    omega
  · have hb := extendDescLoop_bounds cmp a hi (lo + 1 + 1) (by omega)
    simp
    omega
  · have hb := extendAscLoop_bounds cmp a hi (lo + 1 + 1) (by omega)
    simp
    omega

/-! ### The main sort loop runs exactly one iteration

Because `minRunLength nRemaining = nRemaining + 1`, the first detected run is
always shorter than `minRun`, is force-extended by `binarySort` to the whole
remaining range, and the loop terminates after a single push. -/

theorem sortLoop_single (cmp : Cmp T) (a : List T) (lo n : Nat) (h2 : 2 ≤ n) :
    sortLoop cmp (minRunLength n) (lo + n) n a lo n [] [] 0 [] 0 0 =
      some ⟨(binarySort cmp (countRunAndMakeAscending cmp a lo (lo + n)).arr lo (lo + n)
               (lo + (countRunAndMakeAscending cmp a lo (lo + n)).len)).1,
            (countRunAndMakeAscending cmp a lo (lo + n)).log ++
              (binarySort cmp (countRunAndMakeAscending cmp a lo (lo + n)).arr lo (lo + n)
               (lo + (countRunAndMakeAscending cmp a lo (lo + n)).len)).2,
            (countRunAndMakeAscending cmp a lo (lo + n)).revs, 1, [lo], [n], 1⟩ := by
  obtain ⟨m, rfl⟩ : ∃ m, n = m + 1 := ⟨n - 1, by omega⟩
  have hlen := countRun_len_bounds cmp a lo (lo + (m + 1)) (by omega)
  unfold sortLoop
  have hlt : (countRunAndMakeAscending cmp a lo (lo + (m + 1))).len < minRunLength (m + 1) := by
    unfold minRunLength
    omega
  have hforce : ((m + 1) ≤ minRunLength (m + 1)) = True := by
    simp [minRunLength]
  simp only [hlt, if_pos, hforce, if_true, mergeCollapse]
  norm_num

theorem timsort_small (cmp : Cmp T) (a : List T) (h2 : 2 ≤ a.length)
    (h32 : a.length < MIN_MERGE) :
    timsort cmp a =
      some ⟨(binarySort cmp (countRunAndMakeAscending cmp a 0 a.length).arr 0 a.length
               ((countRunAndMakeAscending cmp a 0 a.length).len)).1,
            (countRunAndMakeAscending cmp a 0 a.length).log ++
              (binarySort cmp (countRunAndMakeAscending cmp a 0 a.length).arr 0 a.length
               ((countRunAndMakeAscending cmp a 0 a.length).len)).2,
            (countRunAndMakeAscending cmp a 0 a.length).revs, 0, [], [], 0⟩ := by
  have h32x : a.length < 32 := h32
  simp only [timsort, sort, Nat.sub_zero]
  rw [if_neg (by omega), if_neg (by omega),
    if_pos (show a.length < MIN_MERGE by simp only [MIN_MERGE]; omega)]
  simp only [Nat.zero_add]

theorem timsort_large (cmp : Cmp T) (a : List T) (h32 : MIN_MERGE ≤ a.length) :
    timsort cmp a =
      some ⟨(binarySort cmp (countRunAndMakeAscending cmp a 0 a.length).arr 0 a.length
               ((countRunAndMakeAscending cmp a 0 a.length).len)).1,
            (countRunAndMakeAscending cmp a 0 a.length).log ++
              (binarySort cmp (countRunAndMakeAscending cmp a 0 a.length).arr 0 a.length
               ((countRunAndMakeAscending cmp a 0 a.length).len)).2,
            (countRunAndMakeAscending cmp a 0 a.length).revs, 1, [0], [a.length], 1⟩ := by
  have h32x : (32 : Nat) ≤ a.length := h32
  have h2 : 2 ≤ a.length := by omega
  simp only [timsort, sort, Nat.sub_zero]
  rw [if_neg (by omega), if_neg (by omega),
    if_neg (show ¬a.length < MIN_MERGE by simp only [MIN_MERGE]; omega)]
  have hloop := sortLoop_single cmp a 0 a.length h2
  simp only [Nat.zero_add] at hloop
  rw [hloop]
  simp [mergeForceCollapse]

theorem timsort_tiny (cmp : Cmp T) (a : List T) (h : a.length < 2) :
    timsort cmp a = some ⟨a, [], 0, 0, [], [], 0⟩ := by
  simp only [timsort, sort, Nat.sub_zero]
  rw [if_neg (by omega), if_pos (by omega)]

/-! ### Claim theorems: entry-point behaviour -/

/-- C8: for every array of length 0 or 1 and every comparator, `timsort`
returns immediately with the array unchanged (`arr = a`) and the comparator
is never invoked (`log = []`). -/
theorem C8_tiny_unchanged (cmp : Cmp T) (a : List T) (h : a.length < 2) :
    timsort cmp a = some ⟨a, [], 0, 0, [], [], 0⟩ :=
  timsort_tiny cmp a h

/-- Witness for C8 at the concrete singleton input `[7]`. -/
theorem C8_tiny_unchanged_witness :
    timsort intCmp [(7 : Int)] = some ⟨[7], [], 0, 0, [], [], 0⟩ :=
  C8_tiny_unchanged intCmp [(7 : Int)] (by decide)

/-- C6: on input `[5,4,3,2,1]` with the numeric ascending comparator,
`timsort` detects a single strictly descending run of length 5, performs
exactly one in-place reversal (`revs = 1`), returns `[1,2,3,4,5]`, and calls
the comparator exactly 4 times, all during run detection on adjacent pairs
(the trace is exactly `[(4,5),(3,4),(2,3),(1,2)]`; the binary-insertion
phase contributes no comparisons since the run already covers the array). -/
theorem C6_concrete_descending :
    timsort intCmp [5, 4, 3, 2, 1] =
      some ⟨[1, 2, 3, 4, 5], [(4, 5), (3, 4), (2, 3), (1, 2)], 1, 0, [], [], 0⟩ := by
  simp [timsort, sort, countRunAndMakeAscending, extendDescLoop, extendAscLoop,
    binarySort, binarySortLoop, bsearchLoop, shiftInsert, reverseRange, revLoop,
    getE, intCmp, MIN_MERGE, arraycopy, acLoop]

/-- C3: `minRunLength n = n + 1` for every `n`; consequently, on every input
of length ≥ 32 the first natural run is force-extended by `binarySort` to
the whole range, exactly one run is ever pushed (`pushes = 1`), the stack
never holds more than one run (final `stackSize = 1`, `runBase = [0]`,
`runLen = [length]`), and neither `mergeCollapse` nor `mergeForceCollapse`
ever invokes `mergeAt`: the model returns `none` at every `mergeAt` call
site, so `timsort ... = some st` certifies that `mergeAt` (and with it
`mergeLo`, `mergeHi`, `gallopLeft`, `gallopRight`) is unreachable from the
public entry. -/
theorem C3_minRun_single_run (cmp : Cmp T) (a : List T) (h32 : 32 ≤ a.length) :
    (∀ n : Nat, minRunLength n = n + 1) ∧
    ∃ st : SortResult T, timsort cmp a = some st ∧ st.pushes = 1 ∧
      st.stackSize = 1 ∧ st.runBase = [0] ∧ st.runLen = [a.length] := by
  exact ⟨fun _ => rfl, _, timsort_large cmp a h32, rfl, rfl, rfl, rfl⟩

/-- Witness for C3 at a concrete input of length 32. -/
theorem C3_minRun_single_run_witness :
    (∀ n : Nat, minRunLength n = n + 1) ∧
    ∃ st : SortResult Int, timsort intCmp (List.replicate 32 (0 : Int)) = some st ∧
      st.pushes = 1 ∧ st.stackSize = 1 ∧ st.runBase = [0] ∧
      st.runLen = [(List.replicate 32 (0 : Int)).length] :=
  C3_minRun_single_run intCmp (List.replicate 32 (0 : Int)) (by decide)

/-- C4: comparator calls are strictly sequential and the compared-pair
sequence is deterministic.  The only sites where the engine would issue a
comparator call that is not strictly sequenced are the un-awaited `async
mergeAt` invocations inside `mergeCollapse` / `mergeForceCollapse`; the
model returns `none` exactly when such a site is reached.  This theorem
proves that for every input and comparator the model returns `some`, i.e.
those sites are unreachable, every comparator call is awaited in sequence,
and the trace of compared pairs is a function of the input alone (any two
executions produce the same `st.log`). -/
theorem C4_sequential_deterministic (cmp : Cmp T) (a : List T) :
    ∃ st : SortResult T, timsort cmp a = some st ∧
      ∀ st2 : SortResult T, timsort cmp a = some st2 → st2.log = st.log := by
  rcases Nat.lt_or_ge a.length 2 with h | h
  · exact ⟨_, timsort_tiny cmp a h, fun st2 h2 => by
      rw [timsort_tiny cmp a h] at h2
      cases h2
      rfl⟩
  · rcases Nat.lt_or_ge a.length 32 with h32 | h32
    · exact ⟨_, timsort_small cmp a h h32, fun st2 h2 => by
        rw [timsort_small cmp a h h32] at h2
        cases h2
        rfl⟩
    · exact ⟨_, timsort_large cmp a h32, fun st2 h2 => by
        rw [timsort_large cmp a h32] at h2
        cases h2
        rfl⟩

/-! ### Sorted inputs: one scan, no data movement -/

theorem getE_pos (a : List T) (i : Nat) (h : i < a.length) : getE a i = a[i] := by
  simp [getE, List.getElem?_eq_getElem h]

omit [Inhabited T] in
theorem TotalCmp.le_flip {cmp : Cmp T} (hc : TotalCmp cmp) {x y : T}
    (h : cmp x y ≤ 0) : 0 ≤ cmp y x := by
  by_contra hlt
  push_neg at hlt
  have := (hc.sign y x).mp hlt
  omega

omit [Inhabited T] in
theorem TotalCmp.flip_le {cmp : Cmp T} (hc : TotalCmp cmp) {x y : T}
    (h : 0 ≤ cmp x y) : cmp y x ≤ 0 := by
  by_contra hlt
  push_neg at hlt
  have := (hc.sign x y).mpr hlt
  omega

theorem extendAscLoop_sorted (cmp : Cmp T) (a : List T) (hi runHi : Nat)
    (h : runHi ≤ hi)
    (H : ∀ i, runHi ≤ i → i < hi → 0 ≤ cmp (getE a i) (getE a (i - 1))) :
    (extendAscLoop cmp a hi runHi).1 = hi ∧
      (extendAscLoop cmp a hi runHi).2.length = hi - runHi := by
  unfold extendAscLoop
  split
  · rename_i hlt
    rw [if_pos (H runHi le_rfl hlt)]
    have ih := extendAscLoop_sorted cmp a hi (runHi + 1) (by omega)
      (fun i hi1 hi2 => H i (by omega) hi2)
    refine ⟨by simpa using ih.1, ?_⟩
    simp only [List.length_cons]
    rw [ih.2]
    omega
  · rename_i hge
    simp
    omega
termination_by hi - runHi

theorem countRun_sorted (cmp : Cmp T) (hc : TotalCmp cmp) (a : List T)
    (h2 : 2 ≤ a.length) (hs : List.Chain' (fun x y => cmp x y ≤ 0) a) :
    (countRunAndMakeAscending cmp a 0 a.length).len = a.length ∧
    (countRunAndMakeAscending cmp a 0 a.length).arr = a ∧
    (countRunAndMakeAscending cmp a 0 a.length).revs = 0 ∧
    (countRunAndMakeAscending cmp a 0 a.length).log.length = a.length - 1 := by
  have Hadj : ∀ i, 1 ≤ i → i < a.length → 0 ≤ cmp (getE a i) (getE a (i - 1)) := by
    intro i hi1 hi2
    obtain ⟨j, rfl⟩ : ∃ j, i = j + 1 := ⟨i - 1, by omega⟩
    have hgt := List.chain'_iff_get.mp hs j (by omega)
    simp only [List.get_eq_getElem] at hgt
    rw [getE_pos a (j + 1) hi2]
    have : j + 1 - 1 = j := by omega
    rw [this, getE_pos a j (by omega)]
    exact hc.le_flip hgt
  simp only [countRunAndMakeAscending]
  rw [if_neg (by omega : ¬(0 + 1 = a.length))]
  rw [if_neg (by have := Hadj 1 le_rfl (by omega); simp at this ⊢; omega)]
  have hasc := extendAscLoop_sorted cmp a a.length (0 + 1 + 1) (by omega)
    (fun i hi1 hi2 => Hadj i (by omega) hi2)
  refine ⟨by simp [hasc.1], rfl, rfl, ?_⟩
  simp [hasc.2]
  omega

theorem binarySort_noop (cmp : Cmp T) (a : List T) (lo hi : Nat) (h : ¬(hi = lo)) :
    binarySort cmp a lo hi hi = (a, []) := by
  unfold binarySort
  rw [if_neg h]
  unfold binarySortLoop
  simp

/-- C5: for every already-sorted array of length ≥ 2 and a consistent
comparator, `timsort` performs exactly one run-detection pass making exactly
`n - 1` comparator calls (the whole trace is the run-detection trace), zero
reversals, zero merges (implicit in the `some` result, see C3/C4), zero
binary-insertion comparisons, and leaves the array unchanged; hence sorting
is idempotent: sorting the output again is the very same computation. -/
theorem C5_sorted_one_pass (cmp : Cmp T) (a : List T) (hc : TotalCmp cmp)
    (h2 : 2 ≤ a.length) (hs : List.Chain' (fun x y => cmp x y ≤ 0) a) :
    ∃ st : SortResult T, timsort cmp a = some st ∧ st.arr = a ∧
      st.log = (countRunAndMakeAscending cmp a 0 a.length).log ∧
      st.log.length = a.length - 1 ∧ st.revs = 0 ∧
      (binarySort cmp a 0 a.length a.length).2 = [] ∧
      timsort cmp st.arr = timsort cmp a := by
  obtain ⟨hlen, harr, hrevs, hlog⟩ := countRun_sorted cmp hc a h2 hs
  have hbs : binarySort cmp a 0 a.length a.length = (a, []) :=
    binarySort_noop cmp a 0 a.length (by omega)
  rcases Nat.lt_or_ge a.length 32 with h32 | h32
  · refine ⟨_, timsort_small cmp a h2 h32, ?_, ?_, ?_, ?_, ?_, ?_⟩ <;>
      simp [harr, hlen, hbs, hrevs, hlog]
  · refine ⟨_, timsort_large cmp a h32, ?_, ?_, ?_, ?_, ?_, ?_⟩ <;>
      simp [harr, hlen, hbs, hrevs, hlog]

/-! ### Consequences of comparator consistency -/

omit [Inhabited T] in
theorem TotalCmp.lt_le_trans {cmp : Cmp T} (hc : TotalCmp cmp) {x y z : T}
    (h1 : cmp x y < 0) (h2 : cmp y z ≤ 0) : cmp x z < 0 := by
  by_contra hxz
  push_neg at hxz
  have hzx : cmp z x ≤ 0 := hc.flip_le hxz
  have hyx : cmp y x ≤ 0 := hc.le_trans y z x h2 hzx
  have : 0 ≤ cmp x y := hc.le_flip hyx
  omega

omit [Inhabited T] in
theorem TotalCmp.le_lt_trans {cmp : Cmp T} (hc : TotalCmp cmp) {x y z : T}
    (h1 : cmp x y ≤ 0) (h2 : cmp y z < 0) : cmp x z < 0 := by
  by_contra hxz
  push_neg at hxz
  have hzx : cmp z x ≤ 0 := hc.flip_le hxz
  have hzy : cmp z y ≤ 0 := hc.le_trans z x y hzx h1
  have : 0 ≤ cmp y z := hc.le_flip hzy
  omega

omit [Inhabited T] in
theorem TotalCmp.lt_trans {cmp : Cmp T} (hc : TotalCmp cmp) {x y z : T}
    (h1 : cmp x y < 0) (h2 : cmp y z < 0) : cmp x z < 0 :=
  hc.lt_le_trans h1 (le_of_lt h2)

omit [Inhabited T] in
theorem TotalCmp.eq_symm {cmp : Cmp T} (hc : TotalCmp cmp) {x y : T}
    (h : cmp x y = 0) : cmp y x = 0 := by
  have h1 := hc.sign x y
  have h2 := hc.sign y x
  omega

omit [Inhabited T] in
theorem TotalCmp.eqv_trans {cmp : Cmp T} (hc : TotalCmp cmp) {v x y : T}
    (h1 : cmp v x = 0) (h2 : cmp v y = 0) : cmp x y = 0 := by
  have hxv : cmp x v = 0 := hc.eq_symm h1
  have hle : cmp x y ≤ 0 := hc.le_trans x v y (by omega) (by omega)
  have hyv : cmp y v = 0 := hc.eq_symm h2
  have hge : cmp y x ≤ 0 := hc.le_trans y v x (by omega) (by omega)
  have := hc.le_flip hge
  omega

/-! ### List surgery helpers -/

theorem getE_at_append (u : List T) (x : T) (v : List T) :
    getE (u ++ x :: v) u.length = x := by
  simp [getE, List.getElem?_append_right (Nat.le_refl u.length)]

theorem getE_append_add (u : List T) (v : List T) (i : Nat) :
    getE (u ++ v) (u.length + i) = getE v i := by
  simp [getE, List.getElem?_append_right (Nat.le_add_right u.length i),
    Nat.add_sub_cancel_left]

theorem set_at_append (u : List T) (x : T) (v : List T) (y : T) :
    (u ++ x :: v).set u.length y = u ++ y :: v := by
  induction u with
  | nil => simp
  | cons a u ih => simp [ih]

theorem acLoop_eq (seg : List T) :
    ∀ (len : Nat) (d : List T) (dpos : Nat), len ≤ seg.length → dpos + len ≤ d.length →
      acLoop seg d dpos len = d.take dpos ++ seg.take len ++ d.drop (dpos + len) := by
  intro len
  induction len with
  | zero =>
    intro d dpos h1 h2
    simp [acLoop]
  | succ n ih =>
    intro d dpos h1 h2
    have hset : dpos + n < d.length := by omega
    rw [acLoop, ih _ _ (by omega) (by simp; omega)]
    rw [List.set_eq_take_cons_drop _ hset]
    have htk : (d.take (dpos + n) ++ getE seg n :: d.drop (dpos + n + 1)).take dpos
        = d.take dpos := by
      rw [List.take_append_of_le_length (by simp; omega), List.take_take,
        inf_eq_left.mpr (by omega)]
    have hdr : (d.take (dpos + n) ++ getE seg n :: d.drop (dpos + n + 1)).drop (dpos + n)
        = getE seg n :: d.drop (dpos + n + 1) := by
      rw [List.drop_append_of_le_length (by simp; omega)]
      simp [List.drop_take]
    rw [htk, hdr]
    have hn : n < seg.length := by omega
    have hseg : seg.take (n + 1) = seg.take n ++ [seg[n]] := by
      rw [List.take_succ]
      simp [List.getElem?_eq_getElem hn]
    rw [getE_pos seg n (by omega)]
    rw [show dpos + n + 1 = dpos + (n + 1) from by omega]
    rw [hseg]
    simp only [List.append_assoc, List.singleton_append]

theorem revLoop_segment (seg : List T) (u w : List T) :
    revLoop (u ++ seg ++ w) u.length (u.length + seg.length - 1) = u ++ seg.reverse ++ w := by
  rcases seg with _ | ⟨x, rest⟩
  · unfold revLoop
    rw [dif_neg (by simp)]
    simp
  · rcases rest.eq_nil_or_concat with rfl | ⟨mid, y, rfl⟩
    · unfold revLoop
      rw [dif_neg (by simp)]
      simp
    · simp only [List.concat_eq_append]
      have hhi : u.length + (x :: (mid ++ [y])).length - 1 = u.length + mid.length + 1 := by
        simp only [List.length_cons, List.length_append, List.length_singleton,
          List.length_nil]
        omega
      rw [hhi]
      have hgety : getE (u ++ (x :: (mid ++ [y])) ++ w) (u.length + mid.length + 1) = y := by
        have he : u ++ (x :: (mid ++ [y])) ++ w = (u ++ x :: mid) ++ y :: w := by simp
        have hl : u.length + mid.length + 1 = (u ++ x :: mid).length := by simp; omega
        rw [he, hl, getE_at_append]
      have hgetx : getE (u ++ (x :: (mid ++ [y])) ++ w) u.length = x := by
        have he : u ++ (x :: (mid ++ [y])) ++ w = u ++ x :: (mid ++ [y] ++ w) := by simp
        rw [he, getE_at_append]
      unfold revLoop
      rw [dif_pos (by omega)]
      simp only [hgety, hgetx]
      have hset1 : (u ++ (x :: (mid ++ [y])) ++ w).set u.length y
          = u ++ y :: (mid ++ [y] ++ w) := by
        have he : u ++ (x :: (mid ++ [y])) ++ w = u ++ x :: (mid ++ [y] ++ w) := by simp
        rw [he, set_at_append]
      rw [hset1]
      have hset2 : (u ++ y :: (mid ++ [y] ++ w)).set (u.length + mid.length + 1) x
          = (u ++ y :: mid) ++ x :: w := by
        have he : u ++ y :: (mid ++ [y] ++ w) = (u ++ y :: mid) ++ y :: w := by simp
        have hl : u.length + mid.length + 1 = (u ++ y :: mid).length := by simp; omega
        rw [he, hl, set_at_append]
      rw [hset2]
      have ha2 : (u ++ y :: mid) ++ x :: w = (u ++ [y]) ++ mid ++ (x :: w) := by simp
      have hlo : u.length + 1 = (u ++ [y]).length := by simp
      have hhi2 : u.length + mid.length + 1 - 1 = (u ++ [y]).length + mid.length - 1 := by
        simp
      rw [ha2, hlo, hhi2, revLoop_segment mid (u ++ [y]) (x :: w)]
      simp
termination_by seg.length

theorem reverseRange_take (a : List T) (k : Nat) (hk : k ≤ a.length) :
    reverseRange a 0 k = (a.take k).reverse ++ a.drop k := by
  have h := revLoop_segment (a.take k) [] (a.drop k)
  rw [List.nil_append, List.take_append_drop] at h
  simp only [List.length_nil, List.length_take, Nat.zero_add] at h
  rw [inf_eq_left.mpr hk] at h
  unfold reverseRange
  simpa using h

/-! ### Run detection: adjacency facts and the run invariant -/

theorem extendDescLoop_adj (cmp : Cmp T) (a : List T) (hi : Nat) (runHi : Nat) :
    ∀ i, runHi ≤ i → i < (extendDescLoop cmp a hi runHi).1 →
      cmp (getE a i) (getE a (i - 1)) < 0 := by
  intro i h1 h2
  by_cases hlt : runHi < hi
  · rw [extendDescLoop, dif_pos hlt] at h2
    by_cases hcond : cmp (getE a runHi) (getE a (runHi - 1)) < 0
    · rw [if_pos hcond] at h2
      simp only at h2
      rcases Nat.eq_or_lt_of_le h1 with rfl | hgt
      · exact hcond
      · exact extendDescLoop_adj cmp a hi (runHi + 1) i (by omega) h2
    · rw [if_neg hcond] at h2
      omega
  · rw [extendDescLoop, dif_neg hlt] at h2
    omega
termination_by hi - runHi

theorem extendAscLoop_adj (cmp : Cmp T) (a : List T) (hi : Nat) (runHi : Nat) :
    ∀ i, runHi ≤ i → i < (extendAscLoop cmp a hi runHi).1 →
      0 ≤ cmp (getE a i) (getE a (i - 1)) := by
  intro i h1 h2
  by_cases hlt : runHi < hi
  · rw [extendAscLoop, dif_pos hlt] at h2
    by_cases hcond : 0 ≤ cmp (getE a runHi) (getE a (runHi - 1))
    · rw [if_pos hcond] at h2
      simp only at h2
      rcases Nat.eq_or_lt_of_le h1 with rfl | hgt
      · exact hcond
      · exact extendAscLoop_adj cmp a hi (runHi + 1) i (by omega) h2
    · rw [if_neg hcond] at h2
      omega
  · rw [extendAscLoop, dif_neg hlt] at h2
    omega
termination_by hi - runHi

theorem pairwise_take_of_adj (R : T → T → Prop) (hR : Transitive R) (a : List T)
    (rh : Nat) (hrh : rh ≤ a.length)
    (H : ∀ i, 1 ≤ i → i < rh → R (getE a (i - 1)) (getE a i)) :
    List.Pairwise R (a.take rh) := by
  haveI : IsTrans T R := ⟨fun x y z hxy hyz => hR hxy hyz⟩
  rw [← List.chain'_iff_pairwise]
  apply List.chain'_iff_get.mpr
  intro i hlen
  simp only [List.length_take] at hlen
  have hi1 : i + 1 < rh := by omega
  have := H (i + 1) (by omega) hi1
  simp only [Nat.add_sub_cancel] at this
  have e1 : (a.take rh).get ⟨i, by simp; omega⟩ = getE a i := by
    simp [List.get_eq_getElem, getE_pos a i (by omega)]
  have e2 : (a.take rh).get ⟨i + 1, by simp; omega⟩ = getE a (i + 1) := by
    simp [List.get_eq_getElem, getE_pos a (i + 1) (by omega)]
  rw [e1, e2]
  exact this

theorem length_le_one_of_pairwise_false (l : List T)
    (h : l.Pairwise fun _ _ => False) : l.length ≤ 1 := by
  match l with
  | [] => simp
  | [x] => simp
  | x :: y :: t =>
    rw [List.pairwise_cons] at h
    exact absurd (h.1 y (by simp)) id

theorem reverse_self_of_short (l : List T) (h : l.length ≤ 1) : l.reverse = l := by
  match l with
  | [] => rfl
  | [x] => rfl
  | x :: y :: t => simp at h

/-- In a pairwise strictly descending segment no two elements are equivalent,
so the filter by any equivalence class has at most one element and survives
reversal unchanged. -/
theorem filter_reverse_of_strict {cmp : Cmp T} (hc : TotalCmp cmp) (seg : List T)
    (hp : List.Pairwise (fun x y => cmp y x < 0) seg) (v : T) :
    seg.reverse.filter (fun x => decide (cmp v x = 0)) =
      seg.filter (fun x => decide (cmp v x = 0)) := by
  rw [List.filter_reverse]
  apply reverse_self_of_short
  apply length_le_one_of_pairwise_false
  have hfp := hp.filter (fun x => decide (cmp v x = 0))
  apply hfp.imp_of_mem
  intro x y hx hy hlt
  have hxv : cmp v x = 0 := by simpa using (List.mem_filter.mp hx).2
  have hyv : cmp v y = 0 := by simpa using (List.mem_filter.mp hy).2
  have := hc.eqv_trans hyv hxv
  omega

/-- Specification of `countRunAndMakeAscending` on the full range `[0, n)`:
the returned prefix of length `len` is sorted, the array is a permutation of
the input, and every comparator-equivalence class keeps its relative order. -/
theorem countRun_spec (cmp : Cmp T) (hc : TotalCmp cmp) (a : List T)
    (h2 : 2 ≤ a.length) :
    1 ≤ (countRunAndMakeAscending cmp a 0 a.length).len ∧
    (countRunAndMakeAscending cmp a 0 a.length).len ≤ a.length ∧
    (countRunAndMakeAscending cmp a 0 a.length).arr.length = a.length ∧
    List.Pairwise (fun x y => cmp x y ≤ 0)
      ((countRunAndMakeAscending cmp a 0 a.length).arr.take
        (countRunAndMakeAscending cmp a 0 a.length).len) ∧
    (countRunAndMakeAscending cmp a 0 a.length).arr.Perm a ∧
    (∀ v : T, (countRunAndMakeAscending cmp a 0 a.length).arr.filter
        (fun x => decide (cmp v x = 0)) =
      a.filter (fun x => decide (cmp v x = 0))) := by
  simp only [countRunAndMakeAscending, Nat.zero_add, Nat.sub_zero, Nat.reduceAdd]
  rw [if_neg (show ¬(1 = a.length) by omega)]
  by_cases hdesc : cmp (getE a 1) (getE a 0) < 0
  · rw [if_pos hdesc]
    simp only
    set rh := (extendDescLoop cmp a a.length 2).1 with hrh
    have hb := extendDescLoop_bounds cmp a a.length 2 h2
    rw [← hrh] at hb
    have Hadj : ∀ i, 1 ≤ i → i < rh → cmp (getE a i) (getE a (i - 1)) < 0 := by
      intro i hi1 hi2
      rcases Nat.eq_or_lt_of_le hi1 with rfl | hgt
      · simpa using hdesc
      · exact extendDescLoop_adj cmp a a.length 2 i (by omega) hi2
    have hrev : reverseRange a 0 rh = (a.take rh).reverse ++ a.drop rh :=
      reverseRange_take a rh (by omega)
    have hstrict : List.Pairwise (fun x y => cmp y x < 0) (a.take rh) := by
      apply pairwise_take_of_adj _ _ a rh (by omega)
      · intro i hi1 hi2
        exact Hadj i hi1 hi2
      · intro x y z h1 h2
        exact hc.lt_trans h2 h1
    have hlenrev : ((a.take rh).reverse ++ a.drop rh).length = a.length := by
      simp
      omega
    refine ⟨by omega, by omega, by rw [hrev]; exact hlenrev, ?_, ?_, ?_⟩
    · rw [hrev]
      have htake : (((a.take rh).reverse ++ a.drop rh).take rh) = (a.take rh).reverse :=
        List.take_left' (by simp; omega)
      rw [htake]
      have : List.Pairwise (fun x y => cmp y x < 0) ((a.take rh).reverse).reverse := by
        simpa using hstrict
      have hs := (List.pairwise_reverse.mpr hstrict)
      exact hs.imp (fun h => le_of_lt h)
    · rw [hrev]
      have hpp : ((a.take rh).reverse ++ a.drop rh).Perm (a.take rh ++ a.drop rh) :=
        List.Perm.append ((a.take rh).reverse_perm) (List.Perm.refl _)
      rw [List.take_append_drop] at hpp
      exact hpp
    · intro v
      rw [hrev, List.filter_append, filter_reverse_of_strict hc _ hstrict v,
        ← List.filter_append, List.take_append_drop]
  · rw [if_neg hdesc]
    simp only
    set rh := (extendAscLoop cmp a a.length 2).1 with hrh
    have hb := extendAscLoop_bounds cmp a a.length 2 h2
    rw [← hrh] at hb
    have Hadj : ∀ i, 1 ≤ i → i < rh → 0 ≤ cmp (getE a i) (getE a (i - 1)) := by
      intro i hi1 hi2
      rcases Nat.eq_or_lt_of_le hi1 with rfl | hgt
      · simpa using not_lt.mp hdesc
      · exact extendAscLoop_adj cmp a a.length 2 i (by omega) hi2
    refine ⟨by omega, by omega, by simp, ?_, List.Perm.refl a, by simp⟩
    apply pairwise_take_of_adj _ _ a rh (by omega)
    · intro i hi1 hi2
      exact hc.flip_le (Hadj i hi1 hi2)
    · intro x y z h1 h2
      exact hc.le_trans x y z h1 h2

/-! ### Binary insertion: data movement and search characterisation -/

theorem getE_take (a : List T) (bnd i : Nat) (h : i < bnd) :
    getE (a.take bnd) i = getE a i := by
  simp [getE, List.getElem?_take, h]

theorem take_succ_getE (a : List T) (k : Nat) (h : k < a.length) :
    a.take (k + 1) = a.take k ++ [getE a k] := by
  rw [List.take_succ, getE_pos a k h]
  simp [List.getElem?_eq_getElem h]

theorem drop_getE_cons (a : List T) (k : Nat) (h : k < a.length) :
    a.drop k = getE a k :: a.drop (k + 1) := by
  rw [getE_pos a k h]
  exact List.drop_eq_getElem_cons h

theorem pairwise_le_getE {cmp : Cmp T} (a : List T) (bnd : Nat) (hbnd : bnd ≤ a.length)
    (hp : List.Pairwise (fun x y => cmp x y ≤ 0) (a.take bnd)) :
    ∀ i j, i < j → j < bnd → cmp (getE a i) (getE a j) ≤ 0 := by
  intro i j hij hj
  have hit : i < (a.take bnd).length := by simp; omega
  have hjt : j < (a.take bnd).length := by simp; omega
  have := List.pairwise_iff_get.mp hp ⟨i, hit⟩ ⟨j, hjt⟩ (by simpa using hij)
  simp only [List.get_eq_getElem] at this
  rw [← getE_pos _ i hit, ← getE_pos _ j hjt, getE_take a bnd i (by omega),
    getE_take a bnd j (by omega)] at this
  exact this

theorem set_one_at (u : List T) (x0 : T) (w : List T) (p : T) (k : Nat)
    (hk : k = u.length) : (u ++ x0 :: w).set k p = u ++ p :: w := by
  subst hk
  exact set_at_append u x0 w p

theorem set_two_at (u : List T) (x0 x1 : T) (w : List T) (p : T) (k : Nat)
    (hk : k = u.length) :
    ((u ++ x0 :: x1 :: w).set (k + 1) x0).set k p = u ++ p :: x0 :: w := by
  subst hk
  have e1 : u ++ x0 :: x1 :: w = (u ++ [x0]) ++ x1 :: w := by simp
  have h1 : u.length + 1 = (u ++ [x0]).length := by simp
  rw [e1, h1, set_at_append]
  have e2 : (u ++ [x0]) ++ x0 :: w = u ++ x0 :: x0 :: w := by simp
  rw [e2, set_at_append]

theorem set_three_at (u : List T) (x0 x1 x2 : T) (w : List T) (p : T) (k : Nat)
    (hk : k = u.length) :
    (((u ++ x0 :: x1 :: x2 :: w).set (k + 2) x1).set (k + 1) x0).set k p
      = u ++ p :: x0 :: x1 :: w := by
  subst hk
  have e1 : u ++ x0 :: x1 :: x2 :: w = (u ++ [x0, x1]) ++ x2 :: w := by simp
  have h1 : u.length + 2 = (u ++ [x0, x1]).length := by simp
  rw [e1, h1, set_at_append]
  have e2 : (u ++ [x0, x1]) ++ x1 :: w = (u ++ [x0]) ++ x1 :: x1 :: w := by simp
  have h2 : u.length + 1 = (u ++ [x0]).length := by simp
  rw [e2, h2, set_at_append]
  have e3 : (u ++ [x0]) ++ x0 :: x1 :: w = u ++ x0 :: x0 :: x1 :: w := by simp
  rw [e3, set_at_append]

/-- The net effect of one `binarySort` insertion step: the pivot moves to
index `left`, the block `[left, start)` shifts right one slot, everything
else is untouched.  All three `switch` branches produce this same form. -/
theorem shiftInsert_eq (a : List T) (left start : Nat) (p : T)
    (h1 : left ≤ start) (h2 : start < a.length) :
    shiftInsert a left start p =
      a.take left ++ p :: ((a.drop left).take (start - left)) ++ a.drop (start + 1) := by
  have hlenlt : left < a.length := by omega
  have hul : left = (a.take left).length := by simp; omega
  simp only [shiftInsert]
  by_cases hn2 : start - left = 2
  · rw [if_pos hn2]
    have hstart : start = left + 2 := by omega
    subst hstart
    have ha : a = a.take left ++ getE a left :: getE a (left + 1) :: getE a (left + 2)
        :: a.drop (left + 3) := by
      conv_lhs => rw [← List.take_append_drop left a]
      rw [drop_getE_cons a left (by omega), drop_getE_cons a (left + 1) (by omega),
        drop_getE_cons a (left + 2) (by omega)]
    have key := set_three_at (a.take left) (getE a left) (getE a (left + 1))
      (getE a (left + 2)) (a.drop (left + 3)) p left hul
    rw [← ha] at key
    rw [key]
    have hseg : (a.drop left).take (left + 2 - left) = [getE a left, getE a (left + 1)] := by
      rw [drop_getE_cons a left (by omega), drop_getE_cons a (left + 1) (by omega)]
      have : left + 2 - left = 2 := by omega
      rw [this]
      rfl
    rw [hseg]
    simp
  · rw [if_neg hn2]
    by_cases hn1 : start - left = 1
    · rw [if_pos hn1]
      have hstart : start = left + 1 := by omega
      subst hstart
      have ha : a = a.take left ++ getE a left :: getE a (left + 1)
          :: a.drop (left + 2) := by
        conv_lhs => rw [← List.take_append_drop left a]
        rw [drop_getE_cons a left (by omega), drop_getE_cons a (left + 1) (by omega)]
      have key := set_two_at (a.take left) (getE a left) (getE a (left + 1))
        (a.drop (left + 2)) p left hul
      rw [← ha] at key
      rw [key]
      have hseg : (a.drop left).take (left + 1 - left) = [getE a left] := by
        rw [drop_getE_cons a left (by omega)]
        have : left + 1 - left = 1 := by omega
        rw [this]
        rfl
      rw [hseg]
      simp
    · rw [if_neg hn1]
      have hseglen : ((a.drop left).take (start - left)).length = start - left := by
        simp
        omega
      have hac : arraycopy a left a (left + 1) (start - left)
          = a.take (left + 1) ++ (a.drop left).take (start - left) ++ a.drop (start + 1) := by
        unfold arraycopy
        rw [acLoop_eq _ _ _ _ (by rw [hseglen]) (by omega),
          List.take_of_length_le (le_of_eq hseglen),
          show left + 1 + (start - left) = start + 1 by omega]
      rw [hac, take_succ_getE a left hlenlt]
      have he : (a.take left ++ [getE a left]) ++ (a.drop left).take (start - left)
            ++ a.drop (start + 1)
          = a.take left ++ getE a left :: ((a.drop left).take (start - left)
            ++ a.drop (start + 1)) := by simp
      rw [he, set_one_at _ _ _ _ _ hul]
      simp

theorem getE_drop (a : List T) (k i : Nat) : getE (a.drop k) i = getE a (k + i) := by
  simp [getE, List.getElem?_drop]

theorem pairwise_of_short (R : T → T → Prop) (l : List T) (h : l.length ≤ 1) :
    List.Pairwise R l := by
  match l with
  | [] => exact List.Pairwise.nil
  | [x] => simp
  | x :: y :: t => simp at h

theorem mem_take_drop_getE (a : List T) (k n : Nat) (x : T)
    (hx : x ∈ (a.drop k).take n) :
    ∃ i, i < n ∧ k + i < a.length ∧ x = getE a (k + i) := by
  obtain ⟨i, hi, hxi⟩ := List.mem_iff_getElem.mp hx
  simp only [List.length_take, List.length_drop] at hi
  refine ⟨i, by omega, by omega, ?_⟩
  rw [← hxi, ← getE_pos _ i (by simp; omega), getE_take _ _ _ (by omega), getE_drop]

/-- Characterisation of the `binarySort` binary-search loop on a sorted
prefix: the returned index is between `left` and `right`, everything
strictly below it is ≤ the pivot, everything from it up to `bnd` is > the
pivot (the pivot lands after all equal elements — the stability property of
the placement). -/
theorem bsearchLoop_spec (cmp : Cmp T) (hc : TotalCmp cmp) (pivot : T) (a : List T)
    (bnd : Nat) (hbnd : bnd ≤ a.length)
    (hp : List.Pairwise (fun x y => cmp x y ≤ 0) (a.take bnd))
    (left right : Nat) (hlr : left ≤ right) (hrb : right ≤ bnd)
    (Hleft : ∀ i, i < left → 0 ≤ cmp pivot (getE a i))
    (Hright : ∀ i, right ≤ i → i < bnd → cmp pivot (getE a i) < 0) :
    left ≤ (bsearchLoop cmp pivot a left right).1 ∧
    (bsearchLoop cmp pivot a left right).1 ≤ right ∧
    (∀ i, i < (bsearchLoop cmp pivot a left right).1 → 0 ≤ cmp pivot (getE a i)) ∧
    (∀ i, (bsearchLoop cmp pivot a left right).1 ≤ i → i < bnd →
      cmp pivot (getE a i) < 0) := by
  by_cases h : left < right
  · have hmid1 : left ≤ (left + right) / 2 := by omega
    have hmid2 : (left + right) / 2 < right := by omega
    rw [bsearchLoop, dif_pos h]
    by_cases hcnd : cmp pivot (getE a ((left + right) / 2)) < 0
    · rw [if_pos hcnd]
      simp only
      have Hright2 : ∀ i, (left + right) / 2 ≤ i → i < bnd →
          cmp pivot (getE a i) < 0 := by
        intro i hi1 hi2
        rcases Nat.eq_or_lt_of_le hi1 with rfl | hgt
        · exact hcnd
        · exact hc.lt_le_trans hcnd
            (pairwise_le_getE a bnd hbnd hp _ i hgt hi2)
      have ih := bsearchLoop_spec cmp hc pivot a bnd hbnd hp left ((left + right) / 2)
        (by omega) (by omega) Hleft Hright2
      exact ⟨ih.1, by omega, ih.2.2.1, ih.2.2.2⟩
    · rw [if_neg hcnd]
      simp only
      push_neg at hcnd
      have Hleft2 : ∀ i, i < (left + right) / 2 + 1 → 0 ≤ cmp pivot (getE a i) := by
        intro i hi1
        rcases Nat.eq_or_lt_of_le (Nat.le_of_lt_succ hi1) with rfl | hgt
        · exact hcnd
        · have hle : cmp (getE a i) (getE a ((left + right) / 2)) ≤ 0 :=
            pairwise_le_getE a bnd hbnd hp i _ hgt (by omega)
          have h1 : cmp (getE a ((left + right) / 2)) pivot ≤ 0 := hc.flip_le hcnd
          exact hc.le_flip (hc.le_trans _ _ _ hle h1)
      have ih := bsearchLoop_spec cmp hc pivot a bnd hbnd hp ((left + right) / 2 + 1)
        right (by omega) (by omega) Hleft2 Hright
      exact ⟨by omega, ih.2.1, ih.2.2.1, ih.2.2.2⟩
  · rw [bsearchLoop, dif_neg h]
    have : left = right := by omega
    subst this
    exact ⟨le_rfl, le_rfl, Hleft, Hright⟩
termination_by right - left

/-- Equivalence-class filters ignore moving an element over a block of
strictly greater elements. -/
theorem filter_middle_pres {cmp : Cmp T} (hc : TotalCmp cmp) (p : T)
    (seg tail : List T) (Hseg : ∀ x ∈ seg, cmp p x < 0) (v : T) :
    List.filter (fun x => decide (cmp v x = 0)) (p :: (seg ++ tail))
      = List.filter (fun x => decide (cmp v x = 0)) (seg ++ p :: tail) := by
  rw [List.filter_cons, List.filter_append, List.filter_append, List.filter_cons]
  by_cases hvp : cmp v p = 0
  · have hnone : List.filter (fun x => decide (cmp v x = 0)) seg = [] := by
      rw [List.filter_eq_nil_iff]
      intro x hx
      simp only [decide_eq_true_eq]
      intro hvx
      have h1 := hc.eqv_trans hvp hvx
      have h2 := Hseg x hx
      omega
    rw [hnone]
    simp [hvp]
  · simp [hvp]

/-- One insertion step of `binarySortLoop`: length, permutation and
equivalence-class filters are preserved, and the sorted prefix grows by one
(the pivot is placed after all equal elements). -/
theorem binaryStep_spec (cmp : Cmp T) (hc : TotalCmp cmp) (a : List T) (start : Nat)
    (h2 : start < a.length)
    (hp : List.Pairwise (fun x y => cmp x y ≤ 0) (a.take start)) :
    (shiftInsert a (bsearchLoop cmp (getE a start) a 0 start).1 start (getE a start)).length
      = a.length ∧
    List.Pairwise (fun x y => cmp x y ≤ 0)
      ((shiftInsert a (bsearchLoop cmp (getE a start) a 0 start).1 start
        (getE a start)).take (start + 1)) ∧
    (shiftInsert a (bsearchLoop cmp (getE a start) a 0 start).1 start
      (getE a start)).Perm a ∧
    (∀ v, (shiftInsert a (bsearchLoop cmp (getE a start) a 0 start).1 start
        (getE a start)).filter (fun x => decide (cmp v x = 0))
      = a.filter (fun x => decide (cmp v x = 0))) := by
  have hbs := bsearchLoop_spec cmp hc (getE a start) a start (by omega) hp 0 start
    (by omega) le_rfl
    (fun i hi => absurd hi (Nat.not_lt_zero i))
    (fun i hi1 hi2 => absurd (Nat.lt_of_le_of_lt hi1 hi2) (lt_irrefl start))
  obtain ⟨-, hlr, HL, HR⟩ := hbs
  have hsi := shiftInsert_eq a (bsearchLoop cmp (getE a start) a 0 start).1 start
    (getE a start) hlr h2
  set p := getE a start with hpdef
  set left := (bsearchLoop cmp p a 0 start).1 with hldef
  set seg := (a.drop left).take (start - left) with hsegdef
  have hseglen : seg.length = start - left := by
    rw [hsegdef]
    simp
    omega
  have hulen : (a.take left).length = left := by simp; omega
  have Hseg : ∀ x ∈ seg, cmp p x < 0 := by
    intro x hx
    obtain ⟨i, hin, hbound, rfl⟩ := mem_take_drop_getE a left (start - left) x hx
    exact HR (left + i) (by omega) (by omega)
  have Hu : ∀ x ∈ a.take left, cmp x p ≤ 0 := by
    intro x hx
    obtain ⟨i, hin, hbound, hxe⟩ := mem_take_drop_getE a 0 left x (by simpa using hx)
    rw [hxe]
    have := HL (0 + i) (by omega)
    exact hc.flip_le this
  have htseg : (a.take start).drop left = seg := by
    rw [List.drop_take]
  have htu : (a.take start).take left = a.take left := by
    rw [List.take_take, inf_eq_left.mpr (by omega)]
  have hadec : a = a.take left ++ (seg ++ p :: a.drop (start + 1)) := by
    conv_lhs => rw [← List.take_append_drop start a]
    rw [drop_getE_cons a start h2, ← hpdef]
    conv_lhs => rw [← List.take_append_drop left (a.take start)]
    rw [htseg, htu, List.append_assoc]
  refine ⟨?_, ?_, ?_, ?_⟩
  · rw [hsi]
    simp only [List.length_append, List.length_cons, hulen, hseglen, List.length_drop]
    omega
  · have htk : (shiftInsert a left start p).take (start + 1)
        = a.take left ++ (p :: seg) := by
      rw [hsi]
      exact List.take_left' (by simp; omega)
    rw [htk]
    apply List.pairwise_append.mpr
    refine ⟨?_, ?_, ?_⟩
    · have hsub : a.take left = (a.take start).take left := htu.symm
      rw [hsub]
      exact hp.sublist (List.take_sublist left (a.take start))
    · apply List.pairwise_cons.mpr
      refine ⟨fun y hy => le_of_lt (Hseg y hy), ?_⟩
      have hsub : seg = (a.take start).drop left := htseg.symm
      rw [hsub]
      exact hp.sublist (List.drop_sublist left (a.take start))
    · intro x hx y hy
      rcases List.mem_cons.mp hy with rfl | hyseg
      · exact Hu x hx
      · obtain ⟨i, hin, hib, hxe⟩ := mem_take_drop_getE a 0 left x (by simpa using hx)
        obtain ⟨j, hjn, hjb, hye⟩ := mem_take_drop_getE a left (start - left) y hyseg
        rw [hxe, hye]
        exact pairwise_le_getE a start (by omega) hp (0 + i) (left + j) (by omega) (by omega)
  · rw [hsi, List.append_assoc]
    conv_rhs => rw [hadec]
    apply List.Perm.append_left
    rw [List.cons_append]
    exact (List.perm_middle).symm
  · intro v
    rw [hsi, List.append_assoc]
    conv_rhs => rw [hadec]
    rw [List.filter_append]
    conv_rhs => rw [List.filter_append]
    congr 1
    rw [List.cons_append]
    exact filter_middle_pres hc p seg (a.drop (start + 1)) Hseg v

/-- The `binarySort` insertion loop turns a sorted prefix `[0, start)` into
a fully sorted permutation of the input, preserving equivalence-class
filters (stability). -/
theorem binarySortLoop_spec (cmp : Cmp T) (hc : TotalCmp cmp) (hi : Nat)
    (start : Nat) (a : List T) (hlen : hi = a.length)
    (hp : List.Pairwise (fun x y => cmp x y ≤ 0) (a.take start)) :
    (binarySortLoop cmp a 0 hi start).1.length = a.length ∧
    List.Pairwise (fun x y => cmp x y ≤ 0) (binarySortLoop cmp a 0 hi start).1 ∧
    (binarySortLoop cmp a 0 hi start).1.Perm a ∧
    (∀ v, (binarySortLoop cmp a 0 hi start).1.filter (fun x => decide (cmp v x = 0))
      = a.filter (fun x => decide (cmp v x = 0))) := by
  by_cases h : start < hi
  · rw [binarySortLoop, dif_pos h]
    simp only
    obtain ⟨hl2, hp2, hperm2, hfil2⟩ := binaryStep_spec cmp hc a start (by omega) hp
    obtain ⟨ihl, ihp, ihperm, ihfil⟩ := binarySortLoop_spec cmp hc hi (start + 1)
      (shiftInsert a (bsearchLoop cmp (getE a start) a 0 start).1 start (getE a start))
      (by omega) hp2
    refine ⟨by omega, ihp, ihperm.trans hperm2, fun v => (ihfil v).trans (hfil2 v)⟩
  · rw [binarySortLoop, dif_neg h]
    refine ⟨rfl, ?_, List.Perm.refl a, fun v => rfl⟩
    have he : a.take start = a := List.take_of_length_le (by omega)
    rwa [he] at hp
termination_by hi - start

theorem binarySort_spec (cmp : Cmp T) (hc : TotalCmp cmp) (a : List T) (start : Nat)
    (hp : List.Pairwise (fun x y => cmp x y ≤ 0) (a.take start)) :
    (binarySort cmp a 0 a.length start).1.length = a.length ∧
    List.Pairwise (fun x y => cmp x y ≤ 0) (binarySort cmp a 0 a.length start).1 ∧
    (binarySort cmp a 0 a.length start).1.Perm a ∧
    (∀ v, (binarySort cmp a 0 a.length start).1.filter (fun x => decide (cmp v x = 0))
      = a.filter (fun x => decide (cmp v x = 0))) := by
  unfold binarySort
  by_cases h0 : start = 0
  · rw [if_pos h0]
    subst h0
    exact binarySortLoop_spec cmp hc a.length 1 a rfl
      (pairwise_of_short _ _ (by simp))
  · rw [if_neg h0]
    exact binarySortLoop_spec cmp hc a.length start a rfl hp

/-! ### Gallop search: loop invariants and characterisation -/

omit [Inhabited T] in
theorem TotalCmp.refl_zero {cmp : Cmp T} (hc : TotalCmp cmp) (x : T) : cmp x x = 0 := by
  have := hc.sign x x
  omega

theorem toInt32_step (ofs : Int) (h1 : 1 ≤ ofs) (h2 : ofs ≤ 2147483647) :
    (toInt32 (2 * ofs) + 1 = 2 * ofs + 1 ∧ 2 * ofs + 1 ≤ 2147483647) ∨
      toInt32 (2 * ofs) + 1 ≤ 0 := by
  simp only [toInt32]
  split
  · right
    omega
  · left
    omega

/-- Invariant of the exponential probe: it terminates within the supplied
fuel and brackets the crossover point: the returned `l` still passes the
test, the returned `o` (if still below `maxOfs`) fails it. -/
theorem gallopProbe_spec (cmp : Cmp T) (key : T) (elem : Int → T) (test : Int → Bool)
    (maxOfs : Int) :
    ∀ (fuel : Nat) (lastOfs ofs : Int),
    0 ≤ lastOfs → lastOfs < ofs → lastOfs < maxOfs →
    (ofs ≤ 2147483647 ∨ maxOfs ≤ ofs) →
    (maxOfs - ofs).toNat < fuel →
    test (cmp key (elem lastOfs)) = true →
    ∃ l o log, gallopProbe cmp key elem test maxOfs fuel lastOfs ofs = some (l, o, log) ∧
      0 ≤ l ∧ l < o ∧ l < maxOfs ∧ ofs ≤ o ∧
      test (cmp key (elem l)) = true ∧
      (o < maxOfs → test (cmp key (elem o)) = false) := by
  intro fuel
  induction fuel with
  | zero =>
    intro lastOfs ofs h0 h1 h2 h3 hfuel ht
    omega
  | succ n ih =>
    intro lastOfs ofs h0 h1 h2 h3 hfuel ht
    rw [gallopProbe]
    by_cases hg : ofs < maxOfs
    · rw [if_pos hg]
      by_cases htest : test (cmp key (elem ofs)) = true
      · rw [if_pos htest]
        simp only
        have hofs31 : ofs ≤ 2147483647 := by
          rcases h3 with h | h
          · exact h
          · omega
        have hstep := toInt32_step ofs (by omega) hofs31
        have hnext : ∃ ofs2, (if toInt32 (2 * ofs) + 1 ≤ 0 then maxOfs
              else toInt32 (2 * ofs) + 1) = ofs2 ∧ ofs < ofs2 ∧
            (ofs2 ≤ 2147483647 ∨ maxOfs ≤ ofs2) := by
          rcases hstep with ⟨heq, hle⟩ | hle
          · refine ⟨toInt32 (2 * ofs) + 1, ?_, by omega, Or.inl (by omega)⟩
            rw [if_neg (by omega)]
          · exact ⟨maxOfs, by rw [if_pos hle], by omega, Or.inr le_rfl⟩
        obtain ⟨ofs2, hofs2, hlt2, h31⟩ := hnext
        rw [hofs2]
        obtain ⟨l, o, log, heq, c1, c2, c3, c4, c5, c6⟩ :=
          ih ofs ofs2 (by omega) hlt2 hg h31 (by omega) htest
        rw [heq]
        exact ⟨l, o, (key, elem ofs) :: log, rfl, c1, c2, c3, by omega, c5, c6⟩
      · rw [if_neg htest]
        refine ⟨lastOfs, ofs, [(key, elem ofs)], rfl, h0, h1, h2, le_rfl, ht, ?_⟩
        intro _
        exact Bool.not_eq_true _ ▸ (by simpa using htest)
    · rw [if_neg hg]
      exact ⟨lastOfs, ofs, [], rfl, h0, h1, h2, le_rfl, ht, fun h => absurd h hg⟩

/-- Characterisation of the binary phase: under a monotone `goRight`
predicate with the bracket invariants, the returned index is the exact
crossover point. -/
theorem gallopBin_spec (cmp : Cmp T) (key : T) (elem : Int → T) (goRight : Int → Bool)
    (bnd : Int)
    (mono : ∀ i j : Int, 0 ≤ i → i ≤ j → j < bnd →
      goRight (cmp key (elem j)) = true → goRight (cmp key (elem i)) = true) :
    ∀ (fuel : Nat) (lastOfs ofs : Int),
    (ofs - lastOfs).toNat < fuel →
    0 ≤ lastOfs → lastOfs ≤ ofs → ofs ≤ bnd →
    (∀ i : Int, 0 ≤ i → i < lastOfs → goRight (cmp key (elem i)) = true) →
    (∀ i : Int, ofs ≤ i → i < bnd → goRight (cmp key (elem i)) = false) →
    ∃ k log, gallopBin cmp key elem goRight fuel lastOfs ofs = some (k, log) ∧
      lastOfs ≤ k ∧ k ≤ ofs ∧
      (∀ i : Int, 0 ≤ i → i < k → goRight (cmp key (elem i)) = true) ∧
      (∀ i : Int, k ≤ i → i < bnd → goRight (cmp key (elem i)) = false) := by
  intro fuel
  induction fuel with
  | zero =>
    intro lastOfs ofs hfuel h0 h1 h2 HL HR
    omega
  | succ n ih =>
    intro lastOfs ofs hfuel h0 h1 h2 HL HR
    rw [gallopBin]
    by_cases hg : lastOfs < ofs
    · rw [if_pos hg]
      simp only
      have hm1 : lastOfs ≤ lastOfs + (ofs - lastOfs) / 2 := by omega
      have hm2 : lastOfs + (ofs - lastOfs) / 2 < ofs := by omega
      by_cases htest : goRight (cmp key (elem (lastOfs + (ofs - lastOfs) / 2))) = true
      · rw [if_pos htest]
        have HL2 : ∀ i : Int, 0 ≤ i → i < lastOfs + (ofs - lastOfs) / 2 + 1 →
            goRight (cmp key (elem i)) = true := by
          intro i hi0 hilt
          exact mono i (lastOfs + (ofs - lastOfs) / 2) hi0 (by omega) (by omega) htest
        obtain ⟨k, log, heq, c1, c2, c3, c4⟩ :=
          ih (lastOfs + (ofs - lastOfs) / 2 + 1) ofs (by omega) (by omega) (by omega)
            h2 HL2 HR
        rw [heq]
        exact ⟨k, _, rfl, by omega, c2, c3, c4⟩
      · rw [if_neg htest]
        have HR2 : ∀ i : Int, lastOfs + (ofs - lastOfs) / 2 ≤ i → i < bnd →
            goRight (cmp key (elem i)) = false := by
          intro i hi1 hi2
          by_contra hcon
          rw [Bool.not_eq_false] at hcon
          exact htest (mono _ i (by omega) hi1 hi2 hcon)
        obtain ⟨k, log, heq, c1, c2, c3, c4⟩ :=
          ih lastOfs (lastOfs + (ofs - lastOfs) / 2) (by omega) h0 (by omega)
            (by omega) HL HR2
        rw [heq]
        exact ⟨k, _, rfl, c1, by omega, c3, c4⟩
    · rw [if_neg hg]
      have : lastOfs = ofs := by omega
      subst this
      exact ⟨lastOfs, [], rfl, le_rfl, le_rfl, fun i h1 h2 => HL i h1 h2,
        fun i h1 h2 => HR i h1 h2⟩

/-- `gallopLeft` on a sorted range returns the leftmost insertion point:
the smallest `k` with `key ≤ a[base+k]` (`len` if none), so everything
strictly below `k` is `< key` and the element at `k` (if any) is `≥ key`. -/
theorem gallopLeft_spec (cmp : Cmp T) (hc : TotalCmp cmp) (key : T) (a : List T)
    (base len hint : Nat) (hlen : 0 < len) (hhint : hint < len)
    (Hs : ∀ i j : Int, 0 ≤ i → i ≤ j → j < (len : Int) →
      cmp (getI a ((base : Int) + i)) (getI a ((base : Int) + j)) ≤ 0) :
    ∃ k log, gallopLeft cmp key a base len hint = some (k, log) ∧
      0 ≤ k ∧ k ≤ (len : Int) ∧
      (∀ i : Int, 0 ≤ i → i < k → 0 < cmp key (getI a ((base : Int) + i))) ∧
      (k < (len : Int) → cmp key (getI a ((base : Int) + k)) ≤ 0) := by
  have mono : ∀ i j : Int, 0 ≤ i → i ≤ j → j < (len : Int) →
      (fun c => decide (0 < c)) (cmp key ((fun m => getI a ((base : Int) + m)) j)) = true →
      (fun c => decide (0 < c)) (cmp key ((fun m => getI a ((base : Int) + m)) i)) = true := by
    intro i j h0 hij hj ht
    simp only [decide_eq_true_eq] at ht ⊢
    have h1 : cmp (getI a ((base : Int) + j)) key < 0 := (hc.sign _ _).mpr ht
    have h2 := Hs i j h0 hij hj
    exact (hc.sign _ _).mp (hc.le_lt_trans h2 h1)
  rw [gallopLeft]
  by_cases hb : 0 < cmp key (getI a ((base : Int) + (hint : Int)))
  · rw [if_pos hb]
    have hmax1 : (1 : Int) ≤ (len : Int) - (hint : Int) := by omega
    have ht0 : (fun c => decide (0 < c))
        (cmp key ((fun o => getI a ((base : Int) + (hint : Int) + o)) 0)) = true := by
      simp only [add_zero, decide_eq_true_eq]
      exact hb
    obtain ⟨l, o, log1, hpeq, pl0, plo, plmax, pofs, ptl, pto⟩ :=
      gallopProbe_spec cmp key (fun o => getI a ((base : Int) + (hint : Int) + o))
        (fun c => decide (0 < c)) ((len : Int) - (hint : Int)) (len + 2) 0 1
        le_rfl (by omega) (by omega) (Or.inl (by omega)) (by omega) ht0
    simp only [hpeq]
    set O1 : Int := if (len : Int) - (hint : Int) < o then (len : Int) - (hint : Int) else o
      with hO1def
    have hO1a : l < O1 := by
      rw [hO1def]
      split <;> omega
    have hO1b : O1 ≤ (len : Int) - (hint : Int) := by
      rw [hO1def]
      split <;> omega
    have hgr : ∀ i : Int, 0 ≤ i → i < l + (hint : Int) + 1 →
        (fun c => decide (0 < c))
          (cmp key ((fun m => getI a ((base : Int) + m)) i)) = true := by
      intro i hi0 hilt
      apply mono i ((hint : Int) + l) hi0 (by omega) (by omega)
      simp only [decide_eq_true_eq]
      have he : (base : Int) + ((hint : Int) + l) = (base : Int) + (hint : Int) + l := by
        ring
      rw [he]
      simpa using ptl
    have hgrR : ∀ i : Int, O1 + (hint : Int) ≤ i → i < (len : Int) →
        (fun c => decide (0 < c))
          (cmp key ((fun m => getI a ((base : Int) + m)) i)) = false := by
      intro i hi1 hi2
      by_cases hcase : o < (len : Int) - (hint : Int)
      · have hO1o : O1 = o := by
          rw [hO1def, if_neg (by omega)]
        by_contra hcon
        rw [Bool.not_eq_false] at hcon
        have := mono ((hint : Int) + o) i (by omega) (by omega) hi2 hcon
        simp only [decide_eq_true_eq] at this
        have he : (base : Int) + ((hint : Int) + o) = (base : Int) + (hint : Int) + o := by
          ring
        rw [he] at this
        have hfalse := pto hcase
        simp only [decide_eq_true_eq] at hfalse
        rw [decide_eq_false_iff_not] at hfalse
        exact hfalse this
      · have : O1 = (len : Int) - (hint : Int) := by
          rw [hO1def, if_pos (by omega)]
        omega
    obtain ⟨k, blog, hbeq, bk1, bk2, bkl, bkr⟩ :=
      gallopBin_spec cmp key (fun m => getI a ((base : Int) + m))
        (fun c => decide (0 < c)) (len : Int) mono (len + 2)
        (l + (hint : Int) + 1) (O1 + (hint : Int)) (by omega) (by omega) (by omega)
        (by omega) hgr hgrR
    simp only [hbeq]
    refine ⟨k, _, rfl, by omega, by omega, ?_, ?_⟩
    · intro i hi0 hik
      have := bkl i hi0 hik
      simpa using this
    · intro hk
      have := bkr k le_rfl hk
      simp only [decide_eq_true_eq] at this
      rw [decide_eq_false_iff_not] at this
      omega
  · rw [if_neg hb]
    push_neg at hb
    have ht0 : (fun c => decide (c ≤ 0))
        (cmp key ((fun o => getI a ((base : Int) + (hint : Int) - o)) 0)) = true := by
      simp only [sub_zero, decide_eq_true_eq]
      exact hb
    obtain ⟨l, o, log1, hpeq, pl0, plo, plmax, pofs, ptl, pto⟩ :=
      gallopProbe_spec cmp key (fun o => getI a ((base : Int) + (hint : Int) - o))
        (fun c => decide (c ≤ 0)) ((hint : Int) + 1) (hint + 2) 0 1
        le_rfl (by omega) (by omega) (Or.inl (by omega)) (by omega) ht0
    simp only [hpeq]
    set O1 : Int := if (hint : Int) + 1 < o then (hint : Int) + 1 else o with hO1def
    have hO1a : l < O1 := by
      rw [hO1def]
      split <;> omega
    have hO1b : O1 ≤ (hint : Int) + 1 := by
      rw [hO1def]
      split <;> omega
    have hgr : ∀ i : Int, 0 ≤ i → i < (hint : Int) - O1 + 1 →
        (fun c => decide (0 < c))
          (cmp key ((fun m => getI a ((base : Int) + m)) i)) = true := by
      intro i hi0 hilt
      have hcase : o < (hint : Int) + 1 := by
        by_contra hno
        have : O1 = (hint : Int) + 1 := by
          rw [hO1def, if_pos (by omega)]
        omega
      have hO1o : O1 = o := by
        rw [hO1def, if_neg (by omega)]
      apply mono i ((hint : Int) - o) hi0 (by omega) (by omega)
      simp only [decide_eq_true_eq]
      have hfalse := pto hcase
      rw [decide_eq_false_iff_not] at hfalse
      have he : (base : Int) + ((hint : Int) - o) = (base : Int) + (hint : Int) - o := by
        ring
      rw [he]
      omega
    have hgrR : ∀ i : Int, (hint : Int) - l ≤ i → i < (len : Int) →
        (fun c => decide (0 < c))
          (cmp key ((fun m => getI a ((base : Int) + m)) i)) = false := by
      intro i hi1 hi2
      by_contra hcon
      rw [Bool.not_eq_false] at hcon
      have := mono ((hint : Int) - l) i (by omega) hi1 hi2 hcon
      simp only [decide_eq_true_eq] at this
      have he : (base : Int) + ((hint : Int) - l) = (base : Int) + (hint : Int) - l := by
        ring
      rw [he] at this
      simp only [decide_eq_true_eq] at ptl
      omega
    obtain ⟨k, blog, hbeq, bk1, bk2, bkl, bkr⟩ :=
      gallopBin_spec cmp key (fun m => getI a ((base : Int) + m))
        (fun c => decide (0 < c)) (len : Int) mono (len + 2)
        ((hint : Int) - O1 + 1) ((hint : Int) - l) (by omega) (by omega) (by omega)
        (by omega) hgr hgrR
    simp only [hbeq]
    refine ⟨k, _, rfl, by omega, by omega, ?_, ?_⟩
    · intro i hi0 hik
      have := bkl i hi0 hik
      simpa using this
    · intro hk
      have := bkr k le_rfl hk
      rw [decide_eq_false_iff_not] at this
      omega

/-- `gallopRight` on a sorted range returns the rightmost insertion point:
the smallest `k` with `key < a[base+k]` (`len` if none), so everything
strictly below `k` is `≤ key` and the element at `k` (if any) is `> key`. -/
theorem gallopRight_spec (cmp : Cmp T) (hc : TotalCmp cmp) (key : T) (a : List T)
    (base len hint : Nat) (hlen : 0 < len) (hhint : hint < len)
    (Hs : ∀ i j : Int, 0 ≤ i → i ≤ j → j < (len : Int) →
      cmp (getI a ((base : Int) + i)) (getI a ((base : Int) + j)) ≤ 0) :
    ∃ k log, gallopRight cmp key a base len hint = some (k, log) ∧
      0 ≤ k ∧ k ≤ (len : Int) ∧
      (∀ i : Int, 0 ≤ i → i < k → 0 ≤ cmp key (getI a ((base : Int) + i))) ∧
      (k < (len : Int) → cmp key (getI a ((base : Int) + k)) < 0) := by
  have mono : ∀ i j : Int, 0 ≤ i → i ≤ j → j < (len : Int) →
      (fun c => decide (0 ≤ c)) (cmp key ((fun m => getI a ((base : Int) + m)) j)) = true →
      (fun c => decide (0 ≤ c)) (cmp key ((fun m => getI a ((base : Int) + m)) i)) = true := by
    intro i j h0 hij hj ht
    simp only [decide_eq_true_eq] at ht ⊢
    by_contra hcon
    push_neg at hcon
    have := hc.lt_le_trans hcon (Hs i j h0 hij hj)
    omega
  rw [gallopRight]
  by_cases hb : cmp key (getI a ((base : Int) + (hint : Int))) < 0
  · rw [if_pos hb]
    have ht0 : (fun c => decide (c < 0))
        (cmp key ((fun o => getI a ((base : Int) + (hint : Int) - o)) 0)) = true := by
      simp only [sub_zero, decide_eq_true_eq]
      exact hb
    obtain ⟨l, o, log1, hpeq, pl0, plo, plmax, pofs, ptl, pto⟩ :=
      gallopProbe_spec cmp key (fun o => getI a ((base : Int) + (hint : Int) - o))
        (fun c => decide (c < 0)) ((hint : Int) + 1) (hint + 2) 0 1
        le_rfl (by omega) (by omega) (Or.inl (by omega)) (by omega) ht0
    simp only [hpeq]
    set O1 : Int := if (hint : Int) + 1 < o then (hint : Int) + 1 else o with hO1def
    have hO1a : l < O1 := by
      rw [hO1def]
      split <;> omega
    have hO1b : O1 ≤ (hint : Int) + 1 := by
      rw [hO1def]
      split <;> omega
    have hgr : ∀ i : Int, 0 ≤ i → i < (hint : Int) - O1 + 1 →
        (fun c => decide (0 ≤ c))
          (cmp key ((fun m => getI a ((base : Int) + m)) i)) = true := by
      intro i hi0 hilt
      have hcase : o < (hint : Int) + 1 := by
        by_contra hno
        have : O1 = (hint : Int) + 1 := by
          rw [hO1def, if_pos (by omega)]
        omega
      have hO1o : O1 = o := by
        rw [hO1def, if_neg (by omega)]
      apply mono i ((hint : Int) - o) hi0 (by omega) (by omega)
      simp only [decide_eq_true_eq]
      have hfalse := pto hcase
      rw [decide_eq_false_iff_not] at hfalse
      have he : (base : Int) + ((hint : Int) - o) = (base : Int) + (hint : Int) - o := by
        ring
      rw [he]
      omega
    have hgrR : ∀ i : Int, (hint : Int) - l ≤ i → i < (len : Int) →
        (fun c => decide (0 ≤ c))
          (cmp key ((fun m => getI a ((base : Int) + m)) i)) = false := by
      intro i hi1 hi2
      simp only [decide_eq_true_eq] at ptl
      have h2 := Hs ((hint : Int) - l) i (by omega) hi1 hi2
      have he : (base : Int) + ((hint : Int) - l) = (base : Int) + (hint : Int) - l := by
        ring
      rw [he] at h2
      have h3 := hc.lt_le_trans ptl h2
      show decide (0 ≤ cmp key (getI a ((base : Int) + i))) = false
      rw [decide_eq_false_iff_not]
      omega
    obtain ⟨k, blog, hbeq, bk1, bk2, bkl, bkr⟩ :=
      gallopBin_spec cmp key (fun m => getI a ((base : Int) + m))
        (fun c => decide (0 ≤ c)) (len : Int) mono (len + 2)
        ((hint : Int) - O1 + 1) ((hint : Int) - l) (by omega) (by omega) (by omega)
        (by omega) hgr hgrR
    simp only [hbeq]
    refine ⟨k, _, rfl, by omega, by omega, ?_, ?_⟩
    · intro i hi0 hik
      have := bkl i hi0 hik
      simpa using this
    · intro hk
      have := bkr k le_rfl hk
      rw [decide_eq_false_iff_not] at this
      omega
  · rw [if_neg hb]
    push_neg at hb
    have hmax1 : (1 : Int) ≤ (len : Int) - (hint : Int) := by omega
    have ht0 : (fun c => decide (0 ≤ c))
        (cmp key ((fun o => getI a ((base : Int) + (hint : Int) + o)) 0)) = true := by
      simp only [add_zero, decide_eq_true_eq]
      exact hb
    obtain ⟨l, o, log1, hpeq, pl0, plo, plmax, pofs, ptl, pto⟩ :=
      gallopProbe_spec cmp key (fun o => getI a ((base : Int) + (hint : Int) + o))
        (fun c => decide (0 ≤ c)) ((len : Int) - (hint : Int)) (len + 2) 0 1
        le_rfl (by omega) (by omega) (Or.inl (by omega)) (by omega) ht0
    simp only [hpeq]
    set O1 : Int := if (len : Int) - (hint : Int) < o then (len : Int) - (hint : Int) else o
      with hO1def
    have hO1a : l < O1 := by
      rw [hO1def]
      split <;> omega
    have hO1b : O1 ≤ (len : Int) - (hint : Int) := by
      rw [hO1def]
      split <;> omega
    have hgr : ∀ i : Int, 0 ≤ i → i < l + (hint : Int) + 1 →
        (fun c => decide (0 ≤ c))
          (cmp key ((fun m => getI a ((base : Int) + m)) i)) = true := by
      intro i hi0 hilt
      apply mono i ((hint : Int) + l) hi0 (by omega) (by omega)
      simp only [decide_eq_true_eq]
      have he : (base : Int) + ((hint : Int) + l) = (base : Int) + (hint : Int) + l := by
        ring
      rw [he]
      simpa using ptl
    have hgrR : ∀ i : Int, O1 + (hint : Int) ≤ i → i < (len : Int) →
        (fun c => decide (0 ≤ c))
          (cmp key ((fun m => getI a ((base : Int) + m)) i)) = false := by
      intro i hi1 hi2
      by_cases hcase : o < (len : Int) - (hint : Int)
      · have hO1o : O1 = o := by
          rw [hO1def, if_neg (by omega)]
        have hfalse := pto hcase
        rw [decide_eq_false_iff_not] at hfalse
        have he : (base : Int) + ((hint : Int) + o) = (base : Int) + (hint : Int) + o := by
          ring
        have h2 := Hs ((hint : Int) + o) i (by omega) (by omega) hi2
        rw [he] at h2
        have h3 := hc.lt_le_trans (by omega : cmp key (getI a ((base : Int) + (hint : Int) + o)) < 0) h2
        show decide (0 ≤ cmp key (getI a ((base : Int) + i))) = false
        rw [decide_eq_false_iff_not]
        omega
      · have : O1 = (len : Int) - (hint : Int) := by
          rw [hO1def, if_pos (by omega)]
        omega
    obtain ⟨k, blog, hbeq, bk1, bk2, bkl, bkr⟩ :=
      gallopBin_spec cmp key (fun m => getI a ((base : Int) + m))
        (fun c => decide (0 ≤ c)) (len : Int) mono (len + 2)
        (l + (hint : Int) + 1) (O1 + (hint : Int)) (by omega) (by omega) (by omega)
        (by omega) hgr hgrR
    simp only [hbeq]
    refine ⟨k, _, rfl, by omega, by omega, ?_, ?_⟩
    · intro i hi0 hik
      have := bkl i hi0 hik
      simpa using this
    · intro hk
      have := bkr k le_rfl hk
      rw [decide_eq_false_iff_not] at this
      omega

theorem totalCmp_intCmp : TotalCmp intCmp := by
  constructor
  · intro x y
    simp only [intCmp]
    omega
  · intro x y z
    simp only [intCmp]
    omega

/-- C7: for every array sorted non-decreasing on `[base, base+len)` under the
comparator, with `len > 0` and `0 ≤ hint < len`, `gallopLeft` returns the
smallest `k ∈ [0, len]` with `key ≤ a[base+k]` (leftmost insertion point:
all indices below `k` hold elements `< key`, and the element at `k`, if
any, is `≥ key`), and `gallopRight` returns the smallest `k ∈ [0, len]`
with `key < a[base+k]` (rightmost insertion point: all indices below `k`
hold elements `≤ key`, and the element at `k`, if any, is `> key`). -/
theorem C7_gallop_insertion_points (cmp : Cmp T) (hc : TotalCmp cmp) (key : T)
    (a : List T) (base len hint : Nat) (hlen : 0 < len) (hhint : hint < len)
    (hsorted : ∀ j, j < len → ∀ i, i ≤ j →
      cmp (getE a (base + i)) (getE a (base + j)) ≤ 0) :
    (∃ k log, gallopLeft cmp key a base len hint = some (k, log) ∧
      0 ≤ k ∧ k ≤ (len : Int) ∧
      (∀ i : Int, 0 ≤ i → i < k → 0 < cmp key (getI a ((base : Int) + i))) ∧
      (k < (len : Int) → cmp key (getI a ((base : Int) + k)) ≤ 0)) ∧
    (∃ k log, gallopRight cmp key a base len hint = some (k, log) ∧
      0 ≤ k ∧ k ≤ (len : Int) ∧
      (∀ i : Int, 0 ≤ i → i < k → 0 ≤ cmp key (getI a ((base : Int) + i))) ∧
      (k < (len : Int) → cmp key (getI a ((base : Int) + k)) < 0)) := by
  have hgetI : ∀ i : Int, 0 ≤ i → getI a ((base : Int) + i) = getE a (base + i.toNat) := by
    intro i hi
    rw [getI, if_pos (by omega : (0 : Int) ≤ (base : Int) + i)]
    congr 1
    omega
  have Hs : ∀ i j : Int, 0 ≤ i → i ≤ j → j < (len : Int) →
      cmp (getI a ((base : Int) + i)) (getI a ((base : Int) + j)) ≤ 0 := by
    intro i j h0 hij hj
    rw [hgetI i h0, hgetI j (by omega)]
    exact hsorted j.toNat (by omega) i.toNat (by omega)
  exact ⟨gallopLeft_spec cmp hc key a base len hint hlen hhint Hs,
    gallopRight_spec cmp hc key a base len hint hlen hhint Hs⟩

/-- Witness for C7 at the sorted array `[10, 20, 20, 30]`, key `20`,
`base = 0`, `len = 4`, `hint = 1`. -/
theorem C7_gallop_insertion_points_witness :
    (∃ k log, gallopLeft intCmp 20 [10, 20, 20, 30] 0 4 1 = some (k, log) ∧
      0 ≤ k ∧ k ≤ (4 : Int) ∧
      (∀ i : Int, 0 ≤ i → i < k → 0 < intCmp 20 (getI [10, 20, 20, 30] ((0 : Int) + i))) ∧
      (k < (4 : Int) → intCmp 20 (getI [10, 20, 20, 30] ((0 : Int) + k)) ≤ 0)) ∧
    (∃ k log, gallopRight intCmp 20 [10, 20, 20, 30] 0 4 1 = some (k, log) ∧
      0 ≤ k ∧ k ≤ (4 : Int) ∧
      (∀ i : Int, 0 ≤ i → i < k → 0 ≤ intCmp 20 (getI [10, 20, 20, 30] ((0 : Int) + i))) ∧
      (k < (4 : Int) → intCmp 20 (getI [10, 20, 20, 30] ((0 : Int) + k)) < 0)) :=
  C7_gallop_insertion_points intCmp totalCmp_intCmp 20 [10, 20, 20, 30] 0 4 1
    (by decide) (by decide) (by decide)

/-- C1: for every finite input array and every comparator that is a
consistent total order, `timsort` terminates (returns `some`, see also C4)
and leaves the array non-decreasing under the comparator
(`Pairwise (cmp · · ≤ 0)`) and a permutation of the input, over the full
range `[0, length)`. -/
theorem C1_sorted_permutation (cmp : Cmp T) (a : List T) (hc : TotalCmp cmp) :
    ∃ st : SortResult T, timsort cmp a = some st ∧ st.arr.Perm a ∧
      List.Pairwise (fun x y => cmp x y ≤ 0) st.arr := by
  rcases Nat.lt_or_ge a.length 2 with h2 | h2
  · exact ⟨_, timsort_tiny cmp a h2, List.Perm.refl a,
      pairwise_of_short _ a (by omega)⟩
  obtain ⟨hcr1, hcr2, hcrlen, hcrp, hcrperm, hcrfil⟩ := countRun_spec cmp hc a h2
  have hbs := binarySort_spec cmp hc (countRunAndMakeAscending cmp a 0 a.length).arr
    (countRunAndMakeAscending cmp a 0 a.length).len hcrp
  rw [hcrlen] at hbs
  rcases Nat.lt_or_ge a.length 32 with h32 | h32
  · exact ⟨_, timsort_small cmp a h2 h32, hbs.2.2.1.trans hcrperm, hbs.2.1⟩
  · exact ⟨_, timsort_large cmp a h32, hbs.2.2.1.trans hcrperm, hbs.2.1⟩

/-- Witness for C1 at the concrete input `[3,1,2]`. -/
theorem C1_sorted_permutation_witness :
    ∃ st : SortResult Int, timsort intCmp [3, 1, 2] = some st ∧
      st.arr.Perm [3, 1, 2] ∧
      List.Pairwise (fun x y => intCmp x y ≤ 0) st.arr :=
  C1_sorted_permutation intCmp [3, 1, 2] totalCmp_intCmp

/-- C2: stability.  For every input and consistent total-order comparator,
elements that compare equal keep their relative input order on every path:
for each value `v`, the sublist of elements equivalent to `v` is unchanged
by the sort.  (The binary-insertion placement is after all equal elements of
the sorted prefix, and only strictly descending runs — which contain no two
equivalent elements — are reversed.) -/
theorem C2_stability (cmp : Cmp T) (a : List T) (hc : TotalCmp cmp) :
    ∃ st : SortResult T, timsort cmp a = some st ∧
      ∀ v : T, st.arr.filter (fun x => decide (cmp v x = 0)) =
        a.filter (fun x => decide (cmp v x = 0)) := by
  rcases Nat.lt_or_ge a.length 2 with h2 | h2
  · exact ⟨_, timsort_tiny cmp a h2, fun v => rfl⟩
  obtain ⟨hcr1, hcr2, hcrlen, hcrp, hcrperm, hcrfil⟩ := countRun_spec cmp hc a h2
  have hbs := binarySort_spec cmp hc (countRunAndMakeAscending cmp a 0 a.length).arr
    (countRunAndMakeAscending cmp a 0 a.length).len hcrp
  rw [hcrlen] at hbs
  rcases Nat.lt_or_ge a.length 32 with h32 | h32
  · exact ⟨_, timsort_small cmp a h2 h32,
      fun v => (hbs.2.2.2 v).trans (hcrfil v)⟩
  · exact ⟨_, timsort_large cmp a h32,
      fun v => (hbs.2.2.2 v).trans (hcrfil v)⟩

/-- Witness for C2 at the concrete input `[2,1,2,1]`. -/
theorem C2_stability_witness :
    ∃ st : SortResult Int, timsort intCmp [2, 1, 2, 1] = some st ∧
      ∀ v : Int, st.arr.filter (fun x => decide (intCmp v x = 0)) =
        [(2 : Int), 1, 2, 1].filter (fun x => decide (intCmp v x = 0)) :=
  C2_stability intCmp [2, 1, 2, 1] totalCmp_intCmp

/-- Witness for C5 at the concrete sorted input `[1,2,3]`. -/
theorem C5_sorted_one_pass_witness :
    ∃ st : SortResult Int, timsort intCmp [1, 2, 3] = some st ∧ st.arr = [1, 2, 3] ∧
      st.log = (countRunAndMakeAscending intCmp [1, 2, 3] 0 [(1 : Int), 2, 3].length).log ∧
      st.log.length = [(1 : Int), 2, 3].length - 1 ∧ st.revs = 0 ∧
      (binarySort intCmp [1, 2, 3] 0 [(1 : Int), 2, 3].length [(1 : Int), 2, 3].length).2 = [] ∧
      timsort intCmp st.arr = timsort intCmp [1, 2, 3] :=
  C5_sorted_one_pass intCmp [1, 2, 3] totalCmp_intCmp (by decide)
    (by simp [intCmp])


theorem mgOk_append (step : Int → MGEvent → Int) (l1 l2 : List (MGEvent × Int)) :
    ∀ mg, mgOk step mg (l1 ++ l2) = (mgOk step mg l1 && mgOk step (mgEnd mg l1) l2) := by
  induction l1 with
  | nil => intro mg; simp [mgOk, mgEnd]
  | cons p rest ih =>
    intro mg
    obtain ⟨e, v⟩ := p
    simp [mgOk, mgEnd, ih v, Bool.and_assoc]

theorem mergeLoStraight_mg (cmp : Cmp T) (tmp : List T) :
    ∀ fuel (st st' : LoSt T) (c1 c2 : Nat) (b : Bool),
    mergeLoStraight cmp tmp fuel st c1 c2 = some (st', b) →
    st'.events = st.events ∧ st'.mg = st.mg := by
  intro fuel
  induction fuel with
  | zero => intro st st' c1 c2 b h; simp [mergeLoStraight] at h
  | succ n ih =>
    intro st st' c1 c2 b h
    simp only [mergeLoStraight] at h
    split at h <;> split at h <;> try split at h
    all_goals
      first
        | (injection h with h1
           injection h1 with ha hb
           subst ha
           exact ⟨rfl, rfl⟩)
        | (obtain ⟨e1, e2⟩ := ih _ _ _ _ _ h
           exact ⟨e1, e2⟩)

theorem mgEnd_append (l1 l2 : List (MGEvent × Int)) :
    ∀ mg, mgEnd mg (l1 ++ l2) = mgEnd (mgEnd mg l1) l2 := by
  induction l1 with
  | nil => intro mg; simp [mgEnd]
  | cons p rest ih =>
    intro mg
    obtain ⟨e, v⟩ := p
    simp [mgEnd, ih v]

theorem mergeLoGallop_mg (cmp : Cmp T) (tmp : List T) :
    ∀ fuel (st st' : LoSt T) (b : Bool) (mg0 : Int),
    mergeLoGallop cmp tmp fuel st = some (st', b) →
    mgOk mgStep mg0 st.events = true → mgEnd mg0 st.events = st.mg →
    mgOk mgStep mg0 st'.events = true ∧ mgEnd mg0 st'.events = st'.mg := by
  intro fuel
  induction fuel with
  | zero => intro st st' b mg0 h; simp [mergeLoGallop] at h
  | succ n ih =>
    intro st st' b mg0 h hok hend
    simp only [mergeLoGallop] at h
    cases hg1 : gallopRight cmp (getE st.arr st.c2) tmp st.c1 st.len1 0 with
    | none => rw [hg1] at h; simp at h
    | some p1 =>
      obtain ⟨k1, glog1⟩ := p1
      simp only [hg1] at h
      all_goals try split at h
      all_goals try split at h
      all_goals try split at h
      all_goals try split at h
      all_goals try split at h
      all_goals try split at h
      all_goals try split at h
      all_goals try split at h
      all_goals try split at h
      all_goals try split at h
      all_goals
        first
          | exact Option.noConfusion h
          | (obtain ⟨ha, hb⟩ := h
             subst ha
             first
               | exact ⟨hok, hend⟩
               | (constructor <;>
                   simp [mgOk_append, mgEnd_append, mgOk, mgEnd, mgStep, hok, hend]))
          | (injection h with h1
             injection h1 with ha hb
             subst ha
             first
               | exact ⟨hok, hend⟩
               | (constructor <;>
                   simp [mgOk_append, mgEnd_append, mgOk, mgEnd, mgStep, hok, hend]))
          | (refine ih _ _ _ mg0 h ?_ ?_ <;>
              simp [mgOk_append, mgEnd_append, mgOk, mgEnd, mgStep, hok, hend])

theorem mergeLoFinish_mg (tmp : List T) (st : LoSt T) (mg0 : Int)
    (hok : mgOk mgStep mg0 st.events = true) (hend : mgEnd mg0 st.events = st.mg) :
    mgOk mgStep mg0 (mergeLoFinish tmp st).events = true := by
  simp only [mergeLoFinish]
  split_ifs <;>
    simp [mgOk_append, mgOk, mgEnd, mgStep, hok, hend, *]

theorem mergeLoOuter_mg (cmp : Cmp T) (tmp : List T) :
    ∀ fuel (st : LoSt T) (r : MergeRes T) (mg0 : Int),
    mergeLoOuter cmp tmp fuel st = some r →
    mgOk mgStep mg0 st.events = true → mgEnd mg0 st.events = st.mg →
    mgOk mgStep mg0 r.events = true := by
  intro fuel
  induction fuel with
  | zero => intro st r mg0 h; simp [mergeLoOuter] at h
  | succ n ih =>
    intro st r mg0 h hok hend
    simp only [mergeLoOuter] at h
    split at h
    · exact Option.noConfusion h
    · rename_i st1 heq1
      injection h with h1
      subst h1
      obtain ⟨e1, e2⟩ := mergeLoStraight_mg cmp tmp _ _ _ _ _ _ heq1
      exact mergeLoFinish_mg tmp st1 mg0 (by rw [e1]; exact hok) (by rw [e1, e2]; exact hend)
    · rename_i st1 heq1
      obtain ⟨e1, e2⟩ := mergeLoStraight_mg cmp tmp _ _ _ _ _ _ heq1
      have hok1 : mgOk mgStep mg0 st1.events = true := by rw [e1]; exact hok
      have hend1 : mgEnd mg0 st1.events = st1.mg := by rw [e1, e2]; exact hend
      split at h
      · exact Option.noConfusion h
      · rename_i st2 heq2
        injection h with h1
        subst h1
        obtain ⟨hok2, hend2⟩ := mergeLoGallop_mg cmp tmp _ _ _ _ mg0 heq2 hok1 hend1
        exact mergeLoFinish_mg tmp st2 mg0 hok2 hend2
      · rename_i st2 heq2
        obtain ⟨hok2, hend2⟩ := mergeLoGallop_mg cmp tmp _ _ _ _ mg0 heq2 hok1 hend1
        refine ih _ r mg0 h ?_ ?_
        · simp [mgOk_append, mgOk, mgStep, mgEnd, hok2, hend2]
        · simp [mgEnd_append, mgEnd, hend2]

theorem mergeLo_mg (cmp : Cmp T) (a : List T) (base1 len1 base2 len2 : Nat)
    (r : MergeRes T) (h : mergeLo cmp a base1 len1 base2 len2 = some r) :
    mgOk mgStep MIN_GALLOP r.events = true := by
  simp only [mergeLo] at h
  split at h
  · injection h with h1
    subst h1
    rfl
  · split at h
    · injection h with h1
      subst h1
      rfl
    · exact mergeLoOuter_mg cmp _ _ _ r MIN_GALLOP h rfl rfl

theorem mergeHiStraight_mg (cmp : Cmp T) (tmp : List T) :
    ∀ fuel (st st' : HiSt T) (c1 c2 : Nat) (b : Bool),
    mergeHiStraight cmp tmp fuel st c1 c2 = some (st', b) →
    st'.events = st.events ∧ st'.mg = st.mg := by
  intro fuel
  induction fuel with
  | zero => intro st st' c1 c2 b h; simp [mergeHiStraight] at h
  | succ n ih =>
    intro st st' c1 c2 b h
    simp only [mergeHiStraight] at h
    split at h <;> split at h <;> try split at h
    all_goals
      first
        | (injection h with h1
           injection h1 with ha hb
           subst ha
           exact ⟨rfl, rfl⟩)
        | (obtain ⟨e1, e2⟩ := ih _ _ _ _ _ h
           exact ⟨e1, e2⟩)

theorem mergeHiGallop_mg (cmp : Cmp T) (tmp : List T) (base1 : Nat) :
    ∀ fuel (st st' : HiSt T) (b : Bool) (mg0 : Int),
    mergeHiGallop cmp tmp base1 fuel st = some (st', b) →
    mgOk mgStep mg0 st.events = true → mgEnd mg0 st.events = st.mg →
    mgOk mgStep mg0 st'.events = true ∧ mgEnd mg0 st'.events = st'.mg := by
  intro fuel
  induction fuel with
  | zero => intro st st' b mg0 h; simp [mergeHiGallop] at h
  | succ n ih =>
    intro st st' b mg0 h hok hend
    simp only [mergeHiGallop] at h
    cases hg1 : gallopRight cmp (getI tmp st.c2) st.arr base1 st.len1 (st.len1 - 1) with
    | none => rw [hg1] at h; exact Option.noConfusion h
    | some p1 =>
      obtain ⟨k1, glog1⟩ := p1
      simp only [hg1] at h
      all_goals try split at h
      all_goals try split at h
      all_goals try split at h
      all_goals try split at h
      all_goals try split at h
      all_goals try split at h
      all_goals try split at h
      all_goals try split at h
      all_goals try split at h
      all_goals try split at h
      all_goals
        first
          | exact Option.noConfusion h
          | (obtain ⟨ha, hb⟩ := h
             subst ha
             first
               | exact ⟨hok, hend⟩
               | (constructor <;>
                   simp [mgOk_append, mgEnd_append, mgOk, mgEnd, mgStep, hok, hend]))
          | (injection h with h1
             injection h1 with ha hb
             subst ha
             first
               | exact ⟨hok, hend⟩
               | (constructor <;>
                   simp [mgOk_append, mgEnd_append, mgOk, mgEnd, mgStep, hok, hend]))
          | (refine ih _ _ _ mg0 h ?_ ?_ <;>
              simp [mgOk_append, mgEnd_append, mgOk, mgEnd, mgStep, hok, hend])

theorem mergeHiFinish_mg (tmp : List T) (st : HiSt T) (mg0 : Int)
    (hok : mgOk mgStep mg0 st.events = true) (hend : mgEnd mg0 st.events = st.mg) :
    mgOk mgStep mg0 (mergeHiFinish tmp st).events = true := by
  simp only [mergeHiFinish]
  split_ifs <;>
    simp [mgOk_append, mgOk, mgEnd, mgStep, hok, hend, *]

theorem mergeHiOuter_mg (cmp : Cmp T) (tmp : List T) (base1 : Nat) :
    ∀ fuel (st : HiSt T) (r : MergeRes T) (mg0 : Int),
    mergeHiOuter cmp tmp base1 fuel st = some r →
    mgOk mgStep mg0 st.events = true → mgEnd mg0 st.events = st.mg →
    mgOk mgStep mg0 r.events = true := by
  intro fuel
  induction fuel with
  | zero => intro st r mg0 h; simp [mergeHiOuter] at h
  | succ n ih =>
    intro st r mg0 h hok hend
    simp only [mergeHiOuter] at h
    split at h
    · exact Option.noConfusion h
    · rename_i st1 heq1
      injection h with h1
      subst h1
      obtain ⟨e1, e2⟩ := mergeHiStraight_mg cmp tmp _ _ _ _ _ _ heq1
      exact mergeHiFinish_mg tmp st1 mg0 (by rw [e1]; exact hok) (by rw [e1, e2]; exact hend)
    · rename_i st1 heq1
      obtain ⟨e1, e2⟩ := mergeHiStraight_mg cmp tmp _ _ _ _ _ _ heq1
      have hok1 : mgOk mgStep mg0 st1.events = true := by rw [e1]; exact hok
      have hend1 : mgEnd mg0 st1.events = st1.mg := by rw [e1, e2]; exact hend
      split at h
      · exact Option.noConfusion h
      · rename_i st2 heq2
        injection h with h1
        subst h1
        obtain ⟨hok2, hend2⟩ := mergeHiGallop_mg cmp tmp base1 _ _ _ _ mg0 heq2 hok1 hend1
        exact mergeHiFinish_mg tmp st2 mg0 hok2 hend2
      · rename_i st2 heq2
        obtain ⟨hok2, hend2⟩ := mergeHiGallop_mg cmp tmp base1 _ _ _ _ mg0 heq2 hok1 hend1
        refine ih _ r mg0 h ?_ ?_
        · simp [mgOk_append, mgOk, mgStep, mgEnd, hok2, hend2]
        · simp [mgEnd_append, mgEnd, hend2]

theorem mergeHi_mg (cmp : Cmp T) (a : List T) (base1 len1 base2 len2 : Nat)
    (r : MergeRes T) (h : mergeHi cmp a base1 len1 base2 len2 = some r) :
    mgOk mgStep MIN_GALLOP r.events = true := by
  simp only [mergeHi] at h
  split at h
  · injection h with h1
    subst h1
    rfl
  · split at h
    · injection h with h1
      subst h1
      rfl
    · exact mergeHiOuter_mg cmp _ base1 _ _ r MIN_GALLOP h rfl rfl

/-- C10 (amended): within a single `mergeLo` (or `mergeHi`) call, the
`minGallop` event trace conforms to the source's protocol `mgStep` starting
from `MIN_GALLOP = 7`: decremented by 1 on each completed gallop-mode
iteration, on each normal exit from galloping mode clamped below at 0 and
then increased by 2 (so the post-exit value is at least 2), and clamped up
to at least 1 once after the merge loop ends; the value persists across
straight/gallop transitions within the call, and every call starts afresh
at 7.  The spec's per-exit "+2 with a floor of 1" rule (`mgStepClaim`)
is refuted by the counterexample. -/
theorem C10_minGallop_protocol (cmp : Cmp T) (a : List T)
    (base1 len1 base2 len2 : Nat) :
    (∀ r, mergeLo cmp a base1 len1 base2 len2 = some r →
      mgOk mgStep MIN_GALLOP r.events = true) ∧
    (∀ r, mergeHi cmp a base1 len1 base2 len2 = some r →
      mgOk mgStep MIN_GALLOP r.events = true) :=
  ⟨fun r h => mergeLo_mg cmp a base1 len1 base2 len2 r h,
   fun r h => mergeHi_mg cmp a base1 len1 base2 len2 r h⟩

/-- Witness for C10 on the concrete merge of `[1, 3]` and `[2, 4]`. -/
theorem C10_minGallop_protocol_witness :
    mergeLo intCmp [1, 3, 2, 4] 0 2 2 2 =
      some ⟨[2, 1, 4, 3], false, 1, 1, [(4, 1)], [(MGEvent.finalClamp, 7)]⟩ ∧
    mgOk mgStep MIN_GALLOP
      (MergeRes.events ⟨[2, 1, 4, 3], false, 1, 1, [(4, 1)],
        [(MGEvent.finalClamp, 7)]⟩) = true :=
  ⟨by decide, (C10_minGallop_protocol intCmp [1, 3, 2, 4] 0 2 2 2).1
    ⟨[2, 1, 4, 3], false, 1, 1, [(4, 1)], [(MGEvent.finalClamp, 7)]⟩ (by decide)⟩

set_option maxRecDepth 100000 in
/-- Counterexample to the claimed "+2 with a floor of 1" exit penalty: a
successful 99-and-99-element `mergeLo` whose trace reaches `minGallop = -3`
inside galloping mode and then exits it normally; the code's update
(clamp at 0, then +2) yields 2 and the whole trace conforms to `mgStep`,
while the claimed update `max (mg + 2) 1` yields 1 there, so the trace
violates `mgStepClaim`. -/
theorem C10_minGallop_protocol_counterexample :
    (mergeLo intCmp arrLo 0 99 99 99).map
      (fun r => (r.err, mgOk mgStep MIN_GALLOP r.events,
        mgOk mgStepClaim MIN_GALLOP r.events)) = some (false, true, false) := by
  decide

theorem getE_set_self (a : List T) (i : Nat) (v : T) (h : i < a.length) :
    getE (a.set i v) i = v := by
  simp [getE, List.getElem?_set, h]

theorem getE_set_ne (a : List T) (i j : Nat) (v : T) (h : i ≠ j) :
    getE (a.set i v) j = getE a j := by
  simp [getE, List.getElem?_set, h]

theorem acLoop_length (seg : List T) :
    ∀ n (d : List T) (dpos : Nat), (acLoop seg d dpos n).length = d.length := by
  intro n
  induction n with
  | zero => intro d dpos; simp [acLoop]
  | succ m ih => intro d dpos; simp [acLoop, ih]

theorem arraycopy_length (s : List T) (sp : Nat) (d : List T) (dp n : Nat) :
    (arraycopy s sp d dp n).length = d.length := by
  simp [arraycopy, acLoop_length]

theorem getE_acLoop_outside (seg : List T) :
    ∀ n (d : List T) (dpos i : Nat), i < dpos ∨ dpos + n ≤ i →
      getE (acLoop seg d dpos n) i = getE d i := by
  intro n
  induction n with
  | zero => intro d dpos i h; simp [acLoop]
  | succ m ih =>
    intro d dpos i h
    rw [acLoop, ih _ _ _ (by omega), getE_set_ne _ _ _ _ (by omega)]

theorem getE_arraycopy_outside (s : List T) (sp : Nat) (d : List T) (dp n i : Nat)
    (h : i < dp ∨ dp + n ≤ i) :
    getE (arraycopy s sp d dp n) i = getE d i := by
  rw [arraycopy, getE_acLoop_outside _ _ _ _ _ h]

theorem regionOf_drop_take (l : List T) (lo hi : Nat) :
    regionOf l lo hi = (l.drop lo).take (hi - lo) := by
  rw [regionOf, List.drop_take]

theorem regionOf_length (l : List T) (lo hi : Nat) (h : hi ≤ l.length) :
    (regionOf l lo hi).length = hi - lo := by
  simp [regionOf]
  omega

theorem regionOf_ext (x y : List T) (lo hi : Nat) (hxy : x.length = y.length)
    (hhi : hi ≤ x.length) (hpt : ∀ i, lo ≤ i → i < hi → getE x i = getE y i) :
    regionOf x lo hi = regionOf y lo hi := by
  apply List.ext_getElem
  · rw [regionOf_length _ _ _ hhi, regionOf_length _ _ _ (by omega)]
  · intro k hk1 hk2
    rw [regionOf_length _ _ _ hhi] at hk1
    simp only [regionOf, List.getElem_drop, List.getElem_take]
    have hx : lo + k < x.length := by omega
    have hy : lo + k < y.length := by omega
    have := hpt (lo + k) (by omega) (by omega)
    rw [getE_pos _ _ hx, getE_pos _ _ hy] at this
    exact this

theorem regionOf_succ (l : List T) (lo hi : Nat) (h1 : lo ≤ hi) (h2 : hi < l.length) :
    regionOf l lo (hi + 1) = regionOf l lo hi ++ [getE l hi] := by
  rw [regionOf, take_succ_getE l hi h2,
    List.drop_append_of_le_length (by simp; omega)]
  rfl

theorem regionOf_split (l : List T) (lo mid hi : Nat) (h1 : lo ≤ mid) (h2 : mid ≤ hi)
    (h3 : hi ≤ l.length) :
    regionOf l lo hi = regionOf l lo mid ++ regionOf l mid hi := by
  rw [regionOf_drop_take, regionOf_drop_take, regionOf_drop_take]
  have hsum : hi - lo = (mid - lo) + (hi - mid) := by omega
  rw [hsum, List.take_add, List.drop_drop]
  have hml : lo + (mid - lo) = mid := by omega
  rw [hml]

theorem regionOf_set_extend (l : List T) (lo d : Nat) (v : T) (h1 : lo ≤ d)
    (h2 : d < l.length) :
    regionOf (l.set d v) lo (d + 1) = regionOf l lo d ++ [v] := by
  rw [regionOf_succ _ _ _ h1 (by simp; omega), getE_set_self _ _ _ h2]
  congr 1
  exact regionOf_ext _ _ _ _ (by simp) (by simp; omega)
    (fun i hi1 hi2 => getE_set_ne _ _ _ _ (by omega))

theorem regionOf_arraycopy_extend (s : List T) (sp : Nat) (d : List T) (lo dp n : Nat)
    (h1 : lo ≤ dp) (h2 : dp + n ≤ d.length) (h3 : sp + n ≤ s.length) :
    regionOf (arraycopy s sp d dp n) lo (dp + n) =
      regionOf d lo dp ++ (s.drop sp).take n := by
  have hseg : ((s.drop sp).take n).length = n := by simp; omega
  rw [arraycopy, acLoop_eq _ _ _ _ (by simp; omega) h2, regionOf]
  rw [List.take_left' (by simp; omega)]
  rw [List.drop_append_of_le_length (by simp; omega)]
  simp [List.take_take, regionOf]

theorem drop_take_ext (x y : List T) (lo n : Nat) (hxy : x.length = y.length)
    (h2 : lo + n ≤ x.length) (hpt : ∀ i, lo ≤ i → i < lo + n → getE x i = getE y i) :
    (x.drop lo).take n = (y.drop lo).take n := by
  have hx := regionOf_drop_take x lo (lo + n)
  have hy := regionOf_drop_take y lo (lo + n)
  simp only [Nat.add_sub_cancel_left] at hx hy
  rw [← hx, ← hy]
  exact regionOf_ext _ _ _ _ hxy h2 hpt

theorem loStep_run2 (a tmp : List T) (base1 base2 end2 : Nat) (st : LoSt T)
    (hInv : LoInv a tmp base1 base2 end2 st) (h1 : 1 ≤ st.len1) (h2 : 1 ≤ st.len2)
    (hend2 : end2 ≤ a.length) (lg : Log T) (ev : List (MGEvent × Int)) (mg : Int) :
    LoInv a tmp base1 base2 end2
      ⟨st.arr.set st.dest (getE st.arr st.c2), st.c1, st.c2 + 1, st.dest + 1,
        st.len1, st.len2 - 1, mg, lg, ev⟩ := by
  obtain ⟨hL, hA, hB, hC, hD, hE, hF, hG, hP⟩ := hInv
  have hdc : st.dest < st.c2 := by omega
  have hc2a : st.c2 < a.length := by omega
  have hda : st.dest < st.arr.length := by omega
  refine ⟨by simp [hL], by simpa using hA, by simp; omega, by simp; omega,
    by simp; omega, by simp; omega, ?_, ?_, ?_⟩
  · intro i hi
    simp only at hi ⊢
    rw [getE_set_ne _ _ _ _ (by omega)]
    exact hF i (by omega)
  · intro i hi
    simp only at hi ⊢
    rw [getE_set_ne _ _ _ _ (by omega)]
    exact hG i hi
  · simp only
    rw [regionOf_set_extend _ _ _ _ hD hda]
    rw [regionOf_succ _ _ _ hE hc2a, hF st.c2 le_rfl]
    refine (hP.append (List.Perm.refl [getE a st.c2])).trans ?_
    rw [List.append_assoc]

theorem loStep_run1 (a tmp : List T) (base1 base2 end2 : Nat) (st : LoSt T)
    (hInv : LoInv a tmp base1 base2 end2 st) (h1 : 1 ≤ st.len1)
    (hend2 : end2 ≤ a.length) (lg : Log T) (ev : List (MGEvent × Int)) (mg : Int) :
    LoInv a tmp base1 base2 end2
      ⟨st.arr.set st.dest (getE tmp st.c1), st.c1 + 1, st.c2, st.dest + 1,
        st.len1 - 1, st.len2, mg, lg, ev⟩ := by
  obtain ⟨hL, hA, hB, hC, hD, hE, hF, hG, hP⟩ := hInv
  have hdc : st.dest < st.c2 := by omega
  have hda : st.dest < st.arr.length := by omega
  have hc1t : st.c1 < tmp.length := by omega
  refine ⟨by simp [hL], by simp; omega, by simpa using hB, by simp; omega,
    by simp; omega, by simpa using hE, ?_, ?_, ?_⟩
  · intro i hi
    simp only at hi ⊢
    rw [getE_set_ne _ _ _ _ (by omega)]
    exact hF i hi
  · intro i hi
    simp only at hi ⊢
    rw [getE_set_ne _ _ _ _ (by omega)]
    exact hG i hi
  · simp only
    rw [regionOf_set_extend _ _ _ _ hD hda]
    rw [take_succ_getE tmp st.c1 hc1t]
    refine (hP.append (List.Perm.refl [getE tmp st.c1])).trans ?_
    rw [List.append_assoc, List.append_assoc]
    exact List.Perm.append_left _ List.perm_append_comm

theorem mergeLoStraight_spec (cmp : Cmp T) (a tmp : List T) (base1 base2 end2 : Nat)
    (hend2 : end2 ≤ a.length) :
    ∀ fuel (st : LoSt T) (c1 c2 : Nat) (res : Option (LoSt T × Bool)),
    mergeLoStraight cmp tmp fuel st c1 c2 = res →
    LoInv a tmp base1 base2 end2 st → 2 ≤ st.len1 → 1 ≤ st.len2 →
    st.len1 + st.len2 < fuel →
    ∃ st' brk, res = some (st', brk) ∧
      LoInv a tmp base1 base2 end2 st' ∧
      st'.len1 + st'.len2 < st.len1 + st.len2 ∧
      (brk = true → st'.len1 = 1 ∧ 1 ≤ st'.len2 ∨ st'.len2 = 0 ∧ 2 ≤ st'.len1) ∧
      (brk = false → 2 ≤ st'.len1 ∧ 1 ≤ st'.len2) := by
  intro fuel
  induction fuel with
  | zero => intro st c1 c2 res h hInv h1 h2 hfuel; omega
  | succ n ih =>
    intro st c1 c2 res h hInv h1 h2 hfuel
    simp only [mergeLoStraight] at h
    split at h
    · rename_i hcmp
      have inv1 := loStep_run2 a tmp base1 base2 end2 st hInv (by omega) h2 hend2
        (st.log ++ [(getE st.arr st.c2, getE tmp st.c1)]) st.events st.mg
      split at h
      · rename_i hz
        subst h
        exact ⟨_, _, rfl, inv1, by simp; omega,
          fun _ => Or.inr ⟨by simpa using hz, by simp; omega⟩, by simp⟩
      · rename_i hz
        split at h
        · obtain ⟨st', brk, hres, invr, hlt, hbt, hbf⟩ := ih _ _ _ _ h inv1
            (by simp; omega) (by simp; omega) (by simp; omega)
          exact ⟨st', brk, hres, invr, by simp at hlt; omega, hbt, hbf⟩
        · subst h
          exact ⟨_, _, rfl, inv1, by simp; omega, by simp,
            fun _ => ⟨by simp; omega, by simp; omega⟩⟩
    · rename_i hcmp
      have inv1 := loStep_run1 a tmp base1 base2 end2 st hInv (by omega) hend2
        (st.log ++ [(getE st.arr st.c2, getE tmp st.c1)]) st.events st.mg
      split at h
      · rename_i hz
        subst h
        exact ⟨_, _, rfl, inv1, by simp; omega,
          fun _ => Or.inl ⟨by simpa using hz, by simp; omega⟩, by simp⟩
      · rename_i hz
        split at h
        · obtain ⟨st', brk, hres, invr, hlt, hbt, hbf⟩ := ih _ _ _ _ h inv1
            (by simp at hz ⊢; omega) (by simp; omega) (by simp; omega)
          exact ⟨st', brk, hres, invr, by simp at hlt; omega, hbt, hbf⟩
        · subst h
          exact ⟨_, _, rfl, inv1, by simp; omega, by simp,
            fun _ => ⟨by simp at hz ⊢; omega, by simp; omega⟩⟩

theorem galA (cmp : Cmp T) (hc : TotalCmp cmp) (tmp : List T) (key : T) (c1 len1 : Nat)
    (h1 : 1 ≤ len1) (hlen : c1 + len1 = tmp.length)
    (htmp : ∀ i j, i ≤ j → j < tmp.length → cmp (getE tmp i) (getE tmp j) ≤ 0)
    (hkey : cmp key (getE tmp (tmp.length - 1)) < 0) :
    ∃ k glog, gallopRight cmp key tmp c1 len1 0 = some (k, glog) ∧
      0 ≤ k ∧ k ≤ (len1 : Int) ∧ k.toNat < len1 := by
  have hgetI : ∀ i : Int, 0 ≤ i → getI tmp ((c1 : Int) + i) = getE tmp (c1 + i.toNat) := by
    intro i hi
    rw [getI, if_pos (by omega : (0 : Int) ≤ (c1 : Int) + i)]
    congr 1
    omega
  obtain ⟨k, lg, heq, hk0, hklen, charL, charR⟩ :=
    gallopRight_spec cmp hc key tmp c1 len1 0 (by omega) (by omega)
      (fun i j hi hij hj => by
        rw [hgetI i hi, hgetI j (le_trans hi hij)]
        exact htmp (c1 + i.toNat) (c1 + j.toNat) (by omega) (by omega))
  refine ⟨k, lg, heq, hk0, hklen, ?_⟩
  by_contra hge
  push_neg at hge
  have := charL ((len1 : Int) - 1) (by omega) (by omega)
  rw [hgetI _ (by omega)] at this
  have hix : c1 + ((len1 : Int) - 1).toNat = tmp.length - 1 := by omega
  rw [hix] at this
  omega

theorem galB (cmp : Cmp T) (hc : TotalCmp cmp) (arr : List T) (key : T) (c2 len2 : Nat)
    (h2 : 1 ≤ len2)
    (hsorted : ∀ i j, c2 ≤ i → i ≤ j → j < c2 + len2 → cmp (getE arr i) (getE arr j) ≤ 0) :
    ∃ k glog, gallopLeft cmp key arr c2 len2 0 = some (k, glog) ∧
      0 ≤ k ∧ k ≤ (len2 : Int) ∧ k.toNat ≤ len2 := by
  have hgetI : ∀ i : Int, 0 ≤ i → getI arr ((c2 : Int) + i) = getE arr (c2 + i.toNat) := by
    intro i hi
    rw [getI, if_pos (by omega : (0 : Int) ≤ (c2 : Int) + i)]
    congr 1
    omega
  obtain ⟨k, lg, heq, hk0, hklen, charL, charR⟩ :=
    gallopLeft_spec cmp hc key arr c2 len2 0 (by omega) (by omega)
      (fun i j hi hij hj => by
        rw [hgetI i hi, hgetI j (le_trans hi hij)]
        exact hsorted (c2 + i.toNat) (c2 + j.toNat) (by omega) (by omega) (by omega))
  exact ⟨k, lg, heq, hk0, hklen, by omega⟩

theorem gStepA (a tmp : List T) (base1 base2 end2 : Nat) (st : LoSt T)
    (hInv : LoInv a tmp base1 base2 end2 st) (count1 : Nat)
    (hc1 : 1 ≤ count1) (hlt : count1 < st.len1) (hend2 : end2 ≤ a.length)
    (lg : Log T) (ev : List (MGEvent × Int)) (mg : Int) :
    LoInv a tmp base1 base2 end2
      ⟨arraycopy tmp st.c1 st.arr st.dest count1, st.c1 + count1, st.c2,
        st.dest + count1, st.len1 - count1, st.len2, mg, lg, ev⟩ := by
  obtain ⟨hL, hA, hB, hC, hD, hE, hF, hG, hP⟩ := hInv
  have hca : st.c2 ≤ a.length := by omega
  refine ⟨by simp [arraycopy_length, hL], by simp; omega, by simpa using hB,
    by simp; omega, by simp; omega, by simpa using hE, ?_, ?_, ?_⟩
  · intro i hi
    simp only at hi ⊢
    rw [getE_arraycopy_outside _ _ _ _ _ _ (Or.inr (by omega))]
    exact hF i hi
  · intro i hi
    simp only at hi ⊢
    rw [getE_arraycopy_outside _ _ _ _ _ _ (Or.inl (by omega))]
    exact hG i hi
  · simp only
    rw [regionOf_arraycopy_extend tmp st.c1 st.arr base1 st.dest count1 hD
      (by omega) (by omega)]
    rw [List.take_add]
    refine (hP.append (List.Perm.refl _)).trans ?_
    rw [List.append_assoc, List.append_assoc]
    exact List.Perm.append_left _ List.perm_append_comm

theorem gStepC (a tmp : List T) (base1 base2 end2 : Nat) (st : LoSt T)
    (hInv : LoInv a tmp base1 base2 end2 st) (count2 : Nat)
    (hcle : count2 ≤ st.len2) (h1 : 1 ≤ st.len1) (hend2 : end2 ≤ a.length)
    (lg : Log T) (ev : List (MGEvent × Int)) (mg : Int) :
    LoInv a tmp base1 base2 end2
      ⟨arraycopy st.arr st.c2 st.arr st.dest count2, st.c1, st.c2 + count2,
        st.dest + count2, st.len1, st.len2 - count2, mg, lg, ev⟩ := by
  obtain ⟨hL, hA, hB, hC, hD, hE, hF, hG, hP⟩ := hInv
  have hca : st.c2 + st.len2 ≤ a.length := by omega
  refine ⟨by simp [arraycopy_length, hL], by simpa using hA, by simp; omega,
    by simp; omega, by simp; omega, by simp; omega, ?_, ?_, ?_⟩
  · intro i hi
    simp only at hi ⊢
    rw [getE_arraycopy_outside _ _ _ _ _ _ (Or.inr (by omega))]
    exact hF i (by omega)
  · intro i hi
    simp only at hi ⊢
    rw [getE_arraycopy_outside _ _ _ _ _ _ (Or.inl (by omega))]
    exact hG i hi
  · simp only
    rw [regionOf_arraycopy_extend st.arr st.c2 st.arr base1 st.dest count2 hD
      (by omega) (by omega)]
    have hseg : (st.arr.drop st.c2).take count2 = (a.drop st.c2).take count2 :=
      drop_take_ext _ _ _ _ hL (by omega) (fun i hi1 hi2 => hF i hi1)
    have hreg := regionOf_drop_take a st.c2 (st.c2 + count2)
    simp only [Nat.add_sub_cancel_left] at hreg
    rw [hseg, ← hreg]
    rw [regionOf_split a base2 st.c2 (st.c2 + count2) hE (by omega) (by omega)]
    refine (hP.append (List.Perm.refl _)).trans ?_
    rw [List.append_assoc]

theorem loGallopTail2_spec (cmp : Cmp T) (a tmp : List T)
    (base1 base2 end2 : Nat) (hend2 : end2 ≤ a.length) (n : Nat) (k1 k2 : Int)
    (ih : ∀ (st : LoSt T) (res : Option (LoSt T × Bool)),
      mergeLoGallop cmp tmp n st = res →
      LoInv a tmp base1 base2 end2 st → 2 ≤ st.len1 → 1 ≤ st.len2 →
      st.len1 + st.len2 < n →
      ∃ st' brk, res = some (st', brk) ∧
        LoInv a tmp base1 base2 end2 st' ∧
        st'.len1 + st'.len2 < st.len1 + st.len2 ∧
        (brk = true → st'.len1 = 1 ∧ 1 ≤ st'.len2 ∨ st'.len2 = 0 ∧ 2 ≤ st'.len1) ∧
        (brk = false → 2 ≤ st'.len1 ∧ 1 ≤ st'.len2))
    (stC : LoSt T) (res : Option (LoSt T × Bool))
    (h : loGallopTail2 cmp tmp n k1 k2 stC = res)
    (invC : LoInv a tmp base1 base2 end2 stC)
    (h1C : 2 ≤ stC.len1) (h2C : 1 ≤ stC.len2) (hfuel : stC.len1 + stC.len2 ≤ n) :
    ∃ st' brk, res = some (st', brk) ∧
      LoInv a tmp base1 base2 end2 st' ∧
      st'.len1 + st'.len2 < stC.len1 + stC.len2 ∧
      (brk = true → st'.len1 = 1 ∧ 1 ≤ st'.len2 ∨ st'.len2 = 0 ∧ 2 ≤ st'.len1) ∧
      (brk = false → 2 ≤ st'.len1 ∧ 1 ≤ st'.len2) := by
  have invD := loStep_run1 a tmp base1 base2 end2 stC invC (by omega) hend2
    stC.log stC.events stC.mg
  simp only [loGallopTail2] at h
  split at h
  · rename_i hD1
    subst h
    exact ⟨_, _, rfl, invD, by simp; omega,
      fun _ => Or.inl ⟨by simpa using hD1, by simp; omega⟩, by simp⟩
  · rename_i hD1
    split at h
    · obtain ⟨st', brk, hres, inv', hlt, hbt, hbf⟩ := ih _ _ h invD
        (by simp at hD1 ⊢; omega) (by simp; omega) (by simp; omega)
      exact ⟨st', brk, hres, inv', by simp at hlt; omega, hbt, hbf⟩
    · subst h
      exact ⟨_, _, rfl, invD, by simp; omega, by simp,
        fun _ => ⟨by simp at hD1 ⊢; omega, by simp; omega⟩⟩

theorem loGallopTail_spec (cmp : Cmp T) (hc : TotalCmp cmp) (a tmp : List T)
    (base1 base2 end2 : Nat) (hend2 : end2 ≤ a.length)
    (ha2 : ∀ i j, base2 ≤ i → i ≤ j → j < end2 → cmp (getE a i) (getE a j) ≤ 0)
    (n : Nat) (k1 : Int)
    (ih : ∀ (st : LoSt T) (res : Option (LoSt T × Bool)),
      mergeLoGallop cmp tmp n st = res →
      LoInv a tmp base1 base2 end2 st → 2 ≤ st.len1 → 1 ≤ st.len2 →
      st.len1 + st.len2 < n →
      ∃ st' brk, res = some (st', brk) ∧
        LoInv a tmp base1 base2 end2 st' ∧
        st'.len1 + st'.len2 < st.len1 + st.len2 ∧
        (brk = true → st'.len1 = 1 ∧ 1 ≤ st'.len2 ∨ st'.len2 = 0 ∧ 2 ≤ st'.len1) ∧
        (brk = false → 2 ≤ st'.len1 ∧ 1 ≤ st'.len2))
    (stA : LoSt T) (res : Option (LoSt T × Bool))
    (h : loGallopTail cmp tmp n k1 stA = res)
    (invA : LoInv a tmp base1 base2 end2 stA)
    (hA1 : 1 ≤ stA.len1) (hA2 : 1 ≤ stA.len2)
    (hA12 : k1.toNat = 0 → 2 ≤ stA.len1) (hfuel : stA.len1 + stA.len2 ≤ n) :
    ∃ st' brk, res = some (st', brk) ∧
      LoInv a tmp base1 base2 end2 st' ∧
      st'.len1 + st'.len2 ≤ stA.len1 + stA.len2 ∧
      (k1.toNat = 0 → st'.len1 + st'.len2 < stA.len1 + stA.len2) ∧
      (brk = true → st'.len1 = 1 ∧ 1 ≤ st'.len2 ∨ st'.len2 = 0 ∧ 2 ≤ st'.len1) ∧
      (brk = false → 2 ≤ st'.len1 ∧ 1 ≤ st'.len2) := by
  simp only [loGallopTail] at h
  split at h
  · rename_i hcond1
    subst h
    exact ⟨_, _, rfl, invA, by omega, fun h0 => absurd h0 hcond1.1,
      fun _ => Or.inl ⟨by omega, hA2⟩, by simp⟩
  · rename_i hcond1
    have hA1' : 2 ≤ stA.len1 := by
      rcases Decidable.em (k1.toNat = 0) with h0 | h0
      · exact hA12 h0
      · rcases not_and_or.mp hcond1 with hx | hx
        · exact absurd h0 hx
        · omega
    have invB := loStep_run2 a tmp base1 base2 end2 stA invA (by omega) hA2 hend2
      stA.log stA.events stA.mg
    split at h
    · rename_i hcond2
      subst h
      exact ⟨_, _, rfl, invB, by simp; try omega,
        fun _ => by simp; try omega,
        fun _ => Or.inr ⟨by simpa using hcond2, by simp; try omega⟩, by simp⟩
    · rename_i hcond2
      have invB' := invB
      obtain ⟨hLB, hAB, hBB, hCB, hDB, hEB, hFB, hGB, hPB⟩ := invB'
      simp only at hLB hAB hBB hCB hDB hEB hFB hGB hcond2
      have hsB : ∀ i j,
          (⟨stA.arr.set stA.dest (getE stA.arr stA.c2), stA.c1, stA.c2 + 1,
            stA.dest + 1, stA.len1, stA.len2 - 1, stA.mg, stA.log,
            stA.events⟩ : LoSt T).c2 ≤ i → i ≤ j →
          j < (⟨stA.arr.set stA.dest (getE stA.arr stA.c2), stA.c1, stA.c2 + 1,
            stA.dest + 1, stA.len1, stA.len2 - 1, stA.mg, stA.log,
            stA.events⟩ : LoSt T).c2 +
            (⟨stA.arr.set stA.dest (getE stA.arr stA.c2), stA.c1, stA.c2 + 1,
              stA.dest + 1, stA.len1, stA.len2 - 1, stA.mg, stA.log,
              stA.events⟩ : LoSt T).len2 →
          cmp (getE (stA.arr.set stA.dest (getE stA.arr stA.c2)) i)
            (getE (stA.arr.set stA.dest (getE stA.arr stA.c2)) j) ≤ 0 := by
        intro i j hi hij hj
        simp only at hi hj ⊢
        rw [hFB i (by omega), hFB j (by omega)]
        exact ha2 i j (by omega) hij (by omega)
      obtain ⟨k2, glog2, heqB, hk20, hk2le, hk2n⟩ :=
        galB cmp hc (stA.arr.set stA.dest (getE stA.arr stA.c2))
          (getE tmp stA.c1) (stA.c2 + 1) (stA.len2 - 1)
          (by omega) (by exact hsB)
      rw [heqB] at h
      try simp only at h
      split at h
      · rename_i hk2ne
        have invC := gStepC a tmp base1 base2 end2
          (⟨stA.arr.set stA.dest (getE stA.arr stA.c2), stA.c1, stA.c2 + 1,
            stA.dest + 1, stA.len1, stA.len2 - 1, stA.mg, stA.log,
            stA.events⟩ : LoSt T)
          invB k2.toNat (by simp; omega) (by simp; omega) hend2
          (stA.log ++ glog2) stA.events stA.mg
        split at h
        · rename_i hcond3
          subst h
          refine ⟨_, _, rfl, invC, by simp; omega, fun _ => by simp; omega,
            fun _ => Or.inr ⟨by simpa using hcond3.2, by simp; omega⟩, by simp⟩
        · rename_i hcond3
          have hCl2 : 1 ≤ stA.len2 - 1 - k2.toNat := by
            rcases not_and_or.mp hcond3 with hx | hx
            · exact absurd hk2ne hx
            · simp at hx
              omega
          obtain ⟨st', brk, hres, inv', hlt, hbt, hbf⟩ := loGallopTail2_spec cmp a tmp
            base1 base2 end2 hend2 n k1 k2 ih _ _ h invC (by simp; omega)
            (by simp; omega) (by simp; omega)
          exact ⟨st', brk, hres, inv', by simp at hlt; omega,
            fun _ => by simp at hlt; omega, hbt, hbf⟩
      · rename_i hk2z
        split at h
        · rename_i hcond3
          exact absurd hcond3.1 hk2z
        · rename_i hcond3
          obtain ⟨st', brk, hres, inv', hlt, hbt, hbf⟩ := loGallopTail2_spec cmp a tmp
            base1 base2 end2 hend2 n k1 k2 ih _ _ h invB (by simp; omega)
            (by simp; omega) (by simp; omega)
          exact ⟨st', brk, hres, inv', by simp at hlt; omega,
            fun _ => by simp at hlt; omega, hbt, hbf⟩

theorem mergeLoGallop_spec (cmp : Cmp T) (hc : TotalCmp cmp) (a tmp : List T)
    (base1 base2 end2 : Nat) (hend2 : end2 ≤ a.length)
    (htmp : ∀ i j, i ≤ j → j < tmp.length → cmp (getE tmp i) (getE tmp j) ≤ 0)
    (ha2 : ∀ i j, base2 ≤ i → i ≤ j → j < end2 → cmp (getE a i) (getE a j) ≤ 0)
    (hdom : ∀ j, base2 ≤ j → j < end2 → cmp (getE a j) (getE tmp (tmp.length - 1)) < 0) :
    ∀ fuel (st : LoSt T) (res : Option (LoSt T × Bool)),
    mergeLoGallop cmp tmp fuel st = res →
    LoInv a tmp base1 base2 end2 st → 2 ≤ st.len1 → 1 ≤ st.len2 →
    st.len1 + st.len2 < fuel →
    ∃ st' brk, res = some (st', brk) ∧
      LoInv a tmp base1 base2 end2 st' ∧
      st'.len1 + st'.len2 < st.len1 + st.len2 ∧
      (brk = true → st'.len1 = 1 ∧ 1 ≤ st'.len2 ∨ st'.len2 = 0 ∧ 2 ≤ st'.len1) ∧
      (brk = false → 2 ≤ st'.len1 ∧ 1 ≤ st'.len2) := by
  intro fuel
  induction fuel with
  | zero => intro st res h hInv h1 h2 hfuel; omega
  | succ n ih =>
    intro st res h hInv h1 h2 hfuel
    have hInv' := hInv
    obtain ⟨hL, hA, hB, hC, hD, hE, hF, hG, hP⟩ := hInv'
    have hkey : cmp (getE st.arr st.c2) (getE tmp (tmp.length - 1)) < 0 := by
      rw [hF st.c2 le_rfl]
      exact hdom st.c2 hE (by omega)
    obtain ⟨k1, glog1, hg1, hk10, hk1le, hk1lt⟩ :=
      galA cmp hc tmp (getE st.arr st.c2) st.c1 st.len1 (by omega) hA htmp hkey
    simp only [mergeLoGallop, hg1] at h
    split at h
    · rename_i hcnt
      have invA := gStepA a tmp base1 base2 end2 st hInv k1.toNat (by omega) hk1lt
        hend2 (st.log ++ glog1) st.events st.mg
      change loGallopTail cmp tmp n k1
        (⟨arraycopy tmp st.c1 st.arr st.dest k1.toNat, st.c1 + k1.toNat, st.c2,
          st.dest + k1.toNat, st.len1 - k1.toNat, st.len2, st.mg,
          st.log ++ glog1, st.events⟩ : LoSt T) = res at h
      obtain ⟨st', brk, hres, inv', hle, hlt0, hbt, hbf⟩ := loGallopTail_spec cmp hc a
        tmp base1 base2 end2 hend2 ha2 n k1 ih _ _ h invA (by simp; omega)
        (by simp; omega) (fun h0 => absurd h0 hcnt) (by simp; omega)
      exact ⟨st', brk, hres, inv', by simp at hle; omega, hbt, hbf⟩
    · rename_i hcnt
      have hk1z : k1.toNat = 0 := by omega
      have invA : LoInv a tmp base1 base2 end2
          (⟨st.arr, st.c1, st.c2, st.dest, st.len1, st.len2, st.mg,
            st.log ++ glog1, st.events⟩ : LoSt T) :=
        ⟨hL, hA, hB, hC, hD, hE, hF, hG, hP⟩
      change loGallopTail cmp tmp n k1
        (⟨st.arr, st.c1, st.c2, st.dest, st.len1, st.len2, st.mg,
          st.log ++ glog1, st.events⟩ : LoSt T) = res at h
      obtain ⟨st', brk, hres, inv', hle, hlt0, hbt, hbf⟩ := loGallopTail_spec cmp hc a
        tmp base1 base2 end2 hend2 ha2 n k1 ih _ _ h invA (by simp; omega)
        (by simp; omega) (fun _ => by simp; omega) (by simp; omega)
      have hstrict := hlt0 hk1z
      exact ⟨st', brk, hres, inv', by simp at hstrict; omega, hbt, hbf⟩

theorem mergeLoFinish_post (a tmp : List T) (base1 base2 end2 : Nat)
    (hend2 : end2 ≤ a.length) (st : LoSt T)
    (inv : LoInv a tmp base1 base2 end2 st)
    (hexit : st.len1 = 1 ∧ 1 ≤ st.len2 ∨ st.len2 = 0 ∧ 2 ≤ st.len1) :
    (mergeLoFinish tmp st).err = false ∧
    (mergeLoFinish tmp st).arr.length = a.length ∧
    (regionOf (mergeLoFinish tmp st).arr base1 end2).Perm
      (tmp ++ regionOf a base2 end2) ∧
    (∀ i, i < base1 → getE (mergeLoFinish tmp st).arr i = getE a i) ∧
    (∀ i, end2 ≤ i → getE (mergeLoFinish tmp st).arr i = getE a i) := by
  obtain ⟨hL, hA, hB, hC, hD, hE, hF, hG, hP⟩ := inv
  rcases hexit with ⟨he1, he2⟩ | ⟨he1, he2⟩
  · have hfin : mergeLoFinish tmp st =
        ⟨(arraycopy st.arr st.c2 st.arr st.dest st.len2).set (st.dest + st.len2)
          (getE tmp st.c1), false, st.len1, st.len2, st.log,
          st.events ++ [(MGEvent.finalClamp, if st.mg < 1 then 1 else st.mg)]⟩ := by
      simp only [mergeLoFinish]
      rw [if_pos he1]
    rw [hfin]
    have hde : st.dest + st.len2 = end2 - 1 := by omega
    have hone : 1 ≤ end2 := by omega
    have hstep1 : regionOf (arraycopy st.arr st.c2 st.arr st.dest st.len2) base1
        (st.dest + st.len2) = regionOf st.arr base1 st.dest ++
          (st.arr.drop st.c2).take st.len2 :=
      regionOf_arraycopy_extend _ _ _ _ _ _ hD (by omega) (by omega)
    have hseg : (st.arr.drop st.c2).take st.len2 = (a.drop st.c2).take st.len2 :=
      drop_take_ext _ _ _ _ hL (by omega) (fun i hi1 hi2 => hF i hi1)
    have hrega : regionOf a st.c2 end2 = (a.drop st.c2).take st.len2 := by
      have := regionOf_drop_take a st.c2 end2
      rw [show end2 - st.c2 = st.len2 from by omega] at this
      exact this
    refine ⟨rfl, by simp [arraycopy_length, hL], ?_, ?_, ?_⟩
    · simp only
      have hset : regionOf ((arraycopy st.arr st.c2 st.arr st.dest st.len2).set
          (st.dest + st.len2) (getE tmp st.c1)) base1 (st.dest + st.len2 + 1) =
          regionOf (arraycopy st.arr st.c2 st.arr st.dest st.len2) base1
            (st.dest + st.len2) ++ [getE tmp st.c1] :=
        regionOf_set_extend _ _ _ _ (by omega) (by simp [arraycopy_length]; omega)
      conv_lhs => rw [show end2 = st.dest + st.len2 + 1 from by omega]
      rw [hset, hstep1, hseg, ← hrega]
      refine ((hP.append (List.Perm.refl _)).append (List.Perm.refl _)).trans ?_
      have hshuf : ((List.take st.c1 tmp ++ regionOf a base2 st.c2) ++
            regionOf a st.c2 end2) ++ [getE tmp st.c1] |>.Perm
          ((List.take st.c1 tmp ++ [getE tmp st.c1]) ++
            (regionOf a base2 st.c2 ++ regionOf a st.c2 end2)) := by
        have e1 : ((List.take st.c1 tmp ++ regionOf a base2 st.c2) ++
            regionOf a st.c2 end2) ++ [getE tmp st.c1] =
            List.take st.c1 tmp ++ ((regionOf a base2 st.c2 ++
              regionOf a st.c2 end2) ++ [getE tmp st.c1]) := by
          simp [List.append_assoc]
        have e2 : (List.take st.c1 tmp ++ [getE tmp st.c1]) ++
            (regionOf a base2 st.c2 ++ regionOf a st.c2 end2) =
            List.take st.c1 tmp ++ ([getE tmp st.c1] ++
              (regionOf a base2 st.c2 ++ regionOf a st.c2 end2)) := by
          simp [List.append_assoc]
        rw [e1, e2]
        exact List.Perm.append_left _ List.perm_append_comm
      refine hshuf.trans ?_
      rw [← take_succ_getE tmp st.c1 (by omega),
        show st.c1 + 1 = tmp.length from by omega, List.take_length,
        ← regionOf_split a base2 st.c2 end2 hE (by omega) hend2]
    · intro i hi
      simp only
      rw [getE_set_ne _ _ _ _ (by omega),
        getE_arraycopy_outside _ _ _ _ _ _ (Or.inl (by omega))]
      exact hG i hi
    · intro i hi
      simp only
      rw [getE_set_ne _ _ _ _ (by omega),
        getE_arraycopy_outside _ _ _ _ _ _ (Or.inr (by omega))]
      exact hF i (by omega)
  · have hfin : mergeLoFinish tmp st =
        ⟨arraycopy tmp st.c1 st.arr st.dest st.len1, false, st.len1, st.len2, st.log,
          st.events ++ [(MGEvent.finalClamp, if st.mg < 1 then 1 else st.mg)]⟩ := by
      simp only [mergeLoFinish]
      rw [if_neg (by omega), if_neg (by omega)]
    rw [hfin]
    have hc2e : st.c2 = end2 := by omega
    have hstep1 : regionOf (arraycopy tmp st.c1 st.arr st.dest st.len1) base1
        (st.dest + st.len1) = regionOf st.arr base1 st.dest ++
          (tmp.drop st.c1).take st.len1 :=
      regionOf_arraycopy_extend _ _ _ _ _ _ hD (by omega) (by omega)
    refine ⟨rfl, by simp [arraycopy_length, hL], ?_, ?_, ?_⟩
    · simp only
      conv_lhs => rw [show end2 = st.dest + st.len1 from by omega]
      rw [hstep1]
      refine (hP.append (List.Perm.refl _)).trans ?_
      have hshuf : (List.take st.c1 tmp ++ regionOf a base2 st.c2) ++
            (tmp.drop st.c1).take st.len1 |>.Perm
          ((List.take st.c1 tmp ++ (tmp.drop st.c1).take st.len1) ++
            regionOf a base2 st.c2) := by
        have e1 : (List.take st.c1 tmp ++ regionOf a base2 st.c2) ++
            (tmp.drop st.c1).take st.len1 =
            List.take st.c1 tmp ++ (regionOf a base2 st.c2 ++
              (tmp.drop st.c1).take st.len1) := by
          simp [List.append_assoc]
        have e2 : (List.take st.c1 tmp ++ (tmp.drop st.c1).take st.len1) ++
            regionOf a base2 st.c2 =
            List.take st.c1 tmp ++ ((tmp.drop st.c1).take st.len1 ++
              regionOf a base2 st.c2) := by
          simp [List.append_assoc]
        rw [e1, e2]
        exact List.Perm.append_left _ List.perm_append_comm
      refine hshuf.trans ?_
      rw [← List.take_add, show st.c1 + st.len1 = tmp.length from hA, List.take_length,
        hc2e]
    · intro i hi
      simp only
      rw [getE_arraycopy_outside _ _ _ _ _ _ (Or.inl (by omega))]
      exact hG i hi
    · intro i hi
      simp only
      rw [getE_arraycopy_outside _ _ _ _ _ _ (Or.inr (by omega))]
      exact hF i (by omega)

theorem mergeLoOuter_spec (cmp : Cmp T) (hc : TotalCmp cmp) (a tmp : List T)
    (base1 base2 end2 : Nat) (hend2 : end2 ≤ a.length)
    (htmp : ∀ i j, i ≤ j → j < tmp.length → cmp (getE tmp i) (getE tmp j) ≤ 0)
    (ha2 : ∀ i j, base2 ≤ i → i ≤ j → j < end2 → cmp (getE a i) (getE a j) ≤ 0)
    (hdom : ∀ j, base2 ≤ j → j < end2 → cmp (getE a j) (getE tmp (tmp.length - 1)) < 0) :
    ∀ fuel (st : LoSt T) (res : Option (MergeRes T)),
    mergeLoOuter cmp tmp fuel st = res →
    LoInv a tmp base1 base2 end2 st → 2 ≤ st.len1 → 1 ≤ st.len2 →
    st.len1 + st.len2 ≤ fuel →
    ∃ r, res = some r ∧ r.err = false ∧ r.arr.length = a.length ∧
      (regionOf r.arr base1 end2).Perm (tmp ++ regionOf a base2 end2) ∧
      (∀ i, i < base1 → getE r.arr i = getE a i) ∧
      (∀ i, end2 ≤ i → getE r.arr i = getE a i) := by
  intro fuel
  induction fuel with
  | zero => intro st res h hInv h1 h2 hfuel; omega
  | succ n ih =>
    intro st res h hInv h1 h2 hfuel
    simp only [mergeLoOuter] at h
    split at h
    · rename_i heq1
      obtain ⟨st1, brk1, hres, _⟩ := mergeLoStraight_spec cmp a tmp base1 base2 end2
        hend2 (st.len1 + st.len2 + 1) st 0 0 _ heq1 hInv h1 h2 (by omega)
      exact Option.noConfusion hres
    · rename_i st1' heq1
      obtain ⟨st1, brk1, hres, inv1, hdec1, hbt1, hbf1⟩ := mergeLoStraight_spec cmp a
        tmp base1 base2 end2 hend2 (st.len1 + st.len2 + 1) st 0 0 _ heq1 hInv h1 h2
        (by omega)
      injection hres with hres'
      injection hres' with ha hb
      subst ha
      subst h
      obtain ⟨p1, p2, p3, p4, p5⟩ := mergeLoFinish_post a tmp base1 base2 end2 hend2
        st1' inv1 (hbt1 hb.symm)
      exact ⟨_, rfl, p1, p2, p3, p4, p5⟩
    · rename_i st1' heq1
      obtain ⟨st1, brk1, hres, inv1, hdec1, hbt1, hbf1⟩ := mergeLoStraight_spec cmp a
        tmp base1 base2 end2 hend2 (st.len1 + st.len2 + 1) st 0 0 _ heq1 hInv h1 h2
        (by omega)
      injection hres with hres'
      injection hres' with ha hb
      subst ha
      obtain ⟨h1f, h2f⟩ := hbf1 hb.symm
      split at h
      · rename_i heq2
        obtain ⟨st2, brk2, hres2, _⟩ := mergeLoGallop_spec cmp hc a tmp base1 base2
          end2 hend2 htmp ha2 hdom (st1'.len1 + st1'.len2 + 1) st1' _ heq2 inv1 h1f h2f
          (by omega)
        exact Option.noConfusion hres2
      · rename_i st2' heq2
        obtain ⟨st2, brk2, hres2, inv2, hdec2, hbt2, hbf2⟩ := mergeLoGallop_spec cmp hc
          a tmp base1 base2 end2 hend2 htmp ha2 hdom (st1'.len1 + st1'.len2 + 1) st1' _
          heq2 inv1 h1f h2f (by omega)
        injection hres2 with hres2'
        injection hres2' with ha2' hb2'
        subst ha2'
        subst h
        obtain ⟨p1, p2, p3, p4, p5⟩ := mergeLoFinish_post a tmp base1 base2 end2 hend2
          st2' inv2 (hbt2 hb2'.symm)
        exact ⟨_, rfl, p1, p2, p3, p4, p5⟩
      · rename_i st2' heq2
        obtain ⟨st2, brk2, hres2, inv2, hdec2, hbt2, hbf2⟩ := mergeLoGallop_spec cmp hc
          a tmp base1 base2 end2 hend2 htmp ha2 hdom (st1'.len1 + st1'.len2 + 1) st1' _
          heq2 inv1 h1f h2f (by omega)
        injection hres2 with hres2'
        injection hres2' with ha2' hb2'
        subst ha2'
        obtain ⟨h1g, h2g⟩ := hbf2 hb2'.symm
        have inv2' := inv2
        obtain ⟨q1, q2, q3, q4, q5, q6, q7, q8, q9⟩ := inv2'
        exact ih _ _ h ⟨q1, q2, q3, q4, q5, q6, q7, q8, q9⟩ (by simpa using h1g)
          (by simpa using h2g) (by simp; omega)

theorem regionOf_self (l : List T) (lo : Nat) : regionOf l lo lo = [] := by
  rw [regionOf_drop_take]
  simp

theorem regionOf_single (l : List T) (lo : Nat) (h : lo < l.length) :
    regionOf l lo (lo + 1) = [getE l lo] := by
  rw [regionOf_succ l lo lo le_rfl h, regionOf_self]
  rfl

theorem mergeLo_post (cmp : Cmp T) (hc : TotalCmp cmp) (a : List T)
    (base1 len1 base2 len2 : Nat) (hb2 : base2 = base1 + len1)
    (hlen : base2 + len2 ≤ a.length) (h1 : 1 ≤ len1) (h2 : 1 ≤ len2)
    (hs1 : ∀ i j, base1 ≤ i → i ≤ j → j < base2 → cmp (getE a i) (getE a j) ≤ 0)
    (hs2 : ∀ i j, base2 ≤ i → i ≤ j → j < base2 + len2 →
      cmp (getE a i) (getE a j) ≤ 0)
    (hlast : cmp (getE a (base2 + len2 - 1)) (getE a (base1 + len1 - 1)) < 0) :
    ∃ r, mergeLo cmp a base1 len1 base2 len2 = some r ∧ r.err = false ∧
      r.arr.length = a.length ∧
      (regionOf r.arr base1 (base2 + len2)).Perm (regionOf a base1 (base2 + len2)) ∧
      (∀ i, i < base1 → getE r.arr i = getE a i) ∧
      (∀ i, base2 + len2 ≤ i → getE r.arr i = getE a i) := by
  have htl : ((a.drop base1).take len1).length = len1 := by
    simp
    omega
  have hgt : ∀ i, i < len1 → getE ((a.drop base1).take len1) i = getE a (base1 + i) := by
    intro i hi
    rw [getE_take _ _ _ hi, getE_drop]
  have htmpreg : (a.drop base1).take len1 = regionOf a base1 base2 := by
    rw [regionOf_drop_take, show base2 - base1 = len1 from by omega]
  have htmps : ∀ i j, i ≤ j → j < ((a.drop base1).take len1).length →
      cmp (getE ((a.drop base1).take len1) i) (getE ((a.drop base1).take len1) j) ≤ 0 := by
    intro i j hij hj
    rw [htl] at hj
    rw [hgt i (by omega), hgt j hj]
    exact hs1 (base1 + i) (base1 + j) (by omega) (by omega) (by omega)
  have hdom : ∀ j, base2 ≤ j → j < base2 + len2 →
      cmp (getE a j) (getE ((a.drop base1).take len1)
        (((a.drop base1).take len1).length - 1)) < 0 := by
    intro j hj1 hj2
    rw [htl, hgt (len1 - 1) (by omega),
      show base1 + (len1 - 1) = base1 + len1 - 1 from by omega]
    exact hc.le_lt_trans (hs2 j (base2 + len2 - 1) hj1 (by omega) (by omega)) hlast
  have hregsplit : regionOf a base1 (base2 + len2) =
      (a.drop base1).take len1 ++ regionOf a base2 (base2 + len2) := by
    rw [regionOf_split a base1 base2 (base2 + len2) (by omega) (by omega) hlen,
      ← htmpreg]
  simp only [mergeLo]
  split
  · rename_i hz
    have hl21 : len2 = 1 := by omega
    refine ⟨_, rfl, rfl, ?_, ?_, ?_, ?_⟩
    · simp [arraycopy_length]
    · simp only
      conv_lhs => rw [show base2 + len2 = base1 + 1 + len1 from by omega]
      rw [regionOf_arraycopy_extend _ _ _ _ _ _ (by omega)
        (by simp; omega) (by simp [htl])]
      rw [regionOf_set_extend _ _ _ _ le_rfl (by omega), regionOf_self,
        List.nil_append, List.drop_zero, List.take_take, min_self]
      rw [hregsplit, show base2 + len2 = base2 + 1 from by omega,
        regionOf_single a base2 (by omega)]
      exact List.perm_append_comm
    · intro i hi
      simp only
      rw [getE_arraycopy_outside _ _ _ _ _ _ (Or.inl (by omega)),
        getE_set_ne _ _ _ _ (by omega)]
    · intro i hi
      simp only
      rw [getE_arraycopy_outside _ _ _ _ _ _ (Or.inr (by omega)),
        getE_set_ne _ _ _ _ (by omega)]
  · rename_i hz
    split
    · rename_i ho
      have hb21 : base2 = base1 + 1 := by omega
      refine ⟨_, rfl, rfl, ?_, ?_, ?_, ?_⟩
      · simp [arraycopy_length]
      · simp only
        have e1 : regionOf (arraycopy (a.set base1 (getE a base2)) (base2 + 1)
            (a.set base1 (getE a base2)) (base1 + 1) (len2 - 1)) base1
            (base1 + 1 + (len2 - 1)) =
            regionOf (a.set base1 (getE a base2)) base1 (base1 + 1) ++
              ((a.set base1 (getE a base2)).drop (base2 + 1)).take (len2 - 1) :=
          regionOf_arraycopy_extend _ _ _ _ _ _ (by omega) (by simp; omega)
            (by simp; omega)
        have e2 : ((a.set base1 (getE a base2)).drop (base2 + 1)).take (len2 - 1) =
            (a.drop (base2 + 1)).take (len2 - 1) :=
          drop_take_ext _ _ _ _ (by simp) (by simp; omega)
            (fun i hi1 hi2 => getE_set_ne _ _ _ _ (by omega))
        have e3 : regionOf a (base2 + 1) (base2 + len2) =
            (a.drop (base2 + 1)).take (len2 - 1) := by
          have := regionOf_drop_take a (base2 + 1) (base2 + len2)
          rw [show base2 + len2 - (base2 + 1) = len2 - 1 from by omega] at this
          exact this
        conv_lhs => rw [show base2 + len2 = base1 + 1 + (len2 - 1) + 1 from by omega]
        rw [regionOf_set_extend _ _ _ _ (by omega) (by simp [arraycopy_length]; omega)]
        rw [e1, e2, ← e3]
        rw [regionOf_set_extend _ _ _ _ le_rfl (by omega), regionOf_self,
          List.nil_append]
        rw [hregsplit,
          regionOf_split a base2 (base2 + 1) (base2 + len2) (by omega) (by omega) hlen,
          regionOf_single a base2 (by omega)]
        have htmp1 : (a.drop base1).take len1 = [getE a base1] := by
          rw [htmpreg, hb21, regionOf_single a base1 (by omega)]
        rw [hgt 0 (by omega), Nat.add_zero, htmp1]
        have e4 : [getE a base2] ++ regionOf a (base2 + 1) (base2 + len2) ++
            [getE a base1] |>.Perm
            ([getE a base1] ++ ([getE a base2] ++
              regionOf a (base2 + 1) (base2 + len2))) :=
          List.perm_append_comm
        refine e4.trans ?_
        rw [← List.append_assoc]
      · intro i hi
        simp only
        rw [getE_set_ne _ _ _ _ (by omega),
          getE_arraycopy_outside _ _ _ _ _ _ (Or.inl (by omega)),
          getE_set_ne _ _ _ _ (by omega)]
      · intro i hi
        simp only
        rw [getE_set_ne _ _ _ _ (by omega),
          getE_arraycopy_outside _ _ _ _ _ _ (Or.inr (by omega)),
          getE_set_ne _ _ _ _ (by omega)]
    · rename_i ho
      have hInv0 : LoInv a ((a.drop base1).take len1) base1 base2 (base2 + len2)
          ⟨a.set base1 (getE a base2), 0, base2 + 1, base1 + 1, len1, len2 - 1,
            MIN_GALLOP, [], []⟩ := by
        refine ⟨by simp, by simp [htl], by simp; omega, by simp; omega, by simp,
          by simp, ?_, ?_, ?_⟩
        · intro i hi
          simp only at hi ⊢
          exact getE_set_ne _ _ _ _ (by omega)
        · intro i hi
          simp only at hi ⊢
          exact getE_set_ne _ _ _ _ (by omega)
        · simp only
          rw [regionOf_set_extend _ _ _ _ le_rfl (by omega), regionOf_self,
            List.nil_append, List.take_zero, List.nil_append,
            regionOf_single a base2 (by omega)]
      obtain ⟨r, hres, p1, p2, p3, p4, p5⟩ := mergeLoOuter_spec cmp hc a
        ((a.drop base1).take len1) base1 base2 (base2 + len2) hlen htmps hs2 hdom
        (len1 + len2 + 1) _ _ rfl hInv0 (by simp; omega) (by simp; omega)
        (by simp; omega)
      refine ⟨r, hres, p1, p2, ?_, p4, p5⟩
      rw [hregsplit]
      exact p3

theorem mergeLoFinish_err (tmp : List T) (st : LoSt T) :
    (mergeLoFinish tmp st).err = true ↔ (mergeLoFinish tmp st).exitLen1 = 0 := by
  simp only [mergeLoFinish]
  split_ifs <;> simp [*]

theorem mergeLoOuter_shape (cmp : Cmp T) (tmp : List T) :
    ∀ fuel (st : LoSt T) (r : MergeRes T), mergeLoOuter cmp tmp fuel st = some r →
    ∃ st', r = mergeLoFinish tmp st' := by
  intro fuel
  induction fuel with
  | zero => intro st r h; simp [mergeLoOuter] at h
  | succ n ih =>
    intro st r h
    simp only [mergeLoOuter] at h
    split at h
    · exact Option.noConfusion h
    · rename_i st1 heq
      injection h with h'
      exact ⟨st1, h'.symm⟩
    · rename_i st1 heq
      split at h
      · exact Option.noConfusion h
      · rename_i st2 heq2
        injection h with h'
        exact ⟨st2, h'.symm⟩
      · rename_i st2 heq2
        exact ih _ _ h

theorem mergeLo_err_iff (cmp : Cmp T) (a : List T) (base1 len1 base2 len2 : Nat)
    (h1 : 1 ≤ len1) (r : MergeRes T)
    (h : mergeLo cmp a base1 len1 base2 len2 = some r) :
    r.err = true ↔ r.exitLen1 = 0 := by
  simp only [mergeLo] at h
  split at h
  · injection h with h'
    subst h'
    simp
    omega
  · split at h
    · injection h with h'
      subst h'
      simp
    · obtain ⟨st', rfl⟩ := mergeLoOuter_shape cmp _ _ _ _ h
      exact mergeLoFinish_err _ st'

theorem mergeHiFinish_err (tmp : List T) (st : HiSt T) :
    (mergeHiFinish tmp st).err = true ↔ (mergeHiFinish tmp st).exitLen2 = 0 := by
  simp only [mergeHiFinish]
  split_ifs <;> simp [*]

theorem mergeHiOuter_shape (cmp : Cmp T) (tmp : List T) (base1 : Nat) :
    ∀ fuel (st : HiSt T) (r : MergeRes T), mergeHiOuter cmp tmp base1 fuel st = some r →
    ∃ st', r = mergeHiFinish tmp st' := by
  intro fuel
  induction fuel with
  | zero => intro st r h; simp [mergeHiOuter] at h
  | succ n ih =>
    intro st r h
    simp only [mergeHiOuter] at h
    split at h
    · exact Option.noConfusion h
    · rename_i st1 heq
      injection h with h'
      exact ⟨st1, h'.symm⟩
    · rename_i st1 heq
      split at h
      · exact Option.noConfusion h
      · rename_i st2 heq2
        injection h with h'
        exact ⟨st2, h'.symm⟩
      · rename_i st2 heq2
        exact ih _ _ h

theorem mergeHi_err_iff (cmp : Cmp T) (a : List T) (base1 len1 base2 len2 : Nat)
    (h2 : 1 ≤ len2) (r : MergeRes T)
    (h : mergeHi cmp a base1 len1 base2 len2 = some r) :
    r.err = true ↔ r.exitLen2 = 0 := by
  simp only [mergeHi] at h
  split at h
  · injection h with h'
    subst h'
    simp
    omega
  · split at h
    · injection h with h'
      subst h'
      simp
    · obtain ⟨st', rfl⟩ := mergeHiOuter_shape cmp _ _ _ _ _ h
      exact mergeHiFinish_err _ st'

theorem getI_nonneg (a : List T) (i : Int) (h : 0 ≤ i) : getI a i = getE a i.toNat := by
  rw [getI, if_pos h]

theorem setI_nonneg (a : List T) (i : Int) (v : T) (h : 0 ≤ i) :
    setI a i v = a.set i.toNat v := by
  rw [setI, if_pos h]

theorem regionOf_set_prepend (l : List T) (d hi : Nat) (v : T) (h1 : d < hi)
    (h2 : hi ≤ l.length) :
    regionOf (l.set d v) d hi = v :: regionOf l (d + 1) hi := by
  rw [regionOf_split (l.set d v) d (d + 1) hi (by omega) (by omega) (by simp; omega),
    regionOf_single _ _ (by simp; omega), getE_set_self _ _ _ (by omega)]
  rw [regionOf_ext (l.set d v) l (d + 1) hi (by simp) (by simp; omega)
    (fun i hi1 hi2 => getE_set_ne _ _ _ _ (by omega))]
  rfl

theorem regionOf_arraycopy_at (s : List T) (sp : Nat) (d : List T) (dp n : Nat)
    (h2 : dp + n ≤ d.length) (h3 : sp + n ≤ s.length) :
    regionOf (arraycopy s sp d dp n) dp (dp + n) = (s.drop sp).take n := by
  rw [arraycopy, acLoop_eq _ _ _ _ (by simp; omega) h2, regionOf]
  rw [List.take_left' (by simp; omega)]
  rw [List.drop_append_of_le_length (by simp; omega)]
  simp [List.take_take, List.drop_take]

theorem regionOf_arraycopy_prepend (s : List T) (sp : Nat) (d : List T) (dp n hi : Nat)
    (h1 : dp + n ≤ hi) (h2 : hi ≤ d.length) (h3 : sp + n ≤ s.length) :
    regionOf (arraycopy s sp d dp n) dp hi =
      (s.drop sp).take n ++ regionOf d (dp + n) hi := by
  rw [regionOf_split _ dp (dp + n) hi (by omega) h1 (by simp [arraycopy_length]; omega),
    regionOf_arraycopy_at _ _ _ _ _ (by omega) h3]
  congr 1
  exact regionOf_ext _ _ _ _ (by simp [arraycopy_length])
    (by simp [arraycopy_length]; omega)
    (fun i hi1 hi2 => getE_arraycopy_outside _ _ _ _ _ _ (Or.inr hi1))

theorem hiStep_run1 (a tmp : List T) (base1 base2 end2 : Nat) (st : HiSt T)
    (hInv : HiInv a tmp base1 base2 end2 st) (h1 : 1 ≤ st.len1) (h2 : 1 ≤ st.len2)
    (hend2 : end2 ≤ a.length) (hbe : base2 ≤ end2)
    (lg : Log T) (ev : List (MGEvent × Int)) (mg : Int) :
    HiInv a tmp base1 base2 end2
      ⟨setI st.arr st.dest (getI st.arr st.c1), st.c1 - 1, st.c2,
        st.dest - 1, st.len1 - 1, st.len2, mg, lg, ev⟩ := by
  obtain ⟨hL, hA, hB, hC, hD, hE, hE2, hF, hG, hP⟩ := hInv
  have hc10 : (0 : Int) ≤ st.c1 := by omega
  have hd0 : (0 : Int) ≤ st.dest := by omega
  have hdn : st.dest.toNat < end2 := by omega
  rw [setI_nonneg _ _ _ hd0, getI_nonneg _ _ hc10]
  refine ⟨by simp [hL], by simp; omega, by simpa using hB, by simp; omega,
    by simpa using hD, by simp; omega, by simp; omega, ?_, ?_, ?_⟩
  · intro i hi
    simp only at hi ⊢
    rw [getE_set_ne _ _ _ _ (by omega)]
    exact hF i (by omega)
  · intro i hi
    simp only at hi ⊢
    rw [getE_set_ne _ _ _ _ (by omega)]
    exact hG i hi
  · simp only
    have he1 : (st.dest - 1 + 1).toNat = st.dest.toNat := by omega
    have he2 : (st.dest + 1).toNat = st.dest.toNat + 1 := by omega
    have hd1 : st.dest.toNat < end2 := by omega
    have hd2 : end2 ≤ st.arr.length := by omega
    rw [he1, regionOf_set_prepend st.arr st.dest.toNat end2
      (getE st.arr st.c1.toNat) hd1 hd2, ← he2]
    have he3 : (st.c1 - 1 + 1).toNat = st.c1.toNat := by omega
    have he4 : (st.c1 + 1).toNat = st.c1.toNat + 1 := by omega
    have hc1a : st.c1.toNat ≤ st.c1.toNat + 1 := by omega
    have hc1b : st.c1.toNat + 1 ≤ base2 := by omega
    have hc1c : base2 ≤ a.length := by omega
    rw [he3, regionOf_split a st.c1.toNat (st.c1.toNat + 1) base2 hc1a hc1b hc1c,
      regionOf_single a st.c1.toNat (by omega), ← he4]
    rw [hF st.c1.toNat (by omega)]
    exact (hP.cons (getE a st.c1.toNat)).trans (by simp)

theorem hiStep_run2 (a tmp : List T) (base1 base2 end2 : Nat) (st : HiSt T)
    (hInv : HiInv a tmp base1 base2 end2 st) (h2 : 1 ≤ st.len2)
    (hend2 : end2 ≤ a.length) (lg : Log T) (ev : List (MGEvent × Int)) (mg : Int) :
    HiInv a tmp base1 base2 end2
      ⟨setI st.arr st.dest (getI tmp st.c2), st.c1, st.c2 - 1,
        st.dest - 1, st.len1, st.len2 - 1, mg, lg, ev⟩ := by
  obtain ⟨hL, hA, hB, hC, hD, hE, hE2, hF, hG, hP⟩ := hInv
  have hc20 : (0 : Int) ≤ st.c2 := by omega
  have hd0 : (0 : Int) ≤ st.dest := by omega
  have hdn : st.dest.toNat < end2 := by omega
  rw [setI_nonneg _ _ _ hd0, getI_nonneg _ _ hc20]
  refine ⟨by simp [hL], by simpa using hA, by simp; omega, by simp; omega,
    by simp; omega, by simpa using hE, by simp; omega, ?_, ?_, ?_⟩
  · intro i hi
    simp only at hi ⊢
    rw [getE_set_ne _ _ _ _ (by omega)]
    exact hF i (by omega)
  · intro i hi
    simp only at hi ⊢
    rw [getE_set_ne _ _ _ _ (by omega)]
    exact hG i hi
  · simp only
    have he1 : (st.dest - 1 + 1).toNat = st.dest.toNat := by omega
    have he2 : (st.dest + 1).toNat = st.dest.toNat + 1 := by omega
    rw [he1, regionOf_set_prepend _ _ _ _ (by omega) (by omega), ← he2]
    have he3 : (st.c2 - 1 + 1).toNat = st.c2.toNat := by omega
    have he4 : (st.c2 + 1).toNat = st.c2.toNat + 1 := by omega
    rw [he3, drop_getE_cons tmp st.c2.toNat (by omega), ← he4]
    exact (hP.cons (getE tmp st.c2.toNat)).trans List.perm_middle.symm

theorem hiStepA (a tmp : List T) (base1 base2 end2 : Nat) (st : HiSt T)
    (hInv : HiInv a tmp base1 base2 end2 st) (count1 : Nat)
    (hc1 : 1 ≤ count1) (hle : count1 ≤ st.len1) (h2 : 1 ≤ st.len2)
    (hend2 : end2 ≤ a.length) (hbe : base2 ≤ end2)
    (lg : Log T) (ev : List (MGEvent × Int)) (mg : Int) :
    HiInv a tmp base1 base2 end2
      ⟨arraycopy st.arr (st.c1 - count1 + 1).toNat st.arr
          (st.dest - count1 + 1).toNat count1, st.c1 - count1, st.c2,
        st.dest - count1, st.len1 - count1, st.len2, mg, lg, ev⟩ := by
  obtain ⟨hL, hA, hB, hC, hD, hE, hE2, hF, hG, hP⟩ := hInv
  have hsp : (st.c1 - count1 + 1).toNat + count1 = (st.c1 + 1).toNat := by omega
  have hdp : (st.dest - count1 + 1).toNat + count1 = (st.dest + 1).toNat := by omega
  refine ⟨by simp [arraycopy_length, hL], by simp; omega, by simpa using hB,
    by simp; omega, by simpa using hD, by simp; omega, by simp; omega, ?_, ?_, ?_⟩
  · intro i hi
    simp only at hi ⊢
    rw [getE_arraycopy_outside _ _ _ _ _ _ (Or.inl (by omega))]
    exact hF i (by omega)
  · intro i hi
    simp only at hi ⊢
    rw [getE_arraycopy_outside _ _ _ _ _ _ (Or.inr (by omega))]
    exact hG i hi
  · simp only
    rw [regionOf_arraycopy_prepend st.arr (st.c1 - count1 + 1).toNat st.arr
      (st.dest - count1 + 1).toNat count1 end2 (by omega) (by omega) (by omega)]
    rw [hdp]
    have hseg : (st.arr.drop (st.c1 - count1 + 1).toNat).take count1 =
        (a.drop (st.c1 - count1 + 1).toNat).take count1 :=
      drop_take_ext _ _ _ _ hL (by omega) (fun i hi1 hi2 => hF i (by omega))
    have hreg : regionOf a (st.c1 - count1 + 1).toNat (st.c1 + 1).toNat =
        (a.drop (st.c1 - count1 + 1).toNat).take count1 := by
      have := regionOf_drop_take a (st.c1 - count1 + 1).toNat (st.c1 + 1).toNat
      rw [show (st.c1 + 1).toNat - (st.c1 - count1 + 1).toNat = count1 from by omega]
        at this
      exact this
    rw [hseg, ← hreg]
    refine (List.Perm.append_left _ hP).trans ?_
    rw [← List.append_assoc]
    rw [← regionOf_split a (st.c1 - count1 + 1).toNat (st.c1 + 1).toNat base2
      (by omega) (by omega) (by omega)]

theorem hiStepC (a tmp : List T) (base1 base2 end2 : Nat) (st : HiSt T)
    (hInv : HiInv a tmp base1 base2 end2 st) (count2 : Nat)
    (hle : count2 ≤ st.len2)
    (hend2 : end2 ≤ a.length) (hbe : base2 ≤ end2)
    (lg : Log T) (ev : List (MGEvent × Int)) (mg : Int) :
    HiInv a tmp base1 base2 end2
      ⟨arraycopy tmp (st.c2 - count2 + 1).toNat st.arr
          (st.dest - count2 + 1).toNat count2, st.c1, st.c2 - count2,
        st.dest - count2, st.len1, st.len2 - count2, mg, lg, ev⟩ := by
  obtain ⟨hL, hA, hB, hC, hD, hE, hE2, hF, hG, hP⟩ := hInv
  have hsp : (st.c2 - count2 + 1).toNat + count2 = (st.c2 + 1).toNat := by omega
  have hdp : (st.dest - count2 + 1).toNat + count2 = (st.dest + 1).toNat := by omega
  refine ⟨by simp [arraycopy_length, hL], by simpa using hA, by simp; omega,
    by simp; omega, by simp; omega, by simpa using hE, by simp; omega, ?_, ?_, ?_⟩
  · intro i hi
    simp only at hi ⊢
    rw [getE_arraycopy_outside _ _ _ _ _ _ (Or.inl (by omega))]
    exact hF i (by omega)
  · intro i hi
    simp only at hi ⊢
    rw [getE_arraycopy_outside _ _ _ _ _ _ (Or.inr (by omega))]
    exact hG i hi
  · simp only
    rw [regionOf_arraycopy_prepend tmp (st.c2 - count2 + 1).toNat st.arr
      (st.dest - count2 + 1).toNat count2 end2 (by omega) (by omega) (by omega)]
    rw [hdp]
    have hsplit : tmp.drop ((st.c2 - count2) + 1).toNat =
        (tmp.drop (st.c2 - count2 + 1).toNat).take count2 ++
          tmp.drop (st.c2 + 1).toNat := by
      conv_lhs => rw [← List.take_append_drop count2
        (tmp.drop (st.c2 - count2 + 1).toNat)]
      rw [List.drop_drop, hsp]
    conv_rhs => rw [hsplit]
    refine (List.Perm.append_left _ hP).trans ?_
    rw [← List.append_assoc, ← List.append_assoc]
    exact List.Perm.append_right _ List.perm_append_comm

theorem mergeHiStraight_spec (cmp : Cmp T) (a tmp : List T) (base1 base2 end2 : Nat)
    (hend2 : end2 ≤ a.length) (hbe : base2 ≤ end2) :
    ∀ fuel (st : HiSt T) (c1 c2 : Nat) (res : Option (HiSt T × Bool)),
    mergeHiStraight cmp tmp fuel st c1 c2 = res →
    HiInv a tmp base1 base2 end2 st → 1 ≤ st.len1 → 2 ≤ st.len2 →
    st.len1 + st.len2 < fuel →
    ∃ st' brk, res = some (st', brk) ∧
      HiInv a tmp base1 base2 end2 st' ∧
      st'.len1 + st'.len2 < st.len1 + st.len2 ∧
      (brk = true → st'.len2 = 1 ∨ st'.len1 = 0 ∧ 2 ≤ st'.len2) ∧
      (brk = false → 1 ≤ st'.len1 ∧ 2 ≤ st'.len2) := by
  intro fuel
  induction fuel with
  | zero => intro st c1 c2 res h hInv h1 h2 hfuel; omega
  | succ n ih =>
    intro st c1 c2 res h hInv h1 h2 hfuel
    simp only [mergeHiStraight] at h
    split at h
    · rename_i hcmp
      have inv1 := hiStep_run1 a tmp base1 base2 end2 st hInv h1 (by omega) hend2 hbe
        (st.log ++ [(getI tmp st.c2, getI st.arr st.c1)]) st.events st.mg
      split at h
      · rename_i hz
        subst h
        exact ⟨_, _, rfl, inv1, by simp; omega,
          fun _ => Or.inr ⟨by simpa using hz, by simp; omega⟩, by simp⟩
      · rename_i hz
        split at h
        · obtain ⟨st', brk, hres, invr, hlt, hbt, hbf⟩ := ih _ _ _ _ h inv1
            (by simp at hz ⊢; omega) (by simp; omega) (by simp; omega)
          exact ⟨st', brk, hres, invr, by simp at hlt; omega, hbt, hbf⟩
        · subst h
          exact ⟨_, _, rfl, inv1, by simp; omega, by simp,
            fun _ => ⟨by simp at hz ⊢; omega, by simp; omega⟩⟩
    · rename_i hcmp
      have inv1 := hiStep_run2 a tmp base1 base2 end2 st hInv (by omega) hend2
        (st.log ++ [(getI tmp st.c2, getI st.arr st.c1)]) st.events st.mg
      split at h
      · rename_i hz
        subst h
        exact ⟨_, _, rfl, inv1, by simp; omega,
          fun _ => Or.inl (by simpa using hz), by simp⟩
      · rename_i hz
        split at h
        · obtain ⟨st', brk, hres, invr, hlt, hbt, hbf⟩ := ih _ _ _ _ h inv1
            (by simp; omega) (by simp at hz ⊢; omega) (by simp; omega)
          exact ⟨st', brk, hres, invr, by simp at hlt; omega, hbt, hbf⟩
        · subst h
          exact ⟨_, _, rfl, inv1, by simp; omega, by simp,
            fun _ => ⟨by simp; omega, by simp at hz ⊢; omega⟩⟩

theorem galAhi (cmp : Cmp T) (hc : TotalCmp cmp) (arr : List T) (key : T)
    (base1 len1 : Nat) (h1 : 1 ≤ len1)
    (hsorted : ∀ i j, base1 ≤ i → i ≤ j → j < base1 + len1 →
      cmp (getE arr i) (getE arr j) ≤ 0) :
    ∃ k glog, gallopRight cmp key arr base1 len1 (len1 - 1) = some (k, glog) ∧
      0 ≤ k ∧ k ≤ (len1 : Int) := by
  have hgetI : ∀ i : Int, 0 ≤ i →
      getI arr ((base1 : Int) + i) = getE arr (base1 + i.toNat) := by
    intro i hi
    rw [getI, if_pos (by omega : (0 : Int) ≤ (base1 : Int) + i)]
    congr 1
    omega
  obtain ⟨k, lg, heq, hk0, hklen, charL, charR⟩ :=
    gallopRight_spec cmp hc key arr base1 len1 (len1 - 1) (by omega) (by omega)
      (fun i j hi hij hj => by
        rw [hgetI i hi, hgetI j (le_trans hi hij)]
        exact hsorted (base1 + i.toNat) (base1 + j.toNat) (by omega) (by omega)
          (by omega))
  exact ⟨k, lg, heq, hk0, hklen⟩

theorem galBhi (cmp : Cmp T) (hc : TotalCmp cmp) (tmp : List T) (key : T)
    (len2 : Nat) (h2 : 1 ≤ len2) (hlen : len2 ≤ tmp.length)
    (htmp : ∀ i j, i ≤ j → j < tmp.length → cmp (getE tmp i) (getE tmp j) ≤ 0)
    (hkey : cmp (getE tmp 0) key < 0) :
    ∃ k glog, gallopLeft cmp key tmp 0 len2 (len2 - 1) = some (k, glog) ∧
      0 ≤ k ∧ k ≤ (len2 : Int) ∧ 1 ≤ k.toNat := by
  have hgetI : ∀ i : Int, 0 ≤ i →
      getI tmp ((0 : Nat) + i) = getE tmp i.toNat := by
    intro i hi
    rw [getI, if_pos (by omega : (0 : Int) ≤ ((0 : Nat) : Int) + i)]
    congr 1
    omega
  obtain ⟨k, lg, heq, hk0, hklen, charL, charR⟩ :=
    gallopLeft_spec cmp hc key tmp 0 len2 (len2 - 1) (by omega) (by omega)
      (fun i j hi hij hj => by
        rw [hgetI i hi, hgetI j (le_trans hi hij)]
        exact htmp i.toNat j.toNat (by omega) (by omega))
  refine ⟨k, lg, heq, hk0, hklen, ?_⟩
  by_contra hz
  have hk00 : k = 0 := by omega
  have := charR (by omega)
  rw [hk00, hgetI 0 le_rfl] at this
  have h0 := (hc.sign (getE tmp (0 : Int).toNat) key).mp hkey
  simp only [Int.toNat_zero] at h0 this
  omega

theorem hiGallopTail2_spec (cmp : Cmp T) (a tmp : List T)
    (base1 base2 end2 : Nat) (hend2 : end2 ≤ a.length) (hbe : base2 ≤ end2)
    (n : Nat) (count1 count2 : Nat)
    (ih : ∀ (st : HiSt T) (res : Option (HiSt T × Bool)),
      mergeHiGallop cmp tmp base1 n st = res →
      HiInv a tmp base1 base2 end2 st → 1 ≤ st.len1 → 2 ≤ st.len2 →
      st.len1 + st.len2 < n →
      ∃ st' brk, res = some (st', brk) ∧
        HiInv a tmp base1 base2 end2 st' ∧
        st'.len1 + st'.len2 < st.len1 + st.len2 ∧
        (brk = true → st'.len2 = 1 ∨ st'.len1 = 0 ∧ 2 ≤ st'.len2) ∧
        (brk = false → 1 ≤ st'.len1 ∧ 2 ≤ st'.len2))
    (stC : HiSt T) (res : Option (HiSt T × Bool))
    (h : hiGallopTail2 cmp tmp base1 n count1 count2 stC = res)
    (invC : HiInv a tmp base1 base2 end2 stC)
    (h1C : 1 ≤ stC.len1) (h2C : 2 ≤ stC.len2) (hfuel : stC.len1 + stC.len2 ≤ n) :
    ∃ st' brk, res = some (st', brk) ∧
      HiInv a tmp base1 base2 end2 st' ∧
      st'.len1 + st'.len2 < stC.len1 + stC.len2 ∧
      (brk = true → st'.len2 = 1 ∨ st'.len1 = 0 ∧ 2 ≤ st'.len2) ∧
      (brk = false → 1 ≤ st'.len1 ∧ 2 ≤ st'.len2) := by
  have invD := hiStep_run1 a tmp base1 base2 end2 stC invC (by omega) (by omega)
    hend2 hbe stC.log stC.events stC.mg
  simp only [hiGallopTail2] at h
  split at h
  · rename_i hD1
    subst h
    exact ⟨_, _, rfl, invD, by simp; omega,
      fun _ => Or.inr ⟨by simpa using hD1, by simp; omega⟩, by simp⟩
  · rename_i hD1
    split at h
    · obtain ⟨st', brk, hres, inv', hlt, hbt, hbf⟩ := ih _ _ h invD
        (by simp at hD1 ⊢; omega) (by simp; omega) (by simp; omega)
      exact ⟨st', brk, hres, inv', by simp at hlt; omega, hbt, hbf⟩
    · subst h
      exact ⟨_, _, rfl, invD, by simp; omega, by simp,
        fun _ => ⟨by simp at hD1 ⊢; omega, by simp; omega⟩⟩

theorem hiGallopTail_spec (cmp : Cmp T) (hc : TotalCmp cmp) (a tmp : List T)
    (base1 base2 end2 : Nat) (hend2 : end2 ≤ a.length) (hbe : base2 ≤ end2)
    (htmp : ∀ i j, i ≤ j → j < tmp.length → cmp (getE tmp i) (getE tmp j) ≤ 0)
    (hdomhi : ∀ i, base1 ≤ i → i < base2 → cmp (getE tmp 0) (getE a i) < 0)
    (n : Nat) (count1 : Nat)
    (ih : ∀ (st : HiSt T) (res : Option (HiSt T × Bool)),
      mergeHiGallop cmp tmp base1 n st = res →
      HiInv a tmp base1 base2 end2 st → 1 ≤ st.len1 → 2 ≤ st.len2 →
      st.len1 + st.len2 < n →
      ∃ st' brk, res = some (st', brk) ∧
        HiInv a tmp base1 base2 end2 st' ∧
        st'.len1 + st'.len2 < st.len1 + st.len2 ∧
        (brk = true → st'.len2 = 1 ∨ st'.len1 = 0 ∧ 2 ≤ st'.len2) ∧
        (brk = false → 1 ≤ st'.len1 ∧ 2 ≤ st'.len2))
    (stA : HiSt T) (res : Option (HiSt T × Bool))
    (h : hiGallopTail cmp tmp base1 n count1 stA = res)
    (invA : HiInv a tmp base1 base2 end2 stA)
    (hA1 : count1 = 0 → 1 ≤ stA.len1) (hA2 : 2 ≤ stA.len2)
    (hfuel : stA.len1 + stA.len2 ≤ n) :
    ∃ st' brk, res = some (st', brk) ∧
      HiInv a tmp base1 base2 end2 st' ∧
      st'.len1 + st'.len2 ≤ stA.len1 + stA.len2 ∧
      (count1 = 0 → st'.len1 + st'.len2 < stA.len1 + stA.len2) ∧
      (brk = true → st'.len2 = 1 ∨ st'.len1 = 0 ∧ 2 ≤ st'.len2) ∧
      (brk = false → 1 ≤ st'.len1 ∧ 2 ≤ st'.len2) := by
  simp only [hiGallopTail] at h
  split at h
  · rename_i hcond1
    subst h
    exact ⟨_, _, rfl, invA, by omega, fun h0 => absurd h0 hcond1.1,
      fun _ => Or.inr ⟨hcond1.2, hA2⟩, by simp⟩
  · rename_i hcond1
    have hA1' : 1 ≤ stA.len1 := by
      rcases Decidable.em (count1 = 0) with h0 | h0
      · exact hA1 h0
      · rcases not_and_or.mp hcond1 with hx | hx
        · exact absurd h0 hx
        · omega
    have invB := hiStep_run2 a tmp base1 base2 end2 stA invA (by omega) hend2
      stA.log stA.events stA.mg
    split at h
    · rename_i hcond2
      subst h
      exact ⟨_, _, rfl, invB, by simp; try omega,
        fun _ => by simp; try omega,
        fun _ => Or.inl (by simpa using hcond2), by simp⟩
    · rename_i hcond2
      have invB' := invB
      obtain ⟨hLB, hAB, hBB, hCB, hDB, hEB, hE2B, hFB, hGB, hPB⟩ := invB'
      simp only at hLB hAB hBB hCB hDB hEB hE2B hFB hGB hcond2
      have hc10 : (0 : Int) ≤ stA.c1 := by omega
      have hkeyv : getI (setI stA.arr stA.dest (getI tmp stA.c2)) stA.c1 =
          getE a stA.c1.toNat := by
        rw [getI_nonneg _ _ hc10]
        exact hFB stA.c1.toNat (by omega)
      have hkey : cmp (getE tmp 0)
          (getI (setI stA.arr stA.dest (getI tmp stA.c2)) stA.c1) < 0 := by
        rw [hkeyv]
        exact hdomhi stA.c1.toNat (by omega) (by omega)
      obtain ⟨k2, glog2, heqB, hk20, hk2le, hk2n⟩ :=
        galBhi cmp hc tmp (getI (setI stA.arr stA.dest (getI tmp stA.c2)) stA.c1)
          (stA.len2 - 1) (by omega) (by omega) htmp hkey
      rw [heqB] at h
      try simp only at h
      split at h
      · rename_i hk2ne
        have invC := hiStepC a tmp base1 base2 end2
          (⟨setI stA.arr stA.dest (getI tmp stA.c2), stA.c1, stA.c2 - 1,
            stA.dest - 1, stA.len1, stA.len2 - 1, stA.mg, stA.log,
            stA.events⟩ : HiSt T)
          invB (stA.len2 - 1 - k2.toNat) (by simp; try omega) hend2 hbe
          (stA.log ++ glog2) stA.events stA.mg
        split at h
        · rename_i hcond3
          subst h
          refine ⟨_, _, rfl, invC, by simp; omega, fun _ => by simp; omega,
            fun _ => Or.inl (by simp at hcond3 ⊢; omega), by simp⟩
        · rename_i hcond3
          have hCl2 : 2 ≤ stA.len2 - 1 - (stA.len2 - 1 - k2.toNat) := by
            rcases not_and_or.mp hcond3 with hx | hx
            · exact absurd hk2ne hx
            · simp at hx
              omega
          obtain ⟨st', brk, hres, inv', hlt, hbt, hbf⟩ := hiGallopTail2_spec cmp a tmp
            base1 base2 end2 hend2 hbe n count1 (stA.len2 - 1 - k2.toNat) ih _ _ h
            invC (by simp; omega) (by simp; omega) (by simp; omega)
          exact ⟨st', brk, hres, inv', by simp at hlt; omega,
            fun _ => by simp at hlt; omega, hbt, hbf⟩
      · rename_i hk2z
        have hcnt0 : stA.len2 - 1 - k2.toNat = 0 := by omega
        split at h
        · rename_i hcond3
          exact absurd hcond3.1 hk2z
        · rename_i hcond3
          obtain ⟨st', brk, hres, inv', hlt, hbt, hbf⟩ := hiGallopTail2_spec cmp a tmp
            base1 base2 end2 hend2 hbe n count1 (stA.len2 - 1 - k2.toNat) ih _ _ h
            invB (by simp; omega) (by simp; omega) (by simp; omega)
          exact ⟨st', brk, hres, inv', by simp at hlt; omega,
            fun _ => by simp at hlt; omega, hbt, hbf⟩

theorem mergeHiGallop_spec (cmp : Cmp T) (hc : TotalCmp cmp) (a tmp : List T)
    (base1 base2 end2 : Nat) (hend2 : end2 ≤ a.length) (hbe : base2 ≤ end2)
    (htmp : ∀ i j, i ≤ j → j < tmp.length → cmp (getE tmp i) (getE tmp j) ≤ 0)
    (ha1 : ∀ i j, base1 ≤ i → i ≤ j → j < base2 → cmp (getE a i) (getE a j) ≤ 0)
    (hdomhi : ∀ i, base1 ≤ i → i < base2 → cmp (getE tmp 0) (getE a i) < 0) :
    ∀ fuel (st : HiSt T) (res : Option (HiSt T × Bool)),
    mergeHiGallop cmp tmp base1 fuel st = res →
    HiInv a tmp base1 base2 end2 st → 1 ≤ st.len1 → 2 ≤ st.len2 →
    st.len1 + st.len2 < fuel →
    ∃ st' brk, res = some (st', brk) ∧
      HiInv a tmp base1 base2 end2 st' ∧
      st'.len1 + st'.len2 < st.len1 + st.len2 ∧
      (brk = true → st'.len2 = 1 ∨ st'.len1 = 0 ∧ 2 ≤ st'.len2) ∧
      (brk = false → 1 ≤ st'.len1 ∧ 2 ≤ st'.len2) := by
  intro fuel
  induction fuel with
  | zero => intro st res h hInv h1 h2 hfuel; omega
  | succ n ih =>
    intro st res h hInv h1 h2 hfuel
    have hInv' := hInv
    obtain ⟨hL, hA, hB, hC, hD, hE, hE2, hF, hG, hP⟩ := hInv'
    obtain ⟨k1, glog1, hg1, hk10, hk1le⟩ :=
      galAhi cmp hc st.arr (getI tmp st.c2) base1 st.len1 (by omega)
        (fun i j hi hij hj => by
          rw [hF i (by omega), hF j (by omega)]
          exact ha1 i j hi hij (by omega))
    simp only [mergeHiGallop, hg1] at h
    split at h
    · rename_i hcnt
      have invA := hiStepA a tmp base1 base2 end2 st hInv (st.len1 - k1.toNat)
        (by omega) (by omega) (by omega) hend2 hbe (st.log ++ glog1) st.events st.mg
      change hiGallopTail cmp tmp base1 n (st.len1 - k1.toNat)
        (⟨arraycopy st.arr
            (st.c1 - ((st.len1 - k1.toNat : Nat) : Int) + 1).toNat st.arr
            (st.dest - ((st.len1 - k1.toNat : Nat) : Int) + 1).toNat
            (st.len1 - k1.toNat),
          st.c1 - ((st.len1 - k1.toNat : Nat) : Int), st.c2,
          st.dest - ((st.len1 - k1.toNat : Nat) : Int),
          st.len1 - (st.len1 - k1.toNat), st.len2, st.mg, st.log ++ glog1,
          st.events⟩ : HiSt T) = res at h
      obtain ⟨st', brk, hres, inv', hle, hlt0, hbt, hbf⟩ := hiGallopTail_spec cmp hc a
        tmp base1 base2 end2 hend2 hbe htmp hdomhi n (st.len1 - k1.toNat) ih _ _ h
        invA (fun h0 => absurd h0 hcnt) (by simp; omega) (by simp; omega)
      exact ⟨st', brk, hres, inv', by simp at hle; omega, hbt, hbf⟩
    · rename_i hcnt
      have hk1z : st.len1 - k1.toNat = 0 := by omega
      have invA : HiInv a tmp base1 base2 end2
          (⟨st.arr, st.c1, st.c2, st.dest, st.len1, st.len2, st.mg,
            st.log ++ glog1, st.events⟩ : HiSt T) :=
        ⟨hL, hA, hB, hC, hD, hE, hE2, hF, hG, hP⟩
      change hiGallopTail cmp tmp base1 n (st.len1 - k1.toNat)
        (⟨st.arr, st.c1, st.c2, st.dest, st.len1, st.len2, st.mg,
          st.log ++ glog1, st.events⟩ : HiSt T) = res at h
      obtain ⟨st', brk, hres, inv', hle, hlt0, hbt, hbf⟩ := hiGallopTail_spec cmp hc a
        tmp base1 base2 end2 hend2 hbe htmp hdomhi n (st.len1 - k1.toNat) ih _ _ h
        invA (fun _ => by simp; omega) (by simp; omega) (by simp; omega)
      have hstrict := hlt0 hk1z
      exact ⟨st', brk, hres, inv', by simp at hstrict; omega, hbt, hbf⟩

theorem mergeHiFinish_post (a tmp : List T) (base1 base2 end2 : Nat)
    (hend2 : end2 ≤ a.length) (hbe : base2 ≤ end2) (hb1 : base1 ≤ base2)
    (st : HiSt T) (inv : HiInv a tmp base1 base2 end2 st)
    (hexit : st.len2 = 1 ∨ st.len1 = 0 ∧ 2 ≤ st.len2) :
    (mergeHiFinish tmp st).err = false ∧
    (mergeHiFinish tmp st).arr.length = a.length ∧
    (regionOf (mergeHiFinish tmp st).arr base1 end2).Perm
      (regionOf a base1 base2 ++ tmp) ∧
    (∀ i, i < base1 → getE (mergeHiFinish tmp st).arr i = getE a i) ∧
    (∀ i, end2 ≤ i → getE (mergeHiFinish tmp st).arr i = getE a i) := by
  obtain ⟨hL, hA, hB, hC, hD, hE, hE2, hF, hG, hP⟩ := inv
  rcases hexit with he1 | ⟨he1, he2⟩
  · have hfin : mergeHiFinish tmp st =
        ⟨setI (arraycopy st.arr (st.c1 - st.len1 + 1).toNat st.arr
            (st.dest - st.len1 + 1).toNat st.len1) (st.dest - st.len1)
          (getI tmp st.c2), false, st.len1, st.len2, st.log,
          st.events ++ [(MGEvent.finalClamp, if st.mg < 1 then 1 else st.mg)]⟩ := by
      simp only [mergeHiFinish]
      rw [if_pos he1]
    rw [hfin]
    have hd2 : st.dest - st.len1 = (base1 : Int) := by omega
    have hc12 : (st.c1 - st.len1 + 1).toNat = base1 := by omega
    have hd12 : (st.dest - st.len1 + 1).toNat = base1 + 1 := by omega
    have hble : base1 + 1 + st.len1 = (st.dest + 1).toNat := by omega
    have hset : setI (arraycopy st.arr (st.c1 - st.len1 + 1).toNat st.arr
        (st.dest - st.len1 + 1).toNat st.len1) (st.dest - st.len1)
        (getI tmp st.c2) =
        (arraycopy st.arr base1 st.arr (base1 + 1) st.len1).set base1
          (getE tmp 0) := by
      rw [hc12, hd12, hd2, setI_nonneg _ _ _ (by omega), Int.toNat_natCast]
      congr 1
      rw [show st.c2 = ((0 : Nat) : Int) from by omega, getI_nonneg _ _ (by omega)]
      simp
    rw [hset]
    refine ⟨rfl, by simp [arraycopy_length, hL], ?_, ?_, ?_⟩
    · simp only
      rw [regionOf_set_prepend _ _ _ _ (by omega) (by simp [arraycopy_length]; omega)]
      rw [regionOf_arraycopy_prepend st.arr base1 st.arr (base1 + 1) st.len1 end2
        (by omega) (by omega) (by omega), hble]
      have hseg : (st.arr.drop base1).take st.len1 = (a.drop base1).take st.len1 :=
        drop_take_ext _ _ _ _ hL (by omega) (fun i hi1 hi2 => hF i (by omega))
      have hreg : regionOf a base1 (base1 + st.len1) =
          (a.drop base1).take st.len1 := by
        have := regionOf_drop_take a base1 (base1 + st.len1)
        rw [Nat.add_sub_cancel_left] at this
        exact this
      rw [hseg, ← hreg]
      have htc : tmp = getE tmp 0 :: tmp.drop 1 := by
        have := drop_getE_cons tmp 0 (by omega)
        rwa [List.drop_zero] at this
      refine (List.Perm.cons _ (List.Perm.append_left _ hP)).trans ?_
      rw [show (st.c1 + 1).toNat = base1 + st.len1 from by omega]
      rw [show (st.c2 + 1).toNat = 1 from by omega]
      rw [← List.append_assoc,
        ← regionOf_split a base1 (base1 + st.len1) base2 (by omega) (by omega)
          (by omega)]
      conv_rhs => rw [htc]
      exact List.perm_middle.symm
    · intro i hi
      simp only
      rw [getE_set_ne _ _ _ _ (by omega),
        getE_arraycopy_outside _ _ _ _ _ _ (Or.inl (by omega))]
      exact hF i (by omega)
    · intro i hi
      simp only
      rw [getE_set_ne _ _ _ _ (by omega),
        getE_arraycopy_outside _ _ _ _ _ _ (Or.inr (by omega))]
      exact hG i hi
  · have hfin : mergeHiFinish tmp st =
        ⟨arraycopy tmp 0 st.arr (st.dest - (st.len2 - 1)).toNat st.len2,
          false, st.len1, st.len2, st.log,
          st.events ++ [(MGEvent.finalClamp, if st.mg < 1 then 1 else st.mg)]⟩ := by
      simp only [mergeHiFinish]
      rw [if_neg (by omega), if_neg (by omega)]
    rw [hfin]
    have hdp : (st.dest - (st.len2 - 1)).toNat = base1 := by omega
    have hble : base1 + st.len2 = (st.dest + 1).toNat := by omega
    rw [hdp]
    refine ⟨rfl, by simp [arraycopy_length, hL], ?_, ?_, ?_⟩
    · simp only
      rw [regionOf_arraycopy_prepend tmp 0 st.arr base1 st.len2 end2
        (by omega) (by omega) (by omega), hble, List.drop_zero]
      refine (List.Perm.append_left _ hP).trans ?_
      rw [show (st.c1 + 1).toNat = base1 from by omega]
      rw [show (st.c2 + 1).toNat = st.len2 from by omega]
      rw [← List.append_assoc]
      refine (List.Perm.append_right _ List.perm_append_comm).trans ?_
      rw [List.append_assoc, List.take_append_drop]
    · intro i hi
      simp only
      rw [getE_arraycopy_outside _ _ _ _ _ _ (Or.inl (by omega))]
      exact hF i (by omega)
    · intro i hi
      simp only
      rw [getE_arraycopy_outside _ _ _ _ _ _ (Or.inr (by omega))]
      exact hG i hi

theorem mergeHiOuter_spec (cmp : Cmp T) (hc : TotalCmp cmp) (a tmp : List T)
    (base1 base2 end2 : Nat) (hend2 : end2 ≤ a.length) (hbe : base2 ≤ end2)
    (hb1 : base1 ≤ base2)
    (htmp : ∀ i j, i ≤ j → j < tmp.length → cmp (getE tmp i) (getE tmp j) ≤ 0)
    (ha1 : ∀ i j, base1 ≤ i → i ≤ j → j < base2 → cmp (getE a i) (getE a j) ≤ 0)
    (hdomhi : ∀ i, base1 ≤ i → i < base2 → cmp (getE tmp 0) (getE a i) < 0) :
    ∀ fuel (st : HiSt T) (res : Option (MergeRes T)),
    mergeHiOuter cmp tmp base1 fuel st = res →
    HiInv a tmp base1 base2 end2 st → 1 ≤ st.len1 → 2 ≤ st.len2 →
    st.len1 + st.len2 ≤ fuel →
    ∃ r, res = some r ∧ r.err = false ∧ r.arr.length = a.length ∧
      (regionOf r.arr base1 end2).Perm (regionOf a base1 base2 ++ tmp) ∧
      (∀ i, i < base1 → getE r.arr i = getE a i) ∧
      (∀ i, end2 ≤ i → getE r.arr i = getE a i) := by
  intro fuel
  induction fuel with
  | zero => intro st res h hInv h1 h2 hfuel; omega
  | succ n ih =>
    intro st res h hInv h1 h2 hfuel
    simp only [mergeHiOuter] at h
    split at h
    · rename_i heq1
      obtain ⟨st1, brk1, hres, _⟩ := mergeHiStraight_spec cmp a tmp base1 base2 end2
        hend2 hbe (st.len1 + st.len2 + 1) st 0 0 _ heq1 hInv h1 h2 (by omega)
      exact Option.noConfusion hres
    · rename_i st1' heq1
      obtain ⟨st1, brk1, hres, inv1, hdec1, hbt1, hbf1⟩ := mergeHiStraight_spec cmp a
        tmp base1 base2 end2 hend2 hbe (st.len1 + st.len2 + 1) st 0 0 _ heq1 hInv h1
        h2 (by omega)
      injection hres with hres'
      injection hres' with ha hb
      subst ha
      subst h
      obtain ⟨p1, p2, p3, p4, p5⟩ := mergeHiFinish_post a tmp base1 base2 end2 hend2
        hbe hb1 st1' inv1 (hbt1 hb.symm)
      exact ⟨_, rfl, p1, p2, p3, p4, p5⟩
    · rename_i st1' heq1
      obtain ⟨st1, brk1, hres, inv1, hdec1, hbt1, hbf1⟩ := mergeHiStraight_spec cmp a
        tmp base1 base2 end2 hend2 hbe (st.len1 + st.len2 + 1) st 0 0 _ heq1 hInv h1
        h2 (by omega)
      injection hres with hres'
      injection hres' with ha hb
      subst ha
      obtain ⟨h1f, h2f⟩ := hbf1 hb.symm
      split at h
      · rename_i heq2
        obtain ⟨st2, brk2, hres2, _⟩ := mergeHiGallop_spec cmp hc a tmp base1 base2
          end2 hend2 hbe htmp ha1 hdomhi (st1'.len1 + st1'.len2 + 1) st1' _ heq2 inv1
          h1f h2f (by omega)
        exact Option.noConfusion hres2
      · rename_i st2' heq2
        obtain ⟨st2, brk2, hres2, inv2, hdec2, hbt2, hbf2⟩ := mergeHiGallop_spec cmp
          hc a tmp base1 base2 end2 hend2 hbe htmp ha1 hdomhi
          (st1'.len1 + st1'.len2 + 1) st1' _ heq2 inv1 h1f h2f (by omega)
        injection hres2 with hres2'
        injection hres2' with ha2' hb2'
        subst ha2'
        subst h
        obtain ⟨p1, p2, p3, p4, p5⟩ := mergeHiFinish_post a tmp base1 base2 end2
          hend2 hbe hb1 st2' inv2 (hbt2 hb2'.symm)
        exact ⟨_, rfl, p1, p2, p3, p4, p5⟩
      · rename_i st2' heq2
        obtain ⟨st2, brk2, hres2, inv2, hdec2, hbt2, hbf2⟩ := mergeHiGallop_spec cmp
          hc a tmp base1 base2 end2 hend2 hbe htmp ha1 hdomhi
          (st1'.len1 + st1'.len2 + 1) st1' _ heq2 inv1 h1f h2f (by omega)
        injection hres2 with hres2'
        injection hres2' with ha2' hb2'
        subst ha2'
        obtain ⟨h1g, h2g⟩ := hbf2 hb2'.symm
        have inv2' := inv2
        obtain ⟨q1, q2, q3, q4, q5, q6, q7, q8, q9, q10⟩ := inv2'
        exact ih _ _ h ⟨q1, q2, q3, q4, q5, q6, q7, q8, q9, q10⟩
          (by simpa using h1g) (by simpa using h2g) (by simp; omega)

theorem mergeHi_post (cmp : Cmp T) (hc : TotalCmp cmp) (a : List T)
    (base1 len1 base2 len2 : Nat) (hb2 : base2 = base1 + len1)
    (hlen : base2 + len2 ≤ a.length) (h1 : 1 ≤ len1) (h2 : 1 ≤ len2)
    (hs1 : ∀ i j, base1 ≤ i → i ≤ j → j < base2 → cmp (getE a i) (getE a j) ≤ 0)
    (hs2 : ∀ i j, base2 ≤ i → i ≤ j → j < base2 + len2 →
      cmp (getE a i) (getE a j) ≤ 0)
    (hfirst : cmp (getE a base2) (getE a base1) < 0) :
    ∃ r, mergeHi cmp a base1 len1 base2 len2 = some r ∧ r.err = false ∧
      r.arr.length = a.length ∧
      (regionOf r.arr base1 (base2 + len2)).Perm (regionOf a base1 (base2 + len2)) ∧
      (∀ i, i < base1 → getE r.arr i = getE a i) ∧
      (∀ i, base2 + len2 ≤ i → getE r.arr i = getE a i) := by
  have htl : ((a.drop base2).take len2).length = len2 := by
    simp
    omega
  have hgt : ∀ i, i < len2 →
      getE ((a.drop base2).take len2) i = getE a (base2 + i) := by
    intro i hi
    rw [getE_take _ _ _ hi, getE_drop]
  have htmpreg : (a.drop base2).take len2 = regionOf a base2 (base2 + len2) := by
    rw [regionOf_drop_take, show base2 + len2 - base2 = len2 from by omega]
  have hregsplit : regionOf a base1 (base2 + len2) =
      regionOf a base1 base2 ++ (a.drop base2).take len2 := by
    rw [regionOf_split a base1 base2 (base2 + len2) (by omega) (by omega) hlen,
      ← htmpreg]
  simp only [mergeHi]
  split
  · rename_i hz
    rw [show ((base1 : Int) + len1 - 1) = ((base1 : Nat) : Int) from by omega,
      getI_nonneg a _ (by omega),
      show ((base2 : Int) + len2 - 1) = ((base2 + len2 - 1 : Nat) : Int) from
        by omega,
      setI_nonneg a _ _ (by omega)]
    simp only [Int.toNat_natCast]
    rw [show (((base2 + len2 - 1 : Nat) : Int) - 1 - ((len2 : Int) - 1)).toNat =
        base1 from by omega]
    refine ⟨_, rfl, rfl, ?_, ?_, ?_, ?_⟩
    · simp [arraycopy_length]
    · simp only
      rw [regionOf_arraycopy_prepend _ _ _ _ _ _ (by omega) (by simp; omega)
        (by simp; omega), List.drop_zero, List.take_take, min_self]
      rw [show base1 + len2 = base2 + len2 - 1 from by omega]
      rw [regionOf_set_prepend _ _ _ _ (by omega) (by omega),
        show base2 + len2 - 1 + 1 = base2 + len2 from by omega, regionOf_self]
      rw [hregsplit,
        show regionOf a base1 base2 = [getE a base1] from by
          rw [show base2 = base1 + 1 from by omega]
          exact regionOf_single a base1 (by omega)]
      exact List.perm_append_comm
    · intro i hi
      simp only
      rw [getE_arraycopy_outside _ _ _ _ _ _ (Or.inl (by omega)),
        getE_set_ne _ _ _ _ (by omega)]
    · intro i hi
      simp only
      rw [getE_arraycopy_outside _ _ _ _ _ _ (Or.inr (by omega)),
        getE_set_ne _ _ _ _ (by omega)]
  · rename_i hz
    split
    · rename_i ho
      have etv : getE ((a.drop base2).take len2) (len2 - 1) = getE a base2 := by
        rw [hgt (len2 - 1) (by omega)]
        congr 1
        omega
      rw [show ((base1 : Int) + len1 - 1) = ((base1 + len1 - 1 : Nat) : Int) from
          by omega,
        getI_nonneg a _ (by omega),
        show ((base2 : Int) + len2 - 1) = ((base2 : Nat) : Int) from by omega,
        setI_nonneg a _ _ (by omega)]
      simp only [Int.toNat_natCast]
      rw [show (((base2 : Nat) : Int) - 1 - ((len1 - 1 : Nat) : Int)) =
          ((base1 : Nat) : Int) from by omega]
      rw [setI_nonneg _ _ _ (by omega)]
      simp only [Int.toNat_natCast]
      rw [show (((base1 : Nat) : Int) + 1).toNat = base1 + 1 from by omega]
      rw [show (((base1 + len1 - 1 : Nat) : Int) - 1 - ((len1 - 1 : Nat) : Int) +
          1).toNat = base1 from by omega]
      rw [etv]
      refine ⟨_, rfl, rfl, ?_, ?_, ?_, ?_⟩
      · simp [arraycopy_length]
      · simp only
        have eA : (((a.set base2 (getE a (base1 + len1 - 1))).drop base1).take
            (len1 - 1)) = (a.drop base1).take (len1 - 1) :=
          drop_take_ext _ _ _ _ (by simp) (by simp; omega)
            (fun i hi1 hi2 => getE_set_ne _ _ _ _ (by omega))
        rw [regionOf_set_prepend _ _ _ _ (by omega)
          (by simp [arraycopy_length]; omega)]
        rw [regionOf_arraycopy_prepend _ _ _ _ _ _ (by omega) (by simp; omega)
          (by simp; omega), eA]
        rw [show base1 + 1 + (len1 - 1) = base2 from by omega]
        rw [regionOf_set_prepend _ _ _ _ (by omega) (by omega)]
        rw [show regionOf a (base2 + 1) (base2 + len2) = [] from by
          rw [show base2 + len2 = base2 + 1 from by omega]
          exact regionOf_self a _]
        rw [hregsplit,
          show (a.drop base2).take len2 = [getE a base2] from by
            rw [htmpreg, show base2 + len2 = base2 + 1 from by omega]
            exact regionOf_single a base2 (by omega)]
        rw [show regionOf a base1 base2 =
            (a.drop base1).take (len1 - 1) ++ [getE a (base1 + (len1 - 1))] from by
          rw [show base2 = base1 + (len1 - 1) + 1 from by omega,
            regionOf_succ a base1 (base1 + (len1 - 1)) (by omega) (by omega),
            regionOf_drop_take, show base1 + (len1 - 1) - base1 = len1 - 1 from
              by omega]]
        rw [show base1 + (len1 - 1) = base1 + len1 - 1 from by omega]
        exact ((List.perm_append_singleton _ _).symm).trans
          (List.Perm.append_right _ (List.Perm.refl _))
      · intro i hi
        simp only
        rw [getE_set_ne _ _ _ _ (by omega),
          getE_arraycopy_outside _ _ _ _ _ _ (Or.inl (by omega)),
          getE_set_ne _ _ _ _ (by omega)]
      · intro i hi
        simp only
        rw [getE_set_ne _ _ _ _ (by omega),
          getE_arraycopy_outside _ _ _ _ _ _ (Or.inr (by omega)),
          getE_set_ne _ _ _ _ (by omega)]
    · rename_i ho
      have htmps : ∀ i j, i ≤ j → j < ((a.drop base2).take len2).length →
          cmp (getE ((a.drop base2).take len2) i)
            (getE ((a.drop base2).take len2) j) ≤ 0 := by
        intro i j hij hj
        rw [htl] at hj
        rw [hgt i (by omega), hgt j hj]
        exact hs2 (base2 + i) (base2 + j) (by omega) (by omega) (by omega)
      have hdomhi : ∀ i, base1 ≤ i → i < base2 →
          cmp (getE ((a.drop base2).take len2) 0) (getE a i) < 0 := by
        intro i hi1 hi2
        rw [hgt 0 (by omega), Nat.add_zero]
        exact hc.lt_le_trans hfirst (hs1 base1 i le_rfl hi1 hi2)
      rw [show ((base1 : Int) + len1 - 1) = ((base1 + len1 - 1 : Nat) : Int) from
          by omega,
        getI_nonneg a _ (by omega),
        show ((base2 : Int) + len2 - 1) = ((base2 + len2 - 1 : Nat) : Int) from
          by omega,
        setI_nonneg a _ _ (by omega)]
      simp only [Int.toNat_natCast]
      have hInv0 : HiInv a ((a.drop base2).take len2) base1 base2 (base2 + len2)
          ⟨a.set (base2 + len2 - 1) (getE a (base1 + len1 - 1)),
            ((base1 + len1 - 1 : Nat) : Int) - 1, (len2 : Int) - 1,
            ((base2 + len2 - 1 : Nat) : Int) - 1, len1 - 1, len2,
            MIN_GALLOP, [], []⟩ := by
        refine ⟨by simp, by simp; omega, by simp, by simp; omega,
          by simp; omega, by simp; omega, by simp; omega, ?_, ?_, ?_⟩
        · intro i hi
          simp only at hi ⊢
          exact getE_set_ne _ _ _ _ (by omega)
        · intro i hi
          simp only at hi ⊢
          exact getE_set_ne _ _ _ _ (by omega)
        · simp only
          rw [show ((((base2 + len2 - 1 : Nat) : Int) - 1) + 1).toNat =
              base2 + len2 - 1 from by omega,
            show ((((base1 + len1 - 1 : Nat) : Int) - 1) + 1).toNat =
              base1 + len1 - 1 from by omega,
            show (((len2 : Int) - 1) + 1).toNat = len2 from by omega]
          rw [regionOf_set_prepend _ _ _ _ (by omega) (by omega),
            show base2 + len2 - 1 + 1 = base2 + len2 from by omega, regionOf_self]
          rw [show regionOf a (base1 + len1 - 1) base2 =
              [getE a (base1 + len1 - 1)] from by
            rw [show base2 = base1 + len1 - 1 + 1 from by omega]
            exact regionOf_single a _ (by omega)]
          rw [List.drop_eq_nil_of_le (by simp)]
          simp
      obtain ⟨r, hres, p1, p2, p3, p4, p5⟩ := mergeHiOuter_spec cmp hc a
        ((a.drop base2).take len2) base1 base2 (base2 + len2) hlen (by omega)
        (by omega) htmps hs1 hdomhi (len1 + len2 + 1) _ _ rfl hInv0
        (by simp; omega) (by simp; omega) (by simp; omega)
      refine ⟨r, hres, p1, p2, ?_, p4, p5⟩
      rw [hregsplit]
      exact p3

/-- C9: `mergeLo` reports the fatal comparator-contract-violation error exactly
when its merge loop exits with `len1 = 0` (and `mergeHi` exactly when it exits
with `len2 = 0`); when the comparator is a consistent total order and the two
adjacent runs satisfy the merge preconditions, the error branch is never taken
and on the non-error exit the merged range `[base1, base2+len2)` is fully
written: it holds a permutation of its input contents and every position
outside it is untouched. -/
theorem C9_merge_error_handling (cmp : Cmp T) (a : List T)
    (base1 len1 base2 len2 : Nat) :
    (∀ r, 1 ≤ len1 → mergeLo cmp a base1 len1 base2 len2 = some r →
      (r.err = true ↔ r.exitLen1 = 0)) ∧
    (∀ r, 1 ≤ len2 → mergeHi cmp a base1 len1 base2 len2 = some r →
      (r.err = true ↔ r.exitLen2 = 0)) ∧
    (TotalCmp cmp → base2 = base1 + len1 → base2 + len2 ≤ a.length →
      1 ≤ len1 → 1 ≤ len2 →
      (∀ i j, base1 ≤ i → i ≤ j → j < base2 → cmp (getE a i) (getE a j) ≤ 0) →
      (∀ i j, base2 ≤ i → i ≤ j → j < base2 + len2 →
        cmp (getE a i) (getE a j) ≤ 0) →
      (cmp (getE a (base2 + len2 - 1)) (getE a (base1 + len1 - 1)) < 0 →
        ∃ r, mergeLo cmp a base1 len1 base2 len2 = some r ∧ r.err = false ∧
          r.arr.length = a.length ∧
          (regionOf r.arr base1 (base2 + len2)).Perm
            (regionOf a base1 (base2 + len2)) ∧
          (∀ i, i < base1 → getE r.arr i = getE a i) ∧
          (∀ i, base2 + len2 ≤ i → getE r.arr i = getE a i)) ∧
      (cmp (getE a base2) (getE a base1) < 0 →
        ∃ r, mergeHi cmp a base1 len1 base2 len2 = some r ∧ r.err = false ∧
          r.arr.length = a.length ∧
          (regionOf r.arr base1 (base2 + len2)).Perm
            (regionOf a base1 (base2 + len2)) ∧
          (∀ i, i < base1 → getE r.arr i = getE a i) ∧
          (∀ i, base2 + len2 ≤ i → getE r.arr i = getE a i))) := by
  refine ⟨fun r h1 h => mergeLo_err_iff cmp a base1 len1 base2 len2 h1 r h,
    fun r h2 h => mergeHi_err_iff cmp a base1 len1 base2 len2 h2 r h,
    fun hc hb2 hlen h1 h2 hs1 hs2 => ⟨fun hlast => ?_, fun hfirst => ?_⟩⟩
  · exact mergeLo_post cmp hc a base1 len1 base2 len2 hb2 hlen h1 h2 hs1 hs2 hlast
  · exact mergeHi_post cmp hc a base1 len1 base2 len2 hb2 hlen h1 h2 hs1 hs2 hfirst

theorem C9_merge_error_handling_witness :
    ∃ rL rH, mergeLo intCmp ([2, 5, 1, 3] : List Int) 0 2 2 2 = some rL ∧
      mergeHi intCmp ([2, 5, 1, 3] : List Int) 0 2 2 2 = some rH ∧
      rL.err = false ∧ rH.err = false ∧
      (rL.err = true ↔ rL.exitLen1 = 0) ∧ (rH.err = true ↔ rH.exitLen2 = 0) ∧
      (regionOf rL.arr 0 4).Perm (regionOf ([2, 5, 1, 3] : List Int) 0 4) ∧
      (regionOf rH.arr 0 4).Perm (regionOf ([2, 5, 1, 3] : List Int) 0 4) := by
  obtain ⟨e1, e2, e3⟩ :=
    C9_merge_error_handling intCmp ([2, 5, 1, 3] : List Int) 0 2 2 2
  obtain ⟨hLo, hHi⟩ := e3 totalCmp_intCmp rfl (by decide) (by decide) (by decide)
    (by intro i j hi hij hj; interval_cases j <;> interval_cases i <;> decide)
    (by intro i j hi hij hj; interval_cases j <;> interval_cases i <;> decide)
  obtain ⟨rL, hrL, herrL, hlenL, hpermL, hloL, hhiL⟩ := hLo (by decide)
  obtain ⟨rH, hrH, herrH, hlenH, hpermH, hloH, hhiH⟩ := hHi (by decide)
  exact ⟨rL, rH, hrL, hrH, herrL, herrH, e1 rL (by decide) hrL,
    e2 rH (by decide) hrH, hpermL, hpermH⟩


end Timsort
